import Mathlib

/-! # trim_pmtiles: tile selection, deduplication and address remapping

A shallow embedding of `core/files/trim_pmtiles.go`: the per-entry callback
`op`, the pass that drives it, the sort of the distinct ranges, the
construction of `remap`, the entry rewrite, the derived header fields and the
copy loop.

Go machine integers are natural numbers; every `uint64` addition and
subtraction of the source is written with `add64` / `sub64` (reduction modulo
`2 ^ 64`) and the narrowing conversion `uint32(rl)` with `toU32`.  Values read
from the archive are constrained by the `wf` predicates (each field fits its Go
type).
-/

namespace TrimPmtiles

/-! ## Machine integers -/

/-- Number of values of a Go `uint64`. -/
def U64 : Nat := 2 ^ 64

/-- Number of values of a Go `uint32`. -/
def U32 : Nat := 2 ^ 32

/-- Go `a + b` on `uint64` operands. -/
def add64 (a b : Nat) : Nat := (a + b) % U64

/-- Go `a - b` on `uint64` operands. -/
def sub64 (a b : Nat) : Nat := (a + U64 - b % U64) % U64

/-- Go conversion `uint32(x)` of a `uint64` value. -/
def toU32 (x : Nat) : Nat := x % U32

/-! ## Data model -/

/-- The source's `tileKey`: `off uint64`, `len uint32`. -/
structure tileKey where
  off : Nat
  len : Nat
deriving DecidableEq, Repr

/-- Every field of the key fits its Go type. -/
def tileKey.wf (k : tileKey) : Prop := k.off < U64 ∧ k.len < U32

instance (k : tileKey) : Decidable k.wf := by unfold tileKey.wf; infer_instance

/-- The fields of `pmtiles.EntryV3`: `TileID uint64`, `Offset uint64`,
`Length uint32`, `RunLength uint32`. -/
structure EntryV3 where
  TileID : Nat
  Offset : Nat
  Length : Nat
  RunLength : Nat
deriving DecidableEq, Repr

/-- Every field of the entry fits its Go type. -/
def EntryV3.wf (e : EntryV3) : Prop :=
  e.TileID < U64 ∧ e.Offset < U64 ∧ e.Length < U32 ∧ e.RunLength < U32

instance (e : EntryV3) : Decidable e.wf := by unfold EntryV3.wf; infer_instance

/-- The fields of `pmtiles.HeaderV3` that `main` reads or writes (`MinZoom` is
carried over untouched by `outHdr := hdr`). -/
structure HeaderV3 where
  RootOffset : Nat
  RootLength : Nat
  MetadataOffset : Nat
  MetadataLength : Nat
  LeafDirectoryOffset : Nat
  LeafDirectoryLength : Nat
  TileDataOffset : Nat
  TileDataLength : Nat
  AddressedTilesCount : Nat
  TileEntriesCount : Nat
  TileContentsCount : Nat
  Clustered : Bool
  MinZoom : Nat
  MaxZoom : Nat
  CenterZoom : Nat
deriving DecidableEq, Repr

/-- The two header fields read by `op` fit a `uint64`. -/
def HeaderV3.wf (hdr : HeaderV3) : Prop :=
  hdr.TileDataOffset < U64 ∧ hdr.TileDataLength < U64

instance (hdr : HeaderV3) : Decidable hdr.wf := by unfold HeaderV3.wf; infer_instance

/-- The value of `opErr` when it is not nil: the four numbers formatted into
`"invalid tile range: off=%d len=%d tileDataLen=%d tileDataOff=%d"`. -/
structure InvalidTileRange where
  off : Nat
  len : Nat
  tileDataLen : Nat
  tileDataOff : Nat
deriving DecidableEq, Repr

/-- The variables captured and mutated by the closure `op`: `entries`,
`addressed`, the key set `seen`, `ranges` and `opErr`. -/
structure PassState where
  entries : List EntryV3
  addressed : Nat
  seen : List tileKey
  ranges : List tileKey
  opErr : Option InvalidTileRange
deriving DecidableEq, Repr

/-- The state before `IterateEntries` is called: everything empty, `opErr` nil. -/
def PassState.init : PassState :=
  { entries := [], addressed := 0, seen := [], ranges := [], opErr := none }

/-- The key `tileKey{off: e.Offset, len: e.Length}` of an entry. -/
def keyOf (e : EntryV3) : tileKey := { off := e.Offset, len := e.Length }

/-! ## Pass one: the callback `op` -/

/-- The run length computed by `op` (lines 99-105) before the `rl == 0` test:
zero becomes one, then a run crossing `maxTileID` is cut. -/
def runLen (maxTileID : Nat) (e : EntryV3) : Nat :=
  let rl := if e.RunLength = 0 then 1 else e.RunLength
  if add64 e.TileID rl > maxTileID then sub64 maxTileID e.TileID else rl

/-- The offset resolution of `op` (lines 113-122): `some relOff`, or `none`
when the `else` branch sets `opErr`. -/
def resolveOffset (hdr : HeaderV3) (e : EntryV3) : Option Nat :=
  if add64 e.Offset e.Length > hdr.TileDataLength then
    if e.Offset ≥ hdr.TileDataOffset ∧
        add64 e.Offset e.Length ≤ add64 hdr.TileDataOffset hdr.TileDataLength then
      some (sub64 e.Offset hdr.TileDataOffset)
    else none
  else some e.Offset

/-- The closure `op` (lines 91-133), as a state transformer. -/
def op (hdr : HeaderV3) (maxTileID : Nat) (st : PassState) (e : EntryV3) : PassState :=
  if st.opErr ≠ none then st
  else if e.TileID ≥ maxTileID ∨ e.Length = 0 then st
  else
    let rl := runLen maxTileID e
    if rl = 0 then st
    else
      let e1 : EntryV3 := { e with RunLength := toU32 rl }
      match resolveOffset hdr e1 with
      | none =>
        let err : InvalidTileRange :=
          { off := e1.Offset, len := e1.Length,
            tileDataLen := hdr.TileDataLength, tileDataOff := hdr.TileDataOffset }
        { st with opErr := some err }
      | some relOff =>
        let e2 : EntryV3 := { e1 with Offset := relOff }
        let k := keyOf e2
        let seen1 := if k ∈ st.seen then st.seen else k :: st.seen
        let ranges1 := if k ∈ st.seen then st.ranges else st.ranges ++ [k]
        { entries := st.entries ++ [e2],
          addressed := add64 st.addressed e2.RunLength,
          seen := seen1,
          ranges := ranges1,
          opErr := none }

/-- Pass one: `pmtiles.IterateEntries(hdr, fetch, op)` calls `op` once per
entry of the directory, in order; the entry stream is the list `es`. -/
def passOne (hdr : HeaderV3) (maxTileID : Nat) (es : List EntryV3) : PassState :=
  es.foldl (op hdr maxTileID) PassState.init

/-! ## Pass two: sort, remap, rewrite, header, copy -/

/-- The comparator handed to `sort.Slice` (lines 139-144). -/
def less (a b : tileKey) : Bool :=
  if a.off = b.off then decide (a.len < b.len) else decide (a.off < b.off)

/-- The effect of `sort.Slice(ranges, less)`: the list reordered so that no
later element is `less` than an earlier one (insertion sort; `less` is a strict
total order on keys, so on a duplicate-free list every sorting algorithm
returns this same list). -/
def sortRanges (ranges : List tileKey) : List tileKey :=
  ranges.insertionSort (fun a b => less b a = false)

/-- A Go `map[tileKey]uint64`: the value stored under each key, if any. -/
def Remap : Type := tileKey → Option Nat

/-- The result of `make(map[tileKey]uint64, n)`: no key present. -/
def Remap.empty : Remap := fun _ => none

/-- The assignment `m[k] = v`. -/
def Remap.set (m : Remap) (k : tileKey) (v : Nat) : Remap :=
  fun k' => if k' = k then some v else m k'

/-- The read `m[k]`: the stored value, or the zero value for an absent key. -/
def Remap.get (m : Remap) (k : tileKey) : Nat := (m k).getD 0

/-- The loop of lines 148-151, started from any map and running total:
`remap[r] = tileBytes; tileBytes += uint64(r.len)`. -/
def remapLoop (ranges : List tileKey) (m : Remap) (tileBytes : Nat) : Remap × Nat :=
  ranges.foldl (fun acc r => (acc.1.set r acc.2, add64 acc.2 r.len)) (m, tileBytes)

/-- Lines 146-151: the map `remap` and the final `tileBytes`. -/
def buildRemap (ranges : List tileKey) : Remap × Nat :=
  remapLoop ranges Remap.empty 0

/-- Lines 152-155: every entry's offset is replaced by `remap[k]`. -/
def rewriteEntries (remap : Remap) (entries : List EntryV3) : List EntryV3 :=
  entries.map (fun e => { e with Offset := remap.get (keyOf e) })

/-- Lines 159-175: the output header.  `maxZoom` is the requested zoom,
`headerLen` the library constant `pmtiles.HeaderV3LenBytes`, and `rootLen`,
`metaLen`, `leafLen` the lengths of `rootBytes`, `metaRaw`, `leafBytes`. -/
def outHeader (hdr : HeaderV3) (maxZoom addressed nEntries nRanges : Nat)
    (headerLen rootLen metaLen leafLen tileBytes : Nat) : HeaderV3 :=
  let h1 : HeaderV3 := { hdr with MaxZoom := maxZoom }
  let h2 : HeaderV3 := if h1.CenterZoom > maxZoom then { h1 with CenterZoom := maxZoom } else h1
  let h3 : HeaderV3 :=
    { h2 with AddressedTilesCount := addressed, TileEntriesCount := nEntries,
              TileContentsCount := nRanges }
  let h4 : HeaderV3 := { h3 with RootOffset := headerLen, RootLength := rootLen }
  let h5 : HeaderV3 :=
    { h4 with MetadataOffset := add64 h4.RootOffset h4.RootLength, MetadataLength := metaLen }
  let h6 : HeaderV3 :=
    { h5 with LeafDirectoryOffset := add64 h5.MetadataOffset h5.MetadataLength,
              LeafDirectoryLength := leafLen }
  { h6 with TileDataOffset := add64 h6.LeafDirectoryOffset h6.LeafDirectoryLength,
            TileDataLength := tileBytes }

/-- The source's `copyRange`, on files as byte lists: the bytes a section
reader of `n` bytes at `off` yields (fewer than `n` at the end of the file),
which `io.Copy` appends to the output.  The conversion `int64(off)` is the
identity on the offsets of a file, which are below `2 ^ 63`. -/
def copyRange (src : List Nat) (off n : Nat) : List Nat := (src.drop off).take n

/-- The copy loop of lines 190-193: the bytes appended to the output after the
leaf directory, i.e. the output tile-data region. -/
def copyLoop (src : List Nat) (hdr : HeaderV3) (ranges : List tileKey) : List Nat :=
  ranges.flatMap (fun r => copyRange src (add64 hdr.TileDataOffset r.off) r.len)

/-- The tile-data region of the input file `src`: the `TileDataLength` bytes
from file offset `TileDataOffset` on. -/
def tileRegion (src : List Nat) (hdr : HeaderV3) : List Nat :=
  (src.drop hdr.TileDataOffset).take hdr.TileDataLength

/-- The slice `ranges` after `sort.Slice` (line 139), for header `hdr`, cutoff
`maxTileID` and entry stream `es`. -/
def sortedRanges (hdr : HeaderV3) (maxTileID : Nat) (es : List EntryV3) : List tileKey :=
  sortRanges (passOne hdr maxTileID es).ranges

/-- The map `remap` after the loop of lines 148-151. -/
def remapOf (hdr : HeaderV3) (maxTileID : Nat) (es : List EntryV3) : Remap :=
  (buildRemap (sortedRanges hdr maxTileID es)).1

/-- The total `tileBytes` after the loop of lines 148-151. -/
def tileBytesOf (hdr : HeaderV3) (maxTileID : Nat) (es : List EntryV3) : Nat :=
  (buildRemap (sortedRanges hdr maxTileID es)).2

/-- The slice `entries` after the loop of lines 152-155. -/
def rewrittenEntries (hdr : HeaderV3) (maxTileID : Nat) (es : List EntryV3) : List EntryV3 :=
  rewriteEntries (remapOf hdr maxTileID es) (passOne hdr maxTileID es).entries

/-- What `main` has computed when it reaches the final `Printf`. -/
structure TrimResult where
  entries : List EntryV3
  ranges : List tileKey
  remap : Remap
  tileBytes : Nat
  outHdr : HeaderV3
  tileData : List Nat

/-- The body of `main` from line 72 on, for an input file `src` with header
`hdr` and entry stream `es`: `must(opErr)` aborts with the error, otherwise the
ranges are sorted, the entries rewritten, the header derived and the tile data
copied.  `rootLen` and `leafLen` give the sizes of the two byte strings
returned by `pmtiles.BuildDirectories` for the rewritten entries. -/
def trim (src : List Nat) (hdr : HeaderV3) (maxZoom maxTileID : Nat) (es : List EntryV3)
    (headerLen metaLen : Nat) (rootLen leafLen : List EntryV3 → Nat) :
    Except InvalidTileRange TrimResult :=
  match (passOne hdr maxTileID es).opErr with
  | some err => Except.error err
  | none =>
    Except.ok
      { entries := rewrittenEntries hdr maxTileID es,
        ranges := sortedRanges hdr maxTileID es,
        remap := remapOf hdr maxTileID es,
        tileBytes := tileBytesOf hdr maxTileID es,
        outHdr := outHeader hdr maxZoom (passOne hdr maxTileID es).addressed
          (rewrittenEntries hdr maxTileID es).length (sortedRanges hdr maxTileID es).length
          headerLen (rootLen (rewrittenEntries hdr maxTileID es)) metaLen
          (leafLen (rewrittenEntries hdr maxTileID es)) (tileBytesOf hdr maxTileID es),
        tileData := copyLoop src hdr (sortedRanges hdr maxTileID es) }

/-! ## Auxiliary definitions used in statements -/

/-- The entry `op` appends at line 131 when it keeps `e` with resolved offset
`relOff`: `RunLength` and `Offset` overwritten, `TileID` and `Length` as read. -/
def keptEntry (maxTileID : Nat) (e : EntryV3) (relOff : Nat) : EntryV3 :=
  { TileID := e.TileID, Offset := relOff, Length := e.Length,
    RunLength := toU32 (runLen maxTileID e) }

/-- The guard of line 95: `op` returns at once on such an entry. -/
def skipped (maxTileID : Nat) (e : EntryV3) : Prop :=
  maxTileID ≤ e.TileID ∨ e.Length = 0

instance (maxTileID : Nat) (e : EntryV3) : Decidable (skipped maxTileID e) := by
  unfold skipped; infer_instance

/-- The range of `e` fits the tile-data region under the relative or under the
absolute reading of its offset, all sums taken as exact integers. -/
def inBounds (hdr : HeaderV3) (e : EntryV3) : Prop :=
  e.Offset + e.Length ≤ hdr.TileDataLength ∨
    (hdr.TileDataOffset ≤ e.Offset ∧
      e.Offset + e.Length ≤ hdr.TileDataOffset + hdr.TileDataLength)

instance (hdr : HeaderV3) (e : EntryV3) : Decidable (inBounds hdr e) := by
  unfold inBounds; infer_instance

/-- The two tests of lines 114-116 as the code evaluates them, with `uint64`
sums: the range passes the relative test or the absolute one. -/
def inBounds64 (hdr : HeaderV3) (e : EntryV3) : Prop :=
  add64 e.Offset e.Length ≤ hdr.TileDataLength ∨
    (hdr.TileDataOffset ≤ e.Offset ∧
      add64 e.Offset e.Length ≤ add64 hdr.TileDataOffset hdr.TileDataLength)

instance (hdr : HeaderV3) (e : EntryV3) : Decidable (inBounds64 hdr e) := by
  unfold inBounds64; infer_instance

/-- The state `op` leaves when it keeps `e` with resolved offset `relOff`
(lines 125-132). -/
def keptState (maxTileID : Nat) (st : PassState) (e : EntryV3) (relOff : Nat) : PassState :=
  { entries := st.entries ++ [keptEntry maxTileID e relOff],
    addressed := add64 st.addressed (toU32 (runLen maxTileID e)),
    seen := if keyOf (keptEntry maxTileID e relOff) ∈ st.seen then st.seen
            else keyOf (keptEntry maxTileID e relOff) :: st.seen,
    ranges := if keyOf (keptEntry maxTileID e relOff) ∈ st.seen then st.ranges
              else st.ranges ++ [keyOf (keptEntry maxTileID e relOff)],
    opErr := none }

/-- The relation `op` maintains between `seen`, `ranges` and `entries`: `ranges`
has no duplicate, `seen` and `ranges` hold the same keys, these are the keys of
the retained entries, and two keys are ordered in `ranges` as their first
occurrences are ordered among the retained entries. -/
def DedupInv (st : PassState) : Prop :=
  st.ranges.Nodup ∧
  (∀ k, k ∈ st.seen ↔ k ∈ st.ranges) ∧
  (∀ k, k ∈ st.ranges ↔ k ∈ st.entries.map keyOf) ∧
  (∀ k1 ∈ st.ranges, ∀ k2 ∈ st.ranges,
    (st.ranges.indexOf k1 < st.ranges.indexOf k2 ↔
      (st.entries.map keyOf).indexOf k1 < (st.entries.map keyOf).indexOf k2))

/-- The running total of the loop of lines 148-151 when it reaches position
`i` of the sorted list: the `uint64` sum of the lengths of the ranges before. -/
def plannedOffset (ranges : List tileKey) (i : Nat) : Nat :=
  ((ranges.take i).map tileKey.len).sum % U64

/-- The bytes written by lines 181-193, in that order: the serialized header,
`rootBytes`, `metaRaw`, `leafBytes`, then the copied tile data. -/
def outputFile (headerBytes rootBytes metaRaw leafBytes tileData : List Nat) : List Nat :=
  headerBytes ++ rootBytes ++ metaRaw ++ leafBytes ++ tileData

/-- What `op` does with one entry met in an error-free state: nothing when the
entry is skipped (line 95) or when its offset does not resolve (line 119),
otherwise the entry it appends. -/
def normalize (hdr : HeaderV3) (maxTileID : Nat) (e : EntryV3) : Option EntryV3 :=
  if skipped maxTileID e then none
  else (resolveOffset hdr e).map (keptEntry maxTileID e)

/-- What `sort.Slice(ranges, less)` guarantees of its result: no later element
is `less` than an earlier one. -/
def SortedRanges (s : List tileKey) : Prop :=
  s.Pairwise (fun a b => less b a = false)

/-- Two ranges that share no byte of the source region. -/
def disjointKeys (a b : tileKey) : Prop :=
  a.off + a.len ≤ b.off ∨ b.off + b.len ≤ a.off

instance (a b : tileKey) : Decidable (disjointKeys a b) := by
  unfold disjointKeys; infer_instance

/-- The key of a source range in the output region: its offset replaced by the
offset `m` assigns to it, its length kept. -/
def rekey (m : Remap) (k : tileKey) : tileKey :=
  { off := m.get k, len := k.len }

/-- One step of the loop of lines 152-155: the entry with its offset replaced
by `m[k]`. -/
def reoffset (m : Remap) (e : EntryV3) : EntryV3 :=
  { e with Offset := m.get (keyOf e) }

/-- A stream of `n` entries whose ranges are distinct and overlap: entry `i` is
tile `i` with run length 1, offset `i` and length `len`. -/
def wideStream (n len : Nat) : List EntryV3 :=
  (List.range n).map (fun i => { TileID := i, Offset := i, Length := len, RunLength := 1 })

/-- A stream of `n` entries that share one range: entry `i` is tile `i` with
run length `run`, offset 0 and length 1. -/
def runStream (n run : Nat) : List EntryV3 :=
  (List.range n).map (fun i => { TileID := i, Offset := 0, Length := 1, RunLength := run })

/-- A header for examples: tile data at file offset `tdo`, of `tdl` bytes. -/
def exHdr (tdo tdl : Nat) : HeaderV3 :=
  { RootOffset := 127, RootLength := 0, MetadataOffset := 127, MetadataLength := 0,
    LeafDirectoryOffset := 127, LeafDirectoryLength := 0,
    TileDataOffset := tdo, TileDataLength := tdl,
    AddressedTilesCount := 0, TileEntriesCount := 0, TileContentsCount := 0,
    Clustered := true, MinZoom := 0, MaxZoom := 12, CenterZoom := 6 }

/-! ## Machine arithmetic -/

theorem U64_pos : 0 < U64 := by unfold U64; norm_num

theorem add64_lt (a b : Nat) : add64 a b < U64 := Nat.mod_lt _ U64_pos

theorem add64_of_lt {a b : Nat} (h : a + b < U64) : add64 a b = a + b :=
  Nat.mod_eq_of_lt h

theorem sub64_of_le {a b : Nat} (ha : a < U64) (hba : b ≤ a) : sub64 a b = a - b := by
  unfold sub64
  have hb : b < U64 := lt_of_le_of_lt hba ha
  rw [Nat.mod_eq_of_lt hb]
  have h1 : a + U64 - b = (a - b) + U64 := by omega
  rw [h1, Nat.add_mod_right, Nat.mod_eq_of_lt (by omega)]

/-! ## The run length computed by `op` -/

theorem runLen_start (r : Nat) : (if r = 0 then 1 else r) = max r 1 := by
  split <;> omega

theorem runLen_eq (maxTileID : Nat) (e : EntryV3) :
    runLen maxTileID e =
      if add64 e.TileID (max e.RunLength 1) > maxTileID then sub64 maxTileID e.TileID
      else max e.RunLength 1 := by
  unfold runLen
  simp only [runLen_start]

theorem runLen_pos {maxTileID : Nat} {e : EntryV3} (hmax : maxTileID < U64)
    (hlt : e.TileID < maxTileID) : 0 < runLen maxTileID e := by
  rw [runLen_eq]
  by_cases h : add64 e.TileID (max e.RunLength 1) > maxTileID
  · rw [if_pos h, sub64_of_le hmax (le_of_lt hlt)]; omega
  · rw [if_neg h]; omega

theorem runLen_nowrap {maxTileID : Nat} {e : EntryV3} (hmax : maxTileID < U64)
    (hlt : e.TileID < maxTileID) (hnw : e.TileID + max e.RunLength 1 < U64) :
    runLen maxTileID e = min (max e.RunLength 1) (maxTileID - e.TileID) := by
  rw [runLen_eq, add64_of_lt hnw]
  by_cases h : e.TileID + max e.RunLength 1 > maxTileID
  · rw [if_pos h, sub64_of_le hmax (le_of_lt hlt)]; omega
  · rw [if_neg h]; omega

theorem runLen_wrap {maxTileID : Nat} {e : EntryV3} (hmax : maxTileID < U64)
    (hlt : e.TileID < maxTileID) (hr : e.RunLength < U32)
    (hw : U64 ≤ e.TileID + max e.RunLength 1) :
    runLen maxTileID e = max e.RunLength 1 := by
  rw [runLen_eq]
  have h1 : add64 e.TileID (max e.RunLength 1) = e.TileID + max e.RunLength 1 - U64 := by
    unfold add64
    have h2 : e.TileID + max e.RunLength 1 = (e.TileID + max e.RunLength 1 - U64) + U64 := by
      omega
    rw [h2, Nat.add_mod_right, Nat.mod_eq_of_lt]
    · omega
    · unfold U64 U32 at *; omega
  rw [h1, if_neg]
  unfold U64 U32 at *; omega

theorem runLen_lt_U32 {maxTileID : Nat} {e : EntryV3} (hmax : maxTileID < U64)
    (hlt : e.TileID < maxTileID) (hr : e.RunLength < U32) : runLen maxTileID e < U32 := by
  by_cases hnw : e.TileID + max e.RunLength 1 < U64
  · rw [runLen_nowrap hmax hlt hnw]; unfold U32 at *; omega
  · rw [runLen_wrap hmax hlt hr (by omega)]; unfold U32 at *; omega

/-- A cutoff of at most `2 ^ 64 - 2 ^ 32 + 1` rules out wrap-around of
`e.TileID + rl` for every well-formed entry below the cutoff. -/
theorem nowrap_of_cutoff {maxTileID : Nat} {e : EntryV3} (hmax : maxTileID + U32 ≤ U64 + 1)
    (hr : e.RunLength < U32) (hlt : e.TileID < maxTileID) :
    e.TileID + max e.RunLength 1 < U64 := by
  unfold U64 U32 at *; omega

/-! ## Offset resolution -/

theorem resolveOffset_rel {hdr : HeaderV3} {e : EntryV3}
    (h : add64 e.Offset e.Length ≤ hdr.TileDataLength) :
    resolveOffset hdr e = some e.Offset := by
  unfold resolveOffset; rw [if_neg (by omega)]

theorem resolveOffset_abs {hdr : HeaderV3} {e : EntryV3}
    (h1 : hdr.TileDataLength < add64 e.Offset e.Length)
    (h2 : hdr.TileDataOffset ≤ e.Offset)
    (h3 : add64 e.Offset e.Length ≤ add64 hdr.TileDataOffset hdr.TileDataLength) :
    resolveOffset hdr e = some (sub64 e.Offset hdr.TileDataOffset) := by
  unfold resolveOffset; rw [if_pos h1, if_pos ⟨h2, h3⟩]

theorem resolveOffset_none_iff (hdr : HeaderV3) (e : EntryV3) :
    resolveOffset hdr e = none ↔ ¬ inBounds64 hdr e := by
  unfold inBounds64
  by_cases h1 : add64 e.Offset e.Length ≤ hdr.TileDataLength
  · rw [resolveOffset_rel h1]; simp [h1]
  · by_cases h2 : hdr.TileDataOffset ≤ e.Offset ∧
        add64 e.Offset e.Length ≤ add64 hdr.TileDataOffset hdr.TileDataLength
    · rw [resolveOffset_abs (by omega) h2.1 h2.2]; simp [h2]
    · unfold resolveOffset; rw [if_pos (by omega), if_neg h2]; simp [h1, h2]

/-- Without wrap-around the resolved offset plus the length stays inside the
tile-data region, and the resolved offset is the original one or the original
one minus `TileDataOffset`. -/
theorem resolveOffset_bound {hdr : HeaderV3} {e : EntryV3} {relOff : Nat}
    (hnw : e.Offset + e.Length < U64)
    (hreg : hdr.TileDataOffset + hdr.TileDataLength < U64)
    (h : resolveOffset hdr e = some relOff) :
    relOff + e.Length ≤ hdr.TileDataLength ∧
      (relOff = e.Offset ∨
        (hdr.TileDataOffset ≤ e.Offset ∧ relOff = e.Offset - hdr.TileDataOffset)) := by
  unfold resolveOffset at h
  rw [add64_of_lt hnw, add64_of_lt hreg] at h
  by_cases h1 : e.Offset + e.Length > hdr.TileDataLength
  · rw [if_pos h1] at h
    by_cases h2 : e.Offset ≥ hdr.TileDataOffset ∧
        e.Offset + e.Length ≤ hdr.TileDataOffset + hdr.TileDataLength
    · rw [if_pos h2] at h
      rw [sub64_of_le (by omega) h2.1] at h
      have h3 : e.Offset - hdr.TileDataOffset = relOff := Option.some.inj h
      omega
    · rw [if_neg h2] at h; cases h
  · rw [if_neg h1] at h
    have h3 : e.Offset = relOff := Option.some.inj h
    omega

/-- Without wrap-around the tests of the code are the exact-integer bounds. -/
theorem inBounds64_iff {hdr : HeaderV3} {e : EntryV3}
    (hnw : e.Offset + e.Length < U64)
    (hreg : hdr.TileDataOffset + hdr.TileDataLength < U64) :
    inBounds64 hdr e ↔ inBounds hdr e := by
  unfold inBounds64 inBounds
  rw [add64_of_lt hnw, add64_of_lt hreg]

/-! ## The three outcomes of `op` -/

theorem resolveOffset_runLength (hdr : HeaderV3) (e : EntryV3) (rl : Nat) :
    resolveOffset hdr { e with RunLength := rl } = resolveOffset hdr e := rfl

theorem op_of_err (hdr : HeaderV3) (maxTileID : Nat) (st : PassState) (e : EntryV3)
    (h : st.opErr ≠ none) : op hdr maxTileID st e = st := by
  unfold op; rw [if_pos h]

theorem op_of_skip (hdr : HeaderV3) (maxTileID : Nat) (st : PassState) (e : EntryV3)
    (h : skipped maxTileID e) : op hdr maxTileID st e = st := by
  unfold op
  by_cases h0 : st.opErr ≠ none
  · rw [if_pos h0]
  · have h1 : e.TileID ≥ maxTileID ∨ e.Length = 0 := h
    rw [if_neg h0, if_pos h1]

theorem op_of_keep (hdr : HeaderV3) (maxTileID : Nat) (st : PassState) (e : EntryV3)
    (relOff : Nat) (h0 : st.opErr = none) (hsk : ¬ skipped maxTileID e)
    (hrl : runLen maxTileID e ≠ 0) (hres : resolveOffset hdr e = some relOff) :
    op hdr maxTileID st e = keptState maxTileID st e relOff := by
  have h1 : ¬ (e.TileID ≥ maxTileID ∨ e.Length = 0) := hsk
  unfold op
  rw [if_neg (by simp [h0]), if_neg h1]
  simp only [if_neg hrl, resolveOffset_runLength, hres]
  rfl

theorem op_of_fail (hdr : HeaderV3) (maxTileID : Nat) (st : PassState) (e : EntryV3)
    (h0 : st.opErr = none) (hsk : ¬ skipped maxTileID e)
    (hrl : runLen maxTileID e ≠ 0) (hres : resolveOffset hdr e = none) :
    op hdr maxTileID st e =
      { st with opErr := some { off := e.Offset, len := e.Length,
                                tileDataLen := hdr.TileDataLength,
                                tileDataOff := hdr.TileDataOffset } } := by
  have h1 : ¬ (e.TileID ≥ maxTileID ∨ e.Length = 0) := hsk
  unfold op
  rw [if_neg (by simp [h0]), if_neg h1]
  simp only [if_neg hrl, resolveOffset_runLength, hres]

theorem passOne_nil (hdr : HeaderV3) (maxTileID : Nat) :
    passOne hdr maxTileID [] = PassState.init := rfl

theorem passOne_snoc (hdr : HeaderV3) (maxTileID : Nat) (es : List EntryV3) (e : EntryV3) :
    passOne hdr maxTileID (es ++ [e]) = op hdr maxTileID (passOne hdr maxTileID es) e := by
  unfold passOne; rw [List.foldl_append]; rfl

theorem op_of_zero (hdr : HeaderV3) (maxTileID : Nat) (st : PassState) (e : EntryV3)
    (hrl : runLen maxTileID e = 0) : op hdr maxTileID st e = st := by
  unfold op
  by_cases h0 : st.opErr ≠ none
  · rw [if_pos h0]
  · rw [if_neg h0]
    by_cases h1 : e.TileID ≥ maxTileID ∨ e.Length = 0
    · rw [if_pos h1]
    · rw [if_neg h1]; simp only [hrl, if_true]

/-- Every call of `op` leaves the state alone, or records the error and
nothing else, or keeps the entry. -/
theorem op_cases (hdr : HeaderV3) (maxTileID : Nat) (st : PassState) (e : EntryV3) :
    op hdr maxTileID st e = st ∨
    (st.opErr = none ∧ ¬ skipped maxTileID e ∧ resolveOffset hdr e = none ∧
      (op hdr maxTileID st e).opErr ≠ none ∧
      (op hdr maxTileID st e).entries = st.entries ∧
      (op hdr maxTileID st e).ranges = st.ranges ∧
      (op hdr maxTileID st e).seen = st.seen ∧
      (op hdr maxTileID st e).addressed = st.addressed) ∨
    (st.opErr = none ∧ ¬ skipped maxTileID e ∧ runLen maxTileID e ≠ 0 ∧
      ∃ relOff, resolveOffset hdr e = some relOff ∧
        op hdr maxTileID st e = keptState maxTileID st e relOff) := by
  by_cases h0 : st.opErr = none
  swap
  · exact Or.inl (op_of_err hdr maxTileID st e h0)
  by_cases hsk : skipped maxTileID e
  · exact Or.inl (op_of_skip hdr maxTileID st e hsk)
  by_cases hrl : runLen maxTileID e = 0
  · exact Or.inl (op_of_zero hdr maxTileID st e hrl)
  cases hres : resolveOffset hdr e with
  | none =>
    refine Or.inr (Or.inl ⟨h0, hsk, rfl, ?_⟩)
    rw [op_of_fail hdr maxTileID st e h0 hsk hrl hres]
    simp
  | some relOff =>
    exact Or.inr (Or.inr ⟨h0, hsk, hrl, relOff, rfl,
      op_of_keep hdr maxTileID st e relOff h0 hsk hrl hres⟩)

/-- From an error-free state a non-skipped entry whose offset resolves is
kept (the `rl == 0` return of line 106 is never taken below the cutoff). -/
theorem op_entries_of_resolve (hdr : HeaderV3) (c : Nat) (st : PassState) (e : EntryV3)
    (relOff : Nat) (hc : c < U64) (h0 : st.opErr = none) (hsk : ¬ skipped c e)
    (hres : resolveOffset hdr e = some relOff) :
    op hdr c st e = keptState c st e relOff := by
  have hlt : e.TileID < c := by unfold skipped at hsk; omega
  have hpos := @runLen_pos c e hc hlt
  exact op_of_keep hdr c st e relOff h0 hsk (by omega) hres

/-! ## Invariants of pass one -/

/-- A property of the appended entries holds for every retained entry. -/
theorem passOne_entries_forall (hdr : HeaderV3) (maxTileID : Nat) (P : EntryV3 → Prop)
    (es : List EntryV3)
    (h : ∀ e ∈ es, ¬ skipped maxTileID e → ∀ relOff, resolveOffset hdr e = some relOff →
      P (keptEntry maxTileID e relOff)) :
    ∀ e' ∈ (passOne hdr maxTileID es).entries, P e' := by
  induction es using List.reverseRecOn with
  | nil => intro e' he'; simp [passOne_nil, PassState.init] at he'
  | append_singleton es e ih =>
    have ih1 := ih (fun x hx => h x (List.mem_append_left _ hx))
    rw [passOne_snoc]
    rcases op_cases hdr maxTileID (passOne hdr maxTileID es) e with h1 | h1 | h1
    · rw [h1]; exact ih1
    · rw [h1.2.2.2.2.1]; exact ih1
    · obtain ⟨_, hsk, _, relOff, hres, hop⟩ := h1
      rw [hop]
      intro e' he'
      simp only [keptState, List.mem_append, List.mem_singleton] at he'
      rcases he' with he' | he'
      · exact ih1 e' he'
      · rw [he']; exact h e (by simp) hsk relOff hres

/-- Removing skipped entries from the stream does not change the final state. -/
theorem passOne_filter (hdr : HeaderV3) (maxTileID : Nat) (es : List EntryV3)
    (p : EntryV3 → Bool) (hp : ∀ e, p e = false → skipped maxTileID e) :
    passOne hdr maxTileID (es.filter p) = passOne hdr maxTileID es := by
  induction es using List.reverseRecOn with
  | nil => rfl
  | append_singleton es e ih =>
    rw [List.filter_append, passOne_snoc]
    cases hpe : p e with
    | true =>
      have h1 : List.filter p [e] = [e] := by simp [hpe]
      rw [h1, passOne_snoc, ih]
    | false =>
      have h1 : List.filter p [e] = [] := by simp [hpe]
      rw [h1, List.append_nil, ih, op_of_skip hdr maxTileID _ e (hp e hpe)]

/-! ## The error flag -/

theorem foldl_op_of_err (hdr : HeaderV3) (maxTileID : Nat) (st : PassState)
    (later : List EntryV3) (h : st.opErr ≠ none) :
    later.foldl (op hdr maxTileID) st = st := by
  induction later with
  | nil => rfl
  | cons e later ih => rw [List.foldl_cons, op_of_err hdr maxTileID st e h, ih]

/-- The error flag after one call: it was set already, or this entry is not
skipped and its offset does not resolve. -/
theorem op_opErr_iff (hdr : HeaderV3) (maxTileID : Nat) (st : PassState) (e : EntryV3)
    (hmax : maxTileID < U64) :
    (op hdr maxTileID st e).opErr ≠ none ↔
      st.opErr ≠ none ∨ (¬ skipped maxTileID e ∧ resolveOffset hdr e = none) := by
  by_cases h0 : st.opErr = none
  swap
  · rw [op_of_err hdr maxTileID st e h0]; simp [h0]
  by_cases hsk : skipped maxTileID e
  · rw [op_of_skip hdr maxTileID st e hsk]; simp [h0, hsk]
  have hlt : e.TileID < maxTileID := by unfold skipped at hsk; omega
  have hpos := @runLen_pos maxTileID e hmax hlt
  cases hres : resolveOffset hdr e with
  | none =>
    rw [op_of_fail hdr maxTileID st e h0 hsk (by omega) hres]
    simp [hsk]
  | some relOff =>
    rw [op_of_keep hdr maxTileID st e relOff h0 hsk (by omega) hres]
    simp [keptState, h0]

theorem passOne_opErr_iff (hdr : HeaderV3) (maxTileID : Nat) (es : List EntryV3)
    (hmax : maxTileID < U64) :
    (passOne hdr maxTileID es).opErr ≠ none ↔
      ∃ e ∈ es, ¬ skipped maxTileID e ∧ resolveOffset hdr e = none := by
  induction es using List.reverseRecOn with
  | nil => simp [passOne_nil, PassState.init]
  | append_singleton es e ih =>
    rw [passOne_snoc, op_opErr_iff hdr maxTileID _ e hmax, ih]
    constructor
    · rintro (⟨x, hx, h⟩ | h)
      · exact ⟨x, List.mem_append_left _ hx, h⟩
      · exact ⟨e, by simp, h⟩
    · rintro ⟨x, hx, h⟩
      rcases List.mem_append.1 hx with hx | hx
      · exact Or.inl ⟨x, hx, h⟩
      · rw [List.mem_singleton] at hx; subst hx; exact Or.inr h

/-! ## Deduplication -/

theorem dedupInv_init : DedupInv PassState.init := by
  refine ⟨List.nodup_nil, ?_, ?_, ?_⟩ <;> simp [PassState.init]

theorem dedupInv_keptState (maxTileID : Nat) (st : PassState) (e : EntryV3) (relOff : Nat)
    (h : DedupInv st) : DedupInv (keptState maxTileID st e relOff) := by
  obtain ⟨hnd, hseen, hkeys, hord⟩ := h
  unfold DedupInv keptState
  simp only [List.map_append, List.map_cons, List.map_nil]
  generalize keyOf (keptEntry maxTileID e relOff) = k
  by_cases hk : k ∈ st.seen
  · -- a key met before: `seen` and `ranges` stay as they are
    simp only [if_pos hk]
    have hkr : k ∈ st.ranges := (hseen k).1 hk
    refine ⟨hnd, hseen, ?_, ?_⟩
    · intro x
      rw [hkeys x, List.mem_append, List.mem_singleton]
      constructor
      · exact Or.inl
      · rintro (h1 | h1)
        · exact h1
        · rw [h1]; exact (hkeys k).1 hkr
    · intro k1 h1 k2 h2
      rw [List.indexOf_append_of_mem ((hkeys k1).1 h1),
        List.indexOf_append_of_mem ((hkeys k2).1 h2)]
      exact hord k1 h1 k2 h2
  · -- a new key: appended to `ranges`, added to `seen`
    simp only [if_neg hk]
    have hkr : k ∉ st.ranges := fun h1 => hk ((hseen k).2 h1)
    have hkk : k ∉ st.entries.map keyOf := fun h1 => hkr ((hkeys k).2 h1)
    refine ⟨?_, ?_, ?_, ?_⟩
    · rw [List.nodup_append]
      refine ⟨hnd, List.nodup_singleton k, ?_⟩
      intro x hx hx'
      rw [List.mem_singleton] at hx'
      rw [hx'] at hx
      exact hkr hx
    · intro x
      rw [List.mem_cons, List.mem_append, List.mem_singleton, hseen x]
      tauto
    · intro x
      rw [List.mem_append, List.mem_append, hkeys x]
    · have hidx : ∀ x ∈ st.ranges,
          (st.ranges ++ [k]).indexOf x = st.ranges.indexOf x ∧
          (st.entries.map keyOf ++ [k]).indexOf x = (st.entries.map keyOf).indexOf x ∧
          st.ranges.indexOf x < st.ranges.length ∧
          (st.entries.map keyOf).indexOf x < (st.entries.map keyOf).length := by
        intro x hx
        exact ⟨List.indexOf_append_of_mem hx, List.indexOf_append_of_mem ((hkeys x).1 hx),
          List.indexOf_lt_length.2 hx, List.indexOf_lt_length.2 ((hkeys x).1 hx)⟩
      have hnew : (st.ranges ++ [k]).indexOf k = st.ranges.length ∧
          (st.entries.map keyOf ++ [k]).indexOf k = (st.entries.map keyOf).length := by
        constructor
        · rw [List.indexOf_append_of_not_mem hkr, List.indexOf_cons_self]; rfl
        · rw [List.indexOf_append_of_not_mem hkk, List.indexOf_cons_self]; rfl
      intro k1 h1 k2 h2
      rw [List.mem_append, List.mem_singleton] at h1 h2
      rcases h1 with h1 | h1 <;> rcases h2 with h2 | h2
      · rw [(hidx k1 h1).1, (hidx k2 h2).1, (hidx k1 h1).2.1, (hidx k2 h2).2.1]
        exact hord k1 h1 k2 h2
      · subst h2
        rw [(hidx k1 h1).1, (hidx k1 h1).2.1, hnew.1, hnew.2]
        exact ⟨fun _ => (hidx k1 h1).2.2.2, fun _ => (hidx k1 h1).2.2.1⟩
      · subst h1
        rw [(hidx k2 h2).1, (hidx k2 h2).2.1, hnew.1, hnew.2]
        have := (hidx k2 h2).2.2
        constructor <;> intro h3 <;> omega
      · subst h1; subst h2
        simp

theorem dedupInv_op (hdr : HeaderV3) (maxTileID : Nat) (st : PassState) (e : EntryV3)
    (h : DedupInv st) : DedupInv (op hdr maxTileID st e) := by
  rcases op_cases hdr maxTileID st e with h1 | h1 | h1
  · rw [h1]; exact h
  · obtain ⟨_, _, _, _, he, hr, hs, _⟩ := h1
    unfold DedupInv
    rw [he, hr, hs]
    exact h
  · obtain ⟨_, _, _, relOff, _, hop⟩ := h1
    rw [hop]
    exact dedupInv_keptState maxTileID st e relOff h

theorem dedupInv_passOne (hdr : HeaderV3) (maxTileID : Nat) (es : List EntryV3) :
    DedupInv (passOne hdr maxTileID es) := by
  induction es using List.reverseRecOn with
  | nil => exact dedupInv_init
  | append_singleton es e ih => rw [passOne_snoc]; exact dedupInv_op hdr maxTileID _ e ih

/-! ## The compaction map -/

theorem add64_mod_left (a b : Nat) : add64 (a % U64) b = (a + b) % U64 := by
  unfold add64; rw [Nat.mod_add_mod]

theorem remapLoop_cons (r : tileKey) (rs : List tileKey) (m : Remap) (tb : Nat) :
    remapLoop (r :: rs) m tb = remapLoop rs (m.set r tb) (add64 tb r.len) := rfl

/-- The running total after the loop. -/
theorem remapLoop_total (rs : List tileKey) (m : Remap) (tb : Nat) (htb : tb < U64) :
    (remapLoop rs m tb).2 = (tb + (rs.map tileKey.len).sum) % U64 := by
  induction rs generalizing m tb with
  | nil => simp [remapLoop, Nat.mod_eq_of_lt htb]
  | cons r rs ih =>
    rw [remapLoop_cons, ih _ _ (add64_lt _ _), List.map_cons, List.sum_cons]
    unfold add64
    rw [Nat.mod_add_mod, Nat.add_assoc]

/-- The loop does not touch the keys that are not in the list. -/
theorem remapLoop_not_mem (rs : List tileKey) (m : Remap) (tb : Nat) (k : tileKey)
    (hk : k ∉ rs) : (remapLoop rs m tb).1 k = m k := by
  induction rs generalizing m tb with
  | nil => rfl
  | cons r rs ih =>
    rw [remapLoop_cons, ih _ _ (fun h => hk (List.mem_cons_of_mem _ h))]
    have hne : k ≠ r := fun h => hk (h ▸ List.mem_cons_self _ _)
    simp [Remap.set, hne]

/-- In a duplicate-free list the key at position `i` is mapped to the running
total reached at position `i`. -/
theorem remapLoop_getElem (rs : List tileKey) (m : Remap) (tb : Nat) (htb : tb < U64)
    (hnd : rs.Nodup) (i : Nat) (k : tileKey) (hi : rs[i]? = some k) :
    (remapLoop rs m tb).1 k = some ((tb + ((rs.take i).map tileKey.len).sum) % U64) := by
  induction rs generalizing m tb i with
  | nil => simp at hi
  | cons r rs ih =>
    rw [remapLoop_cons]
    rw [List.nodup_cons] at hnd
    cases i with
    | zero =>
      simp only [List.getElem?_cons_zero, Option.some.injEq] at hi
      subst hi
      rw [remapLoop_not_mem _ _ _ _ hnd.1]
      simp [Remap.set, Nat.mod_eq_of_lt htb]
    | succ j =>
      simp only [List.getElem?_cons_succ] at hi
      rw [ih _ _ (add64_lt _ _) hnd.2 j hi, List.take_succ_cons, List.map_cons, List.sum_cons]
      unfold add64
      rw [Nat.mod_add_mod, Nat.add_assoc]

theorem buildRemap_getElem (rs : List tileKey) (hnd : rs.Nodup) (i : Nat) (k : tileKey)
    (hi : rs[i]? = some k) : (buildRemap rs).1 k = some (plannedOffset rs i) := by
  unfold buildRemap plannedOffset
  rw [remapLoop_getElem rs _ 0 U64_pos hnd i k hi, Nat.zero_add]

theorem buildRemap_get (rs : List tileKey) (hnd : rs.Nodup) (i : Nat) (k : tileKey)
    (hi : rs[i]? = some k) : (buildRemap rs).1.get k = plannedOffset rs i := by
  unfold Remap.get
  rw [buildRemap_getElem rs hnd i k hi]; rfl

theorem buildRemap_total (rs : List tileKey) :
    (buildRemap rs).2 = (rs.map tileKey.len).sum % U64 := by
  unfold buildRemap
  rw [remapLoop_total rs _ 0 U64_pos, Nat.zero_add]

theorem plannedOffset_zero (rs : List tileKey) : plannedOffset rs 0 = 0 := by
  simp [plannedOffset]

/-- One step of the running total. -/
theorem plannedOffset_succ (rs : List tileKey) (i : Nat) (k : tileKey) (hi : rs[i]? = some k) :
    plannedOffset rs (i + 1) = add64 (plannedOffset rs i) k.len := by
  unfold plannedOffset
  rw [add64_mod_left, List.take_succ, hi]
  simp

theorem plannedOffset_length (rs : List tileKey) :
    plannedOffset rs rs.length = (rs.map tileKey.len).sum % U64 := by
  unfold plannedOffset; rw [List.take_length]

theorem sum_take_le (rs : List tileKey) (i : Nat) :
    ((rs.take i).map tileKey.len).sum ≤ (rs.map tileKey.len).sum := by
  conv_rhs => rw [← List.take_append_drop i rs]
  rw [List.map_append, List.sum_append]
  omega

/-- Without wrap-around of the total the running totals are exact sums. -/
theorem plannedOffset_exact (rs : List tileKey) (i : Nat)
    (hsum : (rs.map tileKey.len).sum < U64) :
    plannedOffset rs i = ((rs.take i).map tileKey.len).sum := by
  unfold plannedOffset
  exact Nat.mod_eq_of_lt (lt_of_le_of_lt (sum_take_le rs i) hsum)

theorem sortRanges_perm (rs : List tileKey) : (sortRanges rs).Perm rs :=
  List.perm_insertionSort _ rs

theorem sortRanges_nodup {rs : List tileKey} (hnd : rs.Nodup) : (sortRanges rs).Nodup :=
  (sortRanges_perm rs).nodup_iff.2 hnd

theorem mem_sortRanges {rs : List tileKey} {k : tileKey} : k ∈ sortRanges rs ↔ k ∈ rs :=
  (sortRanges_perm rs).mem_iff

/-! ## The whole of `main` -/

/-- When pass one ends without error `trim` returns its result. -/
theorem trim_of_ok (src : List Nat) (hdr : HeaderV3) (maxZoom maxTileID : Nat)
    (es : List EntryV3) (headerLen metaLen : Nat) (rootLen leafLen : List EntryV3 → Nat)
    (hok : (passOne hdr maxTileID es).opErr = none) :
    ∃ res, trim src hdr maxZoom maxTileID es headerLen metaLen rootLen leafLen = Except.ok res ∧
      res.entries = rewrittenEntries hdr maxTileID es ∧
      res.ranges = sortedRanges hdr maxTileID es ∧
      res.remap = remapOf hdr maxTileID es ∧
      res.tileBytes = tileBytesOf hdr maxTileID es ∧
      res.outHdr.TileDataLength = tileBytesOf hdr maxTileID es ∧
      res.tileData = copyLoop src hdr (sortedRanges hdr maxTileID es) := by
  unfold trim
  rw [hok]
  exact ⟨_, rfl, rfl, rfl, rfl, rfl, rfl, rfl⟩

/-- When pass one ends with an error `trim` aborts with it. -/
theorem trim_of_err (src : List Nat) (hdr : HeaderV3) (maxZoom maxTileID : Nat)
    (es : List EntryV3) (headerLen metaLen : Nat) (rootLen leafLen : List EntryV3 → Nat)
    (err : InvalidTileRange) (herr : (passOne hdr maxTileID es).opErr = some err) :
    trim src hdr maxZoom maxTileID es headerLen metaLen rootLen leafLen = Except.error err := by
  unfold trim
  rw [herr]

theorem sortedRanges_nodup (hdr : HeaderV3) (maxTileID : Nat) (es : List EntryV3) :
    (sortedRanges hdr maxTileID es).Nodup :=
  sortRanges_nodup (dedupInv_passOne hdr maxTileID es).1

/-- The key of every retained entry is one of the sorted ranges. -/
theorem keyOf_mem_sortedRanges (hdr : HeaderV3) (maxTileID : Nat) (es : List EntryV3)
    (e : EntryV3) (he : e ∈ (passOne hdr maxTileID es).entries) :
    keyOf e ∈ sortedRanges hdr maxTileID es := by
  unfold sortedRanges
  rw [mem_sortRanges, (dedupInv_passOne hdr maxTileID es).2.2.1]
  exact List.mem_map_of_mem keyOf he

/-- Every retained entry's key sits at some position of the sorted ranges and
`remap` holds the running total of that position under it. -/
theorem remapOf_keyOf (hdr : HeaderV3) (maxTileID : Nat) (es : List EntryV3)
    (e : EntryV3) (he : e ∈ (passOne hdr maxTileID es).entries) :
    ∃ i, (sortedRanges hdr maxTileID es)[i]? = some (keyOf e) ∧
      remapOf hdr maxTileID es (keyOf e) =
        some (plannedOffset (sortedRanges hdr maxTileID es) i) := by
  obtain ⟨i, hi⟩ := List.getElem?_of_mem (keyOf_mem_sortedRanges hdr maxTileID es e he)
  exact ⟨i, hi, buildRemap_getElem _ (sortedRanges_nodup hdr maxTileID es) i _ hi⟩

/-! ## The copied tile data -/

/-- The tile-data region of the input file. -/
theorem tileRegion_length (src : List Nat) (hdr : HeaderV3)
    (hfile : hdr.TileDataOffset + hdr.TileDataLength ≤ src.length) :
    (tileRegion src hdr).length = hdr.TileDataLength := by
  unfold tileRegion
  rw [List.length_take, List.length_drop]
  omega

/-- A range inside the region is copied from the region: the file offset
`TileDataOffset + off` does not wrap and the section read is the slice
`[off, off + len)` of the region, all `len` bytes of it. -/
theorem copyRange_region (src : List Nat) (hdr : HeaderV3) (k : tileKey)
    (hreg : hdr.TileDataOffset + hdr.TileDataLength < U64)
    (hfile : hdr.TileDataOffset + hdr.TileDataLength ≤ src.length)
    (hk : k.off + k.len ≤ hdr.TileDataLength) :
    copyRange src (add64 hdr.TileDataOffset k.off) k.len =
        ((tileRegion src hdr).drop k.off).take k.len ∧
      (((tileRegion src hdr).drop k.off).take k.len).length = k.len := by
  constructor
  · unfold copyRange tileRegion
    rw [add64_of_lt (by omega), List.drop_take, List.take_take, List.drop_drop]
    have h1 : min k.len (hdr.TileDataLength - k.off) = k.len := by omega
    rw [h1, Nat.add_comm]
  · rw [List.length_take, List.length_drop, tileRegion_length src hdr hfile]
    omega

/-- Chunks of known lengths laid end to end: the chunk of position `i` starts
at the sum of the lengths before it. -/
theorem flatMap_drop_take {α β : Type} (f : α → List β) (g : α → Nat) (s : List α)
    (hlen : ∀ k ∈ s, (f k).length = g k) (i : Nat) (k : α) (hi : s[i]? = some k) :
    ((s.flatMap f).drop ((s.take i).map g).sum).take (g k) = f k := by
  induction s generalizing i with
  | nil => simp at hi
  | cons a s ih =>
    have ha : (f a).length = g a := hlen a (List.mem_cons_self _ _)
    cases i with
    | zero =>
      simp only [List.getElem?_cons_zero, Option.some.injEq] at hi
      subst hi
      simp only [List.take_zero, List.map_nil, List.sum_nil, List.drop_zero,
        List.flatMap_cons]
      rw [← ha, List.take_left]
    | succ j =>
      simp only [List.getElem?_cons_succ] at hi
      simp only [List.take_succ_cons, List.map_cons, List.sum_cons, List.flatMap_cons]
      rw [List.drop_append_eq_append_drop, ← ha]
      have h1 : List.drop ((f a).length + ((s.take j).map g).sum) (f a) = [] :=
        List.drop_eq_nil_of_le (by omega)
      rw [h1, List.nil_append, Nat.add_sub_cancel_left]
      exact ih (fun x hx => hlen x (List.mem_cons_of_mem _ hx)) j hi

theorem flatMap_length {α β : Type} (f : α → List β) (g : α → Nat) (s : List α)
    (hlen : ∀ k ∈ s, (f k).length = g k) : (s.flatMap f).length = (s.map g).sum := by
  induction s with
  | nil => rfl
  | cons a s ih =>
    rw [List.flatMap_cons, List.length_append, List.map_cons, List.sum_cons,
      hlen a (List.mem_cons_self _ _), ih (fun x hx => hlen x (List.mem_cons_of_mem _ hx))]

/-- Without wrap-around every retained entry's range lies inside the region. -/
theorem passOne_entries_bound (hdr : HeaderV3) (maxTileID : Nat) (es : List EntryV3)
    (hreg : hdr.TileDataOffset + hdr.TileDataLength < U64)
    (hnw : ∀ e ∈ es, ¬ skipped maxTileID e → e.Offset + e.Length < U64) :
    ∀ e' ∈ (passOne hdr maxTileID es).entries, e'.Offset + e'.Length ≤ hdr.TileDataLength := by
  apply passOne_entries_forall
  intro e he hsk relOff hres
  exact (resolveOffset_bound (hnw e he hsk) hreg hres).1

theorem sortedRanges_bound (hdr : HeaderV3) (maxTileID : Nat) (es : List EntryV3)
    (hreg : hdr.TileDataOffset + hdr.TileDataLength < U64)
    (hnw : ∀ e ∈ es, ¬ skipped maxTileID e → e.Offset + e.Length < U64) :
    ∀ k ∈ sortedRanges hdr maxTileID es, k.off + k.len ≤ hdr.TileDataLength := by
  intro k hk
  unfold sortedRanges at hk
  rw [mem_sortRanges, (dedupInv_passOne hdr maxTileID es).2.2.1, List.mem_map] at hk
  obtain ⟨e, he, hke⟩ := hk
  rw [← hke]
  exact passOne_entries_bound hdr maxTileID es hreg hnw e he

/-! ## The zoom fields of the output header -/

theorem outHeader_maxZoom (hdr : HeaderV3)
    (z addressed nEntries nRanges headerLen rootLen metaLen leafLen tileBytes : Nat) :
    (outHeader hdr z addressed nEntries nRanges headerLen rootLen metaLen leafLen
        tileBytes).MaxZoom = z := by
  unfold outHeader
  by_cases h : hdr.CenterZoom > z
  · simp only [if_pos h]
  · simp only [if_neg h]

theorem outHeader_centerZoom (hdr : HeaderV3)
    (z addressed nEntries nRanges headerLen rootLen metaLen leafLen tileBytes : Nat) :
    (outHeader hdr z addressed nEntries nRanges headerLen rootLen metaLen leafLen
        tileBytes).CenterZoom = min hdr.CenterZoom z := by
  unfold outHeader
  by_cases h : hdr.CenterZoom > z
  · simp only [if_pos h]; omega
  · simp only [if_neg h]; omega

/-- The output header keeps the input `MinZoom`; it is at most the new
`MaxZoom` exactly when the requested zoom is not below it. -/
theorem outHeader_minZoom (hdr : HeaderV3)
    (z addressed nEntries nRanges headerLen rootLen metaLen leafLen tileBytes : Nat) :
    (outHeader hdr z addressed nEntries nRanges headerLen rootLen metaLen leafLen
        tileBytes).MinZoom = hdr.MinZoom ∧
    ((outHeader hdr z addressed nEntries nRanges headerLen rootLen metaLen leafLen
        tileBytes).MinZoom ≤
      (outHeader hdr z addressed nEntries nRanges headerLen rootLen metaLen leafLen
        tileBytes).MaxZoom ↔ hdr.MinZoom ≤ z) := by
  have h1 : (outHeader hdr z addressed nEntries nRanges headerLen rootLen metaLen leafLen
      tileBytes).MinZoom = hdr.MinZoom := by
    unfold outHeader
    by_cases h : hdr.CenterZoom > z
    · simp only [if_pos h]
    · simp only [if_neg h]
  rw [h1, outHeader_maxZoom]
  exact ⟨rfl, Iff.rfl⟩

/-! ## The closed form of a successful pass one -/

/-- A pass that ends without error resolved every non-skipped entry. -/
theorem resolve_of_ok (hdr : HeaderV3) (maxTileID : Nat) (es : List EntryV3)
    (hmax : maxTileID < U64) (hok : (passOne hdr maxTileID es).opErr = none) :
    ∀ e ∈ es, ¬ skipped maxTileID e → resolveOffset hdr e ≠ none := by
  intro e he hsk hres
  have h := (passOne_opErr_iff hdr maxTileID es hmax).2 ⟨e, he, hsk, hres⟩
  exact h hok

/-- When every non-skipped entry resolves, the pass raises no error and the
retained entries are the normalized non-skipped entries, in order. -/
theorem passOne_of_resolve (hdr : HeaderV3) (maxTileID : Nat) (es : List EntryV3)
    (hmax : maxTileID < U64)
    (hall : ∀ e ∈ es, ¬ skipped maxTileID e → resolveOffset hdr e ≠ none) :
    (passOne hdr maxTileID es).opErr = none ∧
      (passOne hdr maxTileID es).entries = es.filterMap (normalize hdr maxTileID) := by
  induction es using List.reverseRecOn with
  | nil => exact ⟨rfl, rfl⟩
  | append_singleton es e ih =>
    obtain ⟨ih1, ih2⟩ := ih (fun x hx => hall x (List.mem_append_left _ hx))
    rw [passOne_snoc, List.filterMap_append]
    by_cases hsk : skipped maxTileID e
    · rw [op_of_skip hdr maxTileID _ e hsk]
      refine ⟨ih1, ?_⟩
      rw [ih2]
      simp [normalize, hsk]
    · cases hres : resolveOffset hdr e with
      | none => exact absurd hres (hall e (by simp) hsk)
      | some relOff =>
        rw [op_entries_of_resolve hdr maxTileID _ e relOff hmax ih1 hsk hres]
        refine ⟨rfl, ?_⟩
        show (passOne hdr maxTileID es).entries ++ [keptEntry maxTileID e relOff] = _
        rw [ih2]
        simp [normalize, hsk, hres]

theorem passOne_entries_of_ok (hdr : HeaderV3) (maxTileID : Nat) (es : List EntryV3)
    (hmax : maxTileID < U64) (hok : (passOne hdr maxTileID es).opErr = none) :
    (passOne hdr maxTileID es).entries = es.filterMap (normalize hdr maxTileID) :=
  (passOne_of_resolve hdr maxTileID es hmax (resolve_of_ok hdr maxTileID es hmax hok)).2

/-- The addressed count is the `uint64` sum of the retained run lengths. -/
theorem passOne_addressed (hdr : HeaderV3) (maxTileID : Nat) (es : List EntryV3) :
    (passOne hdr maxTileID es).addressed =
      ((passOne hdr maxTileID es).entries.map EntryV3.RunLength).sum % U64 := by
  induction es using List.reverseRecOn with
  | nil => rfl
  | append_singleton es e ih =>
    rw [passOne_snoc]
    rcases op_cases hdr maxTileID (passOne hdr maxTileID es) e with h1 | h1 | h1
    · rw [h1]; exact ih
    · rw [h1.2.2.2.2.1, h1.2.2.2.2.2.2.2]; exact ih
    · obtain ⟨_, _, _, relOff, _, hop⟩ := h1
      rw [hop]
      show add64 (passOne hdr maxTileID es).addressed (toU32 (runLen maxTileID e)) =
        (((passOne hdr maxTileID es).entries ++ [keptEntry maxTileID e relOff]).map
          EntryV3.RunLength).sum % U64
      rw [ih, add64_mod_left, List.map_append, List.sum_append]
      rfl

theorem rewriteEntries_runLength (m : Remap) (l : List EntryV3) :
    (rewriteEntries m l).map EntryV3.RunLength = l.map EntryV3.RunLength := by
  unfold rewriteEntries
  rw [List.map_map]
  rfl

theorem rewriteEntries_length (m : Remap) (l : List EntryV3) :
    (rewriteEntries m l).length = l.length := by
  unfold rewriteEntries
  rw [List.length_map]

/-- The rewrite of the normalized entries, entry by entry against the
non-skipped input entries. -/
theorem forall2_filter_rewrite (hdr : HeaderV3) (maxTileID : Nat) (m : Remap)
    (l : List EntryV3)
    (hall : ∀ e ∈ l, ¬ skipped maxTileID e → resolveOffset hdr e ≠ none) :
    List.Forall₂
      (fun e e' => e'.TileID = e.TileID ∧ e'.Length = e.Length ∧
        e'.RunLength = toU32 (runLen maxTileID e) ∧
        ∃ relOff, resolveOffset hdr e = some relOff ∧
          e'.Offset = m.get { off := relOff, len := e.Length })
      (l.filter (fun e => decide (¬ skipped maxTileID e)))
      (rewriteEntries m (l.filterMap (normalize hdr maxTileID))) := by
  induction l with
  | nil => exact List.Forall₂.nil
  | cons e l ih =>
    have ih1 := ih (fun x hx => hall x (List.mem_cons_of_mem _ hx))
    by_cases hsk : skipped maxTileID e
    · have h1 : normalize hdr maxTileID e = none := by simp [normalize, hsk]
      rw [List.filter_cons_of_neg (by simpa using hsk), List.filterMap_cons_none h1]
      exact ih1
    · cases hres : resolveOffset hdr e with
      | none => exact absurd hres (hall e (List.mem_cons_self _ _) hsk)
      | some relOff =>
        have h1 : normalize hdr maxTileID e = some (keptEntry maxTileID e relOff) := by
          simp [normalize, hsk, hres]
        rw [List.filter_cons_of_pos (by simpa using hsk), List.filterMap_cons_some h1]
        exact List.Forall₂.cons ⟨rfl, rfl, rfl, relOff, hres, rfl⟩ ih1

theorem map_eq_of_forall2 (l l' : List EntryV3)
    (h : List.Forall₂ (fun e e' => e'.TileID = e.TileID ∧ e'.Length = e.Length) l l') :
    l'.map (fun e => (e.TileID, e.Length)) = l.map (fun e => (e.TileID, e.Length)) := by
  induction h with
  | nil => rfl
  | cons hab _ ih => rw [List.map_cons, List.map_cons, ih, hab.1, hab.2]

/-! ## The comparator and the sorted order -/

theorem less_eq_true_iff (a b : tileKey) :
    less a b = true ↔ a.off < b.off ∨ (a.off = b.off ∧ a.len < b.len) := by
  unfold less
  by_cases h : a.off = b.off
  · rw [if_pos h, decide_eq_true_iff]; omega
  · rw [if_neg h, decide_eq_true_iff]; omega

theorem less_eq_false_iff (a b : tileKey) :
    less a b = false ↔ b.off < a.off ∨ (a.off = b.off ∧ b.len ≤ a.len) := by
  rw [← Bool.not_eq_true, less_eq_true_iff]; omega

theorem less_irrefl (a : tileKey) : less a a = false := by
  rw [less_eq_false_iff]; omega

theorem less_trans {a b c : tileKey} (h1 : less a b = true) (h2 : less b c = true) :
    less a c = true := by
  rw [less_eq_true_iff] at *; omega

theorem less_total {a b : tileKey} (h : a ≠ b) : less a b = true ∨ less b a = true := by
  rw [less_eq_true_iff, less_eq_true_iff]
  by_contra hc
  apply h
  cases a; cases b
  simp only [tileKey.mk.injEq]
  simp only at hc
  omega

theorem less_asymm {a b : tileKey} (h : less a b = true) : less b a = false := by
  rw [less_eq_true_iff] at h; rw [less_eq_false_iff]; omega

theorem notLess_total (a b : tileKey) : less b a = false ∨ less a b = false := by
  rw [less_eq_false_iff, less_eq_false_iff]; omega

theorem notLess_trans {a b c : tileKey} (h1 : less b a = false) (h2 : less c b = false) :
    less c a = false := by
  rw [less_eq_false_iff] at *; omega

theorem notLess_antisymm {a b : tileKey} (h1 : less b a = false) (h2 : less a b = false) :
    a = b := by
  rw [less_eq_false_iff] at *
  cases a; cases b
  simp only [tileKey.mk.injEq]
  simp only at h1 h2
  omega

theorem sortRanges_sorted (l : List tileKey) : SortedRanges (sortRanges l) := by
  haveI : IsTotal tileKey (fun a b => less b a = false) := ⟨notLess_total⟩
  haveI : IsTrans tileKey (fun a b => less b a = false) := ⟨fun _ _ _ h1 h2 => notLess_trans h1 h2⟩
  exact List.sorted_insertionSort (fun a b => less b a = false) l

/-- A sorted permutation of a list is the list `sortRanges` returns. -/
theorem sortRanges_unique {l s : List tileKey} (hp : s.Perm l) (hs : SortedRanges s) :
    s = sortRanges l := by
  haveI : IsAntisymm tileKey (fun a b => less b a = false) :=
    ⟨fun _ _ h1 h2 => notLess_antisymm h1 h2⟩
  exact List.eq_of_perm_of_sorted (hp.trans (sortRanges_perm l).symm) hs (sortRanges_sorted l)

theorem sortRanges_congr {l₁ l₂ : List tileKey} (hp : l₁.Perm l₂) :
    sortRanges l₁ = sortRanges l₂ :=
  sortRanges_unique ((sortRanges_perm l₁).trans hp) (sortRanges_sorted l₁)

/-- On a duplicate-free list the sorted order is strict. -/
theorem sortRanges_strict {l : List tileKey} (hnd : l.Nodup) :
    (sortRanges l).Pairwise (fun a b => less a b = true) := by
  have h1 : (sortRanges l).Pairwise (fun a b => less b a = false ∧ a ≠ b) :=
    (sortRanges_sorted l).and (sortRanges_nodup hnd)
  refine h1.imp ?_
  intro a b hab
  rcases less_total hab.2 with h | h
  · exact h
  · rw [hab.1] at h; cases h

/-! ## Lengths and running totals of the distinct ranges -/

/-- Every distinct range of pass one has a nonzero length. -/
theorem passOne_ranges_len_pos (hdr : HeaderV3) (maxTileID : Nat) (es : List EntryV3) :
    ∀ k ∈ (passOne hdr maxTileID es).ranges, 1 ≤ k.len := by
  intro k hk
  rw [(dedupInv_passOne hdr maxTileID es).2.2.1, List.mem_map] at hk
  obtain ⟨e, he, hke⟩ := hk
  have h := passOne_entries_forall hdr maxTileID (fun e' => e'.Length ≠ 0) es
    (fun x _ hsk _ _ => by
      show x.Length ≠ 0
      unfold skipped at hsk
      omega) e he
  rw [← hke]
  show 1 ≤ e.Length
  omega

theorem sortedRanges_len_pos (hdr : HeaderV3) (maxTileID : Nat) (es : List EntryV3) :
    ∀ k ∈ sortedRanges hdr maxTileID es, 1 ≤ k.len := by
  intro k hk
  unfold sortedRanges at hk
  rw [mem_sortRanges] at hk
  exact passOne_ranges_len_pos hdr maxTileID es k hk

theorem sum_take_succ (s : List tileKey) (i : Nat) (a : tileKey) (hi : s[i]? = some a) :
    ((s.take (i + 1)).map tileKey.len).sum = ((s.take i).map tileKey.len).sum + a.len := by
  rw [List.take_succ, hi]
  simp

theorem sum_take_mono (s : List tileKey) {i j : Nat} (hij : i ≤ j) :
    ((s.take i).map tileKey.len).sum ≤ ((s.take j).map tileKey.len).sum := by
  have h : s.take i = (s.take j).take i := by
    rw [List.take_take, Nat.min_eq_left hij]
  rw [h]
  exact sum_take_le (s.take j) i

/-- The exact running total grows by at least the length of the range at
position `i` between position `i` and any later position. -/
theorem sum_take_lt (s : List tileKey) {i j : Nat} (a : tileKey) (hi : s[i]? = some a)
    (hij : i < j) :
    ((s.take i).map tileKey.len).sum + a.len ≤ ((s.take j).map tileKey.len).sum := by
  rw [← sum_take_succ s i a hi]
  exact sum_take_mono s hij

/-- Without wrap-around of the total, in a duplicate-free list of ranges of
nonzero length the assigned offsets increase strictly with the position. -/
theorem buildRemap_strictMono (s : List tileKey) (hnd : s.Nodup)
    (hpos : ∀ k ∈ s, 1 ≤ k.len) (hsum : (s.map tileKey.len).sum < U64)
    (i j : Nat) (a b : tileKey) (hij : i < j) (hi : s[i]? = some a) (hj : s[j]? = some b) :
    (buildRemap s).1.get a + a.len ≤ (buildRemap s).1.get b ∧
      (buildRemap s).1.get a < (buildRemap s).1.get b := by
  rw [buildRemap_get s hnd i a hi, buildRemap_get s hnd j b hj,
    plannedOffset_exact s i hsum, plannedOffset_exact s j hsum]
  have h1 := sum_take_lt s a hi hij
  have h2 := hpos a (List.getElem?_mem hi)
  omega

theorem buildRemap_injective (s : List tileKey) (hnd : s.Nodup)
    (hpos : ∀ k ∈ s, 1 ≤ k.len) (hsum : (s.map tileKey.len).sum < U64)
    (a b : tileKey) (ha : a ∈ s) (hb : b ∈ s)
    (hab : (buildRemap s).1.get a = (buildRemap s).1.get b) : a = b := by
  obtain ⟨i, hi⟩ := List.getElem?_of_mem ha
  obtain ⟨j, hj⟩ := List.getElem?_of_mem hb
  rcases Nat.lt_trichotomy i j with h | h | h
  · have := (buildRemap_strictMono s hnd hpos hsum i j a b h hi hj).2
    omega
  · rw [h, hj] at hi
    exact (Option.some.inj hi).symm
  · have := (buildRemap_strictMono s hnd hpos hsum j i b a h hj hi).2
    omega

/-! ## The output tile-data length -/

/-- `tileBytes` is the `uint64` sum of the lengths of the distinct ranges. -/
theorem tileBytesOf_eq (hdr : HeaderV3) (maxTileID : Nat) (es : List EntryV3) :
    tileBytesOf hdr maxTileID es =
      ((passOne hdr maxTileID es).ranges.map tileKey.len).sum % U64 := by
  unfold tileBytesOf sortedRanges
  rw [buildRemap_total, ((sortRanges_perm _).map tileKey.len).sum_eq]

/-- The distinct ranges are the keys of the retained entries, each once. -/
theorem passOne_ranges_perm_dedup (hdr : HeaderV3) (maxTileID : Nat) (es : List EntryV3) :
    (passOne hdr maxTileID es).ranges.Perm
      ((passOne hdr maxTileID es).entries.map keyOf).dedup := by
  obtain ⟨hnd, _, hkeys, _⟩ := dedupInv_passOne hdr maxTileID es
  rw [List.perm_ext_iff_of_nodup hnd (List.nodup_dedup _)]
  intro k
  rw [hkeys k, List.mem_dedup]

/-- Sorted ranges that do not overlap, have nonzero length and start at `b` or
later inside a region of `T` bytes have lengths adding up to at most `T - b`. -/
theorem sum_len_le_of_disjoint (T : Nat) (s : List tileKey) (b : Nat)
    (hs : SortedRanges s) (hdis : s.Pairwise disjointKeys)
    (hpos : ∀ k ∈ s, 1 ≤ k.len) (hin : ∀ k ∈ s, k.off + k.len ≤ T)
    (hb : ∀ k ∈ s, b ≤ k.off) : (s.map tileKey.len).sum ≤ T - b := by
  induction s generalizing b with
  | nil => simp
  | cons a s ih =>
    unfold SortedRanges at hs
    rw [List.pairwise_cons] at hs hdis
    have hle : ∀ r ∈ s, a.off + a.len ≤ r.off := by
      intro r hr
      have h1 := (less_eq_false_iff r a).1 (hs.1 r hr)
      have h2 := hdis.1 r hr
      have h3 := hpos r (List.mem_cons_of_mem _ hr)
      unfold disjointKeys at h2
      omega
    have h4 := ih (a.off + a.len) hs.2 hdis.2
      (fun k hk => hpos k (List.mem_cons_of_mem _ hk))
      (fun k hk => hin k (List.mem_cons_of_mem _ hk)) hle
    have h5 := hin a (List.mem_cons_self _ _)
    have h6 := hb a (List.mem_cons_self _ _)
    rw [List.map_cons, List.sum_cons]
    omega

theorem disjointKeys_symm {a b : tileKey} (h : disjointKeys a b) : disjointKeys b a := by
  unfold disjointKeys at *; omega

/-! ## Running the engine on its own output -/

theorem rewriteEntries_eq_map (m : Remap) (l : List EntryV3) :
    rewriteEntries m l = l.map (reoffset m) := rfl

theorem keyOf_reoffset (m : Remap) (e : EntryV3) : keyOf (reoffset m e) = rekey m (keyOf e) :=
  rfl

/-- The run length depends on the entry through its tile and `max RunLength 1`. -/
theorem runLen_congr (c : Nat) {e e' : EntryV3} (ht : e'.TileID = e.TileID)
    (hr : max e'.RunLength 1 = max e.RunLength 1) : runLen c e' = runLen c e := by
  rw [runLen_eq, runLen_eq, ht, hr]

/-- Normalizing with cutoff `c2` an entry already normalized with a cutoff
`c1 ≥ c2` gives the run length of a single normalization with `c2`. -/
theorem runLen_rerun {c1 c2 : Nat} {e e' : EntryV3} (hc : c2 ≤ c1) (hc1 : c1 < U64)
    (hlt : e.TileID < c2) (hr : e.RunLength < U32) (ht : e'.TileID = e.TileID)
    (hr' : e'.RunLength = toU32 (runLen c1 e)) : runLen c2 e' = runLen c2 e := by
  have hlt1 : e.TileID < c1 := by omega
  have h32 := runLen_lt_U32 hc1 hlt1 hr
  have hpos := @runLen_pos c1 e hc1 hlt1
  have hr1 : e'.RunLength = runLen c1 e := by
    rw [hr']; exact Nat.mod_eq_of_lt h32
  by_cases hnw : e.TileID + max e.RunLength 1 < U64
  · have h1 := runLen_nowrap hc1 hlt1 hnw
    have hnw' : e'.TileID + max e'.RunLength 1 < U64 := by
      rw [ht, hr1, h1]; omega
    rw [runLen_nowrap (by omega) (by rw [ht]; exact hlt) hnw',
      runLen_nowrap (by omega) hlt hnw, ht, hr1, h1]
    omega
  · have h1 := runLen_wrap hc1 hlt1 hr (by omega)
    apply runLen_congr c2 ht
    rw [hr1, h1]
    omega

/-- Without wrap-around of the total, every range ends inside the output
region. -/
theorem buildRemap_get_add_le (s : List tileKey) (hnd : s.Nodup)
    (hsum : (s.map tileKey.len).sum < U64) (k : tileKey) (hk : k ∈ s) :
    (buildRemap s).1.get k + k.len ≤ (s.map tileKey.len).sum := by
  obtain ⟨i, hi⟩ := List.getElem?_of_mem hk
  rw [buildRemap_get s hnd i k hi, plannedOffset_exact s i hsum, ← sum_take_succ s i k hi]
  exact sum_take_le s (i + 1)

/-- In a strictly sorted list of ranges of nonzero length, without wrap-around
of the total, a smaller key gets a smaller offset. -/
theorem buildRemap_lt_of_less (l : List tileKey) (hnd : l.Nodup)
    (hpos : ∀ k ∈ l, 1 ≤ k.len) (hsum : ((sortRanges l).map tileKey.len).sum < U64)
    (a b : tileKey) (ha : a ∈ sortRanges l) (hb : b ∈ sortRanges l)
    (hab : less a b = true) :
    (buildRemap (sortRanges l)).1.get a < (buildRemap (sortRanges l)).1.get b := by
  have hnds := sortRanges_nodup hnd
  have hpos' : ∀ k ∈ sortRanges l, 1 ≤ k.len := fun k hk => hpos k (mem_sortRanges.1 hk)
  obtain ⟨i, hi⟩ := List.getElem?_of_mem ha
  obtain ⟨j, hj⟩ := List.getElem?_of_mem hb
  have hstrict := sortRanges_strict hnd
  rw [List.pairwise_iff_getElem] at hstrict
  obtain ⟨hil, hia⟩ := List.getElem?_eq_some_iff.1 hi
  obtain ⟨hjl, hjb⟩ := List.getElem?_eq_some_iff.1 hj
  rcases Nat.lt_trichotomy i j with h | h | h
  · exact (buildRemap_strictMono _ hnds hpos' hsum i j a b h hi hj).2
  · exfalso
    subst h
    rw [hi] at hj
    have hab' : a = b := Option.some.inj hj
    rw [hab', less_irrefl] at hab
    cases hab
  · exfalso
    have h1 := hstrict j i hjl hil h
    rw [hia, hjb] at h1
    rw [less_asymm h1] at hab
    cases hab

theorem skipped_mono {c1 c2 : Nat} {e : EntryV3} (hc : c2 ≤ c1) (h : skipped c1 e) :
    skipped c2 e := by
  unfold skipped at *; omega

/-- One entry through both runs: normalizing with `c1`, rewriting the offset
with `m` and normalizing again with `c2 ≤ c1` (against a header in whose
region the rewritten range fits) is normalizing once with `c2` and rewriting
the offset with `m`. -/
theorem normalize_rerun (hdr hdr1 : HeaderV3) (c1 c2 : Nat) (m : Remap) (e : EntryV3)
    (hc : c2 ≤ c1) (hc1 : c1 < U64) (hr : e.RunLength < U32)
    (hres : ¬ skipped c1 e → ∃ r, resolveOffset hdr e = some r ∧
      add64 (m.get { off := r, len := e.Length }) e.Length ≤ hdr1.TileDataLength) :
    (normalize hdr c1 e).bind (fun a => normalize hdr1 c2 (reoffset m a)) =
      (normalize hdr c2 e).map (reoffset m) := by
  by_cases hsk1 : skipped c1 e
  · have hsk2 := skipped_mono hc hsk1
    simp [normalize, hsk1, hsk2]
  · obtain ⟨r, hr1, hfit⟩ := hres hsk1
    have hN1 : normalize hdr c1 e = some (keptEntry c1 e r) := by
      simp [normalize, hsk1, hr1]
    rw [hN1, Option.some_bind]
    by_cases hsk2 : skipped c2 e
    · have hsk2' : skipped c2 (reoffset m (keptEntry c1 e r)) := hsk2
      simp [normalize, hsk2, hsk2']
    · have hsk2' : ¬ skipped c2 (reoffset m (keptEntry c1 e r)) := hsk2
      have hlt : e.TileID < c2 := by unfold skipped at hsk2; omega
      have hres2 : resolveOffset hdr1 (reoffset m (keptEntry c1 e r)) =
          some (m.get { off := r, len := e.Length }) :=
        @resolveOffset_rel hdr1 (reoffset m (keptEntry c1 e r)) hfit
      have hrl : runLen c2 (reoffset m (keptEntry c1 e r)) = runLen c2 e :=
        runLen_rerun hc hc1 hlt hr rfl rfl
      have hN2 : normalize hdr1 c2 (reoffset m (keptEntry c1 e r)) =
          some (keptEntry c2 (reoffset m (keptEntry c1 e r))
            (m.get { off := r, len := e.Length })) := by
        simp [normalize, hsk2', hres2]
      have hNS : normalize hdr c2 e = some (keptEntry c2 e r) := by
        simp [normalize, hsk2, hr1]
      rw [hN2, hNS, Option.map_some']
      congr 1
      show ({ TileID := e.TileID, Offset := m.get { off := r, len := e.Length },
              Length := e.Length,
              RunLength := toU32 (runLen c2 (reoffset m (keptEntry c1 e r))) } : EntryV3) =
        { TileID := e.TileID, Offset := m.get { off := r, len := e.Length },
          Length := e.Length, RunLength := toU32 (runLen c2 e) }
      rw [hrl]

/-- Sorting commutes with a key map that preserves the strict order of the
keys of the list. -/
theorem sortRanges_map (f : tileKey → tileKey) (l : List tileKey) (hnd : l.Nodup)
    (hmono : ∀ a ∈ l, ∀ b ∈ l, less a b = true → less (f a) (f b) = true) :
    sortRanges (l.map f) = (sortRanges l).map f := by
  symm
  apply sortRanges_unique ((sortRanges_perm l).map f)
  unfold SortedRanges
  rw [List.pairwise_map]
  refine (sortRanges_strict hnd).imp_of_mem ?_
  intro a b ha hb hab
  exact less_asymm (hmono a (mem_sortRanges.1 ha) b (mem_sortRanges.1 hb) hab)

/-- Two duplicate-free lists with the same elements are sorted alike. -/
theorem sortRanges_of_mem_iff {l₁ l₂ : List tileKey} (h1 : l₁.Nodup) (h2 : l₂.Nodup)
    (hmem : ∀ k, k ∈ l₁ ↔ k ∈ l₂) : sortRanges l₁ = sortRanges l₂ :=
  sortRanges_congr ((List.perm_ext_iff_of_nodup h1 h2).2 hmem)

theorem map_len_rekey (m : Remap) (s : List tileKey) :
    (s.map (rekey m)).map tileKey.len = s.map tileKey.len := by
  rw [List.map_map]; rfl

theorem plannedOffset_map_rekey (m : Remap) (s : List tileKey) (i : Nat) :
    plannedOffset (s.map (rekey m)) i = plannedOffset s i := by
  unfold plannedOffset
  rw [← List.map_take, map_len_rekey]

/-- The keys of the entries a pass with cutoff `c2 ≤ c1` retains are among the
sorted ranges of the pass with cutoff `c1`. -/
theorem resolved_key_mem (hdr : HeaderV3) (c1 : Nat) (es : List EntryV3) (hc1 : c1 < U64)
    (hok : (passOne hdr c1 es).opErr = none) (e : EntryV3) (he : e ∈ es)
    (hsk : ¬ skipped c1 e) (r : Nat) (hr : resolveOffset hdr e = some r) :
    ({ off := r, len := e.Length } : tileKey) ∈ sortedRanges hdr c1 es := by
  have hmem : keptEntry c1 e r ∈ (passOne hdr c1 es).entries := by
    rw [passOne_entries_of_ok hdr c1 es hc1 hok, List.mem_filterMap]
    exact ⟨e, he, by simp [normalize, hsk, hr]⟩
  exact keyOf_mem_sortedRanges hdr c1 es _ hmem

/-- The facts about the second run: it raises no error and retains the
entries of the single run with their offsets rewritten by the first map. -/
theorem rerun_entries (hdr hdr1 : HeaderV3) (c1 c2 : Nat) (es : List EntryV3)
    (hc : c2 ≤ c1) (hc1 : c1 < U64) (hwf : ∀ e ∈ es, e.RunLength < U32)
    (hok : (passOne hdr c1 es).opErr = none)
    (hsum : ((sortedRanges hdr c1 es).map tileKey.len).sum < U64)
    (hlen1 : hdr1.TileDataLength = tileBytesOf hdr c1 es) :
    (passOne hdr c2 es).opErr = none ∧
    (passOne hdr c2 es).entries = es.filterMap (normalize hdr c2) ∧
    (passOne hdr1 c2 (rewrittenEntries hdr c1 es)).opErr = none ∧
    (passOne hdr1 c2 (rewrittenEntries hdr c1 es)).entries =
      ((passOne hdr c2 es).entries).map (reoffset (remapOf hdr c1 es)) ∧
    (∀ x ∈ (passOne hdr c2 es).entries, keyOf x ∈ sortedRanges hdr c1 es) := by
  have hc2 : c2 < U64 := by omega
  have hall1 := resolve_of_ok hdr c1 es hc1 hok
  have hnd1 := sortedRanges_nodup hdr c1 es
  have hT : tileBytesOf hdr c1 es = ((sortedRanges hdr c1 es).map tileKey.len).sum := by
    unfold tileBytesOf
    rw [buildRemap_total]
    exact Nat.mod_eq_of_lt hsum
  -- a key of the first run fits the output region of the first run
  have hfit : ∀ k ∈ sortedRanges hdr c1 es,
      add64 ((remapOf hdr c1 es).get k) k.len ≤ hdr1.TileDataLength := by
    intro k hk
    have h1 := buildRemap_get_add_le _ hnd1 hsum k hk
    have h2 : (remapOf hdr c1 es).get k + k.len ≤ ((sortedRanges hdr c1 es).map tileKey.len).sum :=
      h1
    rw [add64_of_lt (by omega), hlen1, hT]
    exact h2
  -- the single run with the smaller cutoff
  have hallS : ∀ e ∈ es, ¬ skipped c2 e → resolveOffset hdr e ≠ none :=
    fun e he hsk => hall1 e he (fun h => hsk (skipped_mono hc h))
  obtain ⟨hokS, hentS⟩ := passOne_of_resolve hdr c2 es hc2 hallS
  -- entry by entry
  have hpoint : ∀ e ∈ es,
      (normalize hdr c1 e).bind (fun a => normalize hdr1 c2 (reoffset (remapOf hdr c1 es) a)) =
        (normalize hdr c2 e).map (reoffset (remapOf hdr c1 es)) := by
    intro e he
    apply normalize_rerun hdr hdr1 c1 c2 _ e hc hc1 (hwf e he)
    intro hsk
    cases hr : resolveOffset hdr e with
    | none => exact absurd hr (hall1 e he hsk)
    | some r =>
      exact ⟨r, rfl, hfit _ (resolved_key_mem hdr c1 es hc1 hok e he hsk r hr)⟩
  have hE1 : rewrittenEntries hdr c1 es =
      (es.filterMap (normalize hdr c1)).map (reoffset (remapOf hdr c1 es)) := by
    unfold rewrittenEntries
    rw [rewriteEntries_eq_map, passOne_entries_of_ok hdr c1 es hc1 hok]
  have hB : (rewrittenEntries hdr c1 es).filterMap (normalize hdr1 c2) =
      (es.filterMap (normalize hdr c2)).map (reoffset (remapOf hdr c1 es)) := by
    rw [hE1, List.filterMap_map, List.filterMap_filterMap, List.map_filterMap]
    exact List.filterMap_congr hpoint
  -- the second run resolves every entry it does not skip
  have hall2 : ∀ e' ∈ rewrittenEntries hdr c1 es, ¬ skipped c2 e' →
      resolveOffset hdr1 e' ≠ none := by
    intro e' he' _
    unfold rewrittenEntries at he'
    rw [rewriteEntries_eq_map, List.mem_map] at he'
    obtain ⟨a, ha, hae⟩ := he'
    have hk := keyOf_mem_sortedRanges hdr c1 es a ha
    have h1 : resolveOffset hdr1 e' = some e'.Offset := by
      apply resolveOffset_rel
      rw [← hae]
      exact hfit _ hk
    rw [h1]
    exact Option.some_ne_none _
  obtain ⟨hok2, hent2⟩ := passOne_of_resolve hdr1 c2 (rewrittenEntries hdr c1 es) hc2 hall2
  refine ⟨hokS, hentS, hok2, ?_, ?_⟩
  · rw [hent2, hB, hentS]
  · intro x hx
    rw [hentS, List.mem_filterMap] at hx
    obtain ⟨e, he, hex⟩ := hx
    by_cases hsk : skipped c2 e
    · simp [normalize, hsk] at hex
    · cases hr : resolveOffset hdr e with
      | none => exact absurd hr (hallS e he hsk)
      | some r =>
        have hx' : x = keptEntry c2 e r := by
          simp [normalize, hsk, hr] at hex
          exact hex.symm
        rw [hx']
        exact resolved_key_mem hdr c1 es hc1 hok e he
          (fun h => hsk (skipped_mono hc h)) r hr

/-- The sorted ranges of the second run are the sorted ranges of the single
run, each moved to the offset the first run assigned to it. -/
theorem rerun_sortedRanges (hdr hdr1 : HeaderV3) (c1 c2 : Nat) (es : List EntryV3)
    (hc : c2 ≤ c1) (hc1 : c1 < U64) (hwf : ∀ e ∈ es, e.RunLength < U32)
    (hok : (passOne hdr c1 es).opErr = none)
    (hsum : ((sortedRanges hdr c1 es).map tileKey.len).sum < U64)
    (hlen1 : hdr1.TileDataLength = tileBytesOf hdr c1 es) :
    sortedRanges hdr1 c2 (rewrittenEntries hdr c1 es) =
      (sortedRanges hdr c2 es).map (rekey (remapOf hdr c1 es)) := by
  obtain ⟨_, _, _, hent2, hsub⟩ := rerun_entries hdr hdr1 c1 c2 es hc hc1 hwf hok hsum hlen1
  obtain ⟨hndS, _, hkeysS, _⟩ := dedupInv_passOne hdr c2 es
  obtain ⟨hnd2, _, hkeys2, _⟩ := dedupInv_passOne hdr1 c2 (rewrittenEntries hdr c1 es)
  have hnd1 := (dedupInv_passOne hdr c1 es).1
  have hpos1 := passOne_ranges_len_pos hdr c1 es
  -- the distinct ranges of the single run are ranges of the first run
  have hRS : ∀ k ∈ (passOne hdr c2 es).ranges, k ∈ sortedRanges hdr c1 es := by
    intro k hk
    rw [hkeysS k, List.mem_map] at hk
    obtain ⟨x, hx, hxk⟩ := hk
    rw [← hxk]
    exact hsub x hx
  have hinj : ∀ a ∈ (passOne hdr c2 es).ranges, ∀ b ∈ (passOne hdr c2 es).ranges,
      rekey (remapOf hdr c1 es) a = rekey (remapOf hdr c1 es) b → a = b := by
    intro a ha b hb hab
    have h1 : (remapOf hdr c1 es).get a = (remapOf hdr c1 es).get b :=
      congrArg tileKey.off hab
    exact buildRemap_injective _ (sortedRanges_nodup hdr c1 es)
      (sortedRanges_len_pos hdr c1 es) hsum a b (hRS a ha) (hRS b hb) h1
  have hmono : ∀ a ∈ (passOne hdr c2 es).ranges, ∀ b ∈ (passOne hdr c2 es).ranges,
      less a b = true →
      less (rekey (remapOf hdr c1 es) a) (rekey (remapOf hdr c1 es) b) = true := by
    intro a ha b hb hab
    have h1 := buildRemap_lt_of_less (passOne hdr c1 es).ranges hnd1 hpos1 hsum a b
      (hRS a ha) (hRS b hb) hab
    rw [less_eq_true_iff]
    exact Or.inl h1
  have hmem : ∀ k, k ∈ (passOne hdr1 c2 (rewrittenEntries hdr c1 es)).ranges ↔
      k ∈ (passOne hdr c2 es).ranges.map (rekey (remapOf hdr c1 es)) := by
    intro k
    rw [hkeys2 k, hent2, List.map_map, List.mem_map, List.mem_map]
    constructor
    · rintro ⟨x, hx, hxk⟩
      exact ⟨keyOf x, (hkeysS _).2 (List.mem_map_of_mem keyOf hx), hxk⟩
    · rintro ⟨a, ha, hak⟩
      rw [hkeysS a, List.mem_map] at ha
      obtain ⟨x, hx, hxa⟩ := ha
      exact ⟨x, hx, by rw [← hak, ← hxa]; rfl⟩
  unfold sortedRanges
  rw [sortRanges_of_mem_iff hnd2 (hndS.map_on hinj) hmem,
    sortRanges_map _ _ hndS hmono]

/-! ## A stream whose total length wraps -/

/-- On a stream of non-skipped entries that pass the relative test and have
pairwise different keys, pass one raises no error and the distinct ranges are
the keys of the stream, in order. -/
theorem passOne_ranges_of_distinct (hdr : HeaderV3) (c : Nat) (es : List EntryV3)
    (hc : c < U64) (hsk : ∀ e ∈ es, ¬ skipped c e)
    (hrel : ∀ e ∈ es, add64 e.Offset e.Length ≤ hdr.TileDataLength)
    (hnd : (es.map keyOf).Nodup) :
    (passOne hdr c es).opErr = none ∧ (passOne hdr c es).ranges = es.map keyOf := by
  induction es using List.reverseRecOn with
  | nil => exact ⟨rfl, rfl⟩
  | append_singleton es e ih =>
    rw [List.map_append, List.nodup_append] at hnd
    obtain ⟨ih1, ih2⟩ := ih (fun x hx => hsk x (List.mem_append_left _ hx))
      (fun x hx => hrel x (List.mem_append_left _ hx)) hnd.1
    have he : e ∈ es ++ [e] := by simp
    rw [passOne_snoc, op_entries_of_resolve hdr c _ e e.Offset hc ih1 (hsk e he)
      (resolveOffset_rel (hrel e he))]
    refine ⟨rfl, ?_⟩
    have hk : keyOf (keptEntry c e e.Offset) = keyOf e := rfl
    have hnew : keyOf e ∉ (passOne hdr c es).seen := by
      rw [(dedupInv_passOne hdr c es).2.1, ih2]
      intro hmem
      exact hnd.2.2 hmem (by simp)
    show (if keyOf (keptEntry c e e.Offset) ∈ (passOne hdr c es).seen
        then (passOne hdr c es).ranges
        else (passOne hdr c es).ranges ++ [keyOf (keptEntry c e e.Offset)]) = _
    rw [hk, if_neg hnew, ih2, List.map_append]
    rfl

theorem wideStream_keys (n len : Nat) :
    (wideStream n len).map keyOf = (List.range n).map (fun i => { off := i, len := len }) := by
  unfold wideStream
  rw [List.map_map]
  rfl

theorem wideStream_keys_nodup (n len : Nat) : ((wideStream n len).map keyOf).Nodup := by
  rw [wideStream_keys]
  refine (List.nodup_range n).map ?_
  intro i j hij
  exact congrArg tileKey.off hij

theorem wideStream_keys_sorted (n len : Nat) :
    SortedRanges ((List.range n).map (fun i => ({ off := i, len := len } : tileKey))) := by
  unfold SortedRanges
  rw [List.pairwise_map]
  refine (List.pairwise_lt_range n).imp ?_
  intro i j hij
  rw [less_eq_false_iff]
  left
  exact hij

/-- The sorted ranges of a wide stream below the cutoff and inside the region
are its keys in stream order, and the pass succeeds. -/
theorem wideStream_sortedRanges (hdr : HeaderV3) (c n len : Nat) (hc : c < U64)
    (hn : n ≤ c) (hlen : len ≠ 0) (hfit : n + len ≤ hdr.TileDataLength)
    (hT : hdr.TileDataLength < U64) :
    (passOne hdr c (wideStream n len)).opErr = none ∧
      sortedRanges hdr c (wideStream n len) =
        (List.range n).map (fun i => { off := i, len := len }) := by
  have hmem : ∀ e ∈ wideStream n len, e.TileID < n ∧ e.Offset < n ∧ e.Length = len := by
    intro e he
    unfold wideStream at he
    rw [List.mem_map] at he
    obtain ⟨i, hi, hie⟩ := he
    rw [List.mem_range] at hi
    rw [← hie]
    exact ⟨hi, hi, rfl⟩
  have h := passOne_ranges_of_distinct hdr c (wideStream n len) hc
    (fun e he => by
      have := hmem e he
      unfold skipped
      omega)
    (fun e he => by
      have := hmem e he
      rw [add64_of_lt (by omega)]
      omega)
    (wideStream_keys_nodup n len)
  refine ⟨h.1, ?_⟩
  unfold sortedRanges sortRanges
  rw [h.2, wideStream_keys]
  exact List.Sorted.insertionSort_eq (wideStream_keys_sorted n len)

theorem plannedOffset_wide (n len i : Nat) (hi : i ≤ n) :
    plannedOffset ((List.range n).map (fun i => ({ off := i, len := len } : tileKey))) i =
      (i * len) % U64 := by
  unfold plannedOffset
  rw [← List.map_take, List.take_range, Nat.min_eq_left hi, List.map_map]
  have h : (tileKey.len ∘ fun i => ({ off := i, len := len } : tileKey)) = fun _ => len := rfl
  rw [h, List.map_const', List.sum_replicate, List.length_range]
  rfl

/-- In a wide stream the range of position `i` is `(i, len)` and receives the
offset `i * len` reduced modulo `2 ^ 64`. -/
theorem wideStream_remap (hdr : HeaderV3) (c n len i : Nat) (hc : c < U64)
    (hn : n ≤ c) (hlen : len ≠ 0) (hfit : n + len ≤ hdr.TileDataLength)
    (hT : hdr.TileDataLength < U64) (hi : i < n) :
    (sortedRanges hdr c (wideStream n len))[i]? = some { off := i, len := len } ∧
      (remapOf hdr c (wideStream n len)).get { off := i, len := len } = (i * len) % U64 := by
  have hs := (wideStream_sortedRanges hdr c n len hc hn hlen hfit hT).2
  have hget : (sortedRanges hdr c (wideStream n len))[i]? = some { off := i, len := len } := by
    rw [hs, List.getElem?_map, List.getElem?_range hi]
    rfl
  refine ⟨hget, ?_⟩
  have h1 := buildRemap_get _ (sortedRanges_nodup hdr c (wideStream n len)) i _ hget
  have h2 : (remapOf hdr c (wideStream n len)).get { off := i, len := len } =
      plannedOffset (sortedRanges hdr c (wideStream n len)) i := h1
  rw [h2, hs, plannedOffset_wide n len i (by omega)]
/-! ## Exact totals, and streams on which the totals wrap -/

theorem sum_len_sortRanges (rs : List tileKey) :
    ((sortRanges rs).map tileKey.len).sum = (rs.map tileKey.len).sum :=
  ((sortRanges_perm rs).map tileKey.len).sum_eq

/-- The plan of lines 148-151 on a sorted duplicate-free list, in the `uint64`
arithmetic of the code, with the exact sums when the lengths add up to less
than `2 ^ 64`. -/
theorem buildRemap_gapless (rs : List tileKey) (hnd : rs.Nodup) :
    (∀ a, (sortRanges rs)[0]? = some a → (buildRemap (sortRanges rs)).1.get a = 0) ∧
    (∀ i a b, (sortRanges rs)[i]? = some a → (sortRanges rs)[i + 1]? = some b →
      add64 ((buildRemap (sortRanges rs)).1.get a) a.len =
        (buildRemap (sortRanges rs)).1.get b) ∧
    (∀ a, (sortRanges rs).getLast? = some a →
      add64 ((buildRemap (sortRanges rs)).1.get a) a.len = (buildRemap (sortRanges rs)).2) ∧
    (((sortRanges rs).map tileKey.len).sum < U64 →
      (∀ i a b, (sortRanges rs)[i]? = some a → (sortRanges rs)[i + 1]? = some b →
        (buildRemap (sortRanges rs)).1.get a + a.len =
          (buildRemap (sortRanges rs)).1.get b) ∧
      (∀ a, (sortRanges rs).getLast? = some a →
        (buildRemap (sortRanges rs)).1.get a + a.len = (buildRemap (sortRanges rs)).2) ∧
      (buildRemap (sortRanges rs)).2 = ((sortRanges rs).map tileKey.len).sum) := by
  have hs := sortRanges_nodup hnd
  generalize sortRanges rs = s at hs ⊢
  have hstep : ∀ i a b, s[i]? = some a → s[i + 1]? = some b →
      add64 ((buildRemap s).1.get a) a.len = (buildRemap s).1.get b := by
    intro i a b ha hb
    rw [buildRemap_get s hs i a ha, buildRemap_get s hs (i + 1) b hb,
      plannedOffset_succ s i a ha]
  have hlast : ∀ a, s.getLast? = some a →
      add64 ((buildRemap s).1.get a) a.len = (buildRemap s).2 := by
    intro a ha
    rw [List.getLast?_eq_getElem?] at ha
    have hpos : 0 < s.length := by
      rcases Nat.eq_zero_or_pos s.length with h0 | h0
      · rw [List.length_eq_zero] at h0; subst h0; simp at ha
      · exact h0
    rw [buildRemap_get s hs _ a ha, ← plannedOffset_succ s _ a ha, buildRemap_total,
      ← plannedOffset_length]
    congr 1; omega
  refine ⟨?_, hstep, hlast, ?_⟩
  · intro a ha
    rw [buildRemap_get s hs 0 a ha, plannedOffset_zero]
  · intro hsum
    have hex : ∀ (i : Nat) (a : tileKey), s[i]? = some a →
        add64 ((buildRemap s).1.get a) a.len = (buildRemap s).1.get a + a.len := by
      intro i a ha
      rw [buildRemap_get s hs i a ha, ← plannedOffset_succ s i a ha,
        plannedOffset_exact s _ hsum, plannedOffset_exact s _ hsum, List.take_succ, ha]
      simp
    refine ⟨?_, ?_, ?_⟩
    · intro i a b ha hb
      rw [← hex i a ha]; exact hstep i a b ha hb
    · intro a ha
      rw [← hlast a ha]
      rw [List.getLast?_eq_getElem?] at ha
      exact (hex (s.length - 1) a ha).symm
    · rw [buildRemap_total]; exact Nat.mod_eq_of_lt hsum

/-- The lengths of the distinct ranges of a wide stream add up to `n * len`,
and `tileBytes` is that product reduced modulo `2 ^ 64`. -/
theorem wideStream_total (hdr : HeaderV3) (c n len : Nat) (hc : c < U64)
    (hn : n ≤ c) (hlen : len ≠ 0) (hfit : n + len ≤ hdr.TileDataLength)
    (hT : hdr.TileDataLength < U64) :
    ((passOne hdr c (wideStream n len)).ranges.map tileKey.len).sum = n * len ∧
      tileBytesOf hdr c (wideStream n len) = (n * len) % U64 := by
  have hs := (wideStream_sortedRanges hdr c n len hc hn hlen hfit hT).2
  have h1 : ((passOne hdr c (wideStream n len)).ranges.map tileKey.len).sum = n * len := by
    rw [← sum_len_sortRanges]
    have h2 : sortRanges (passOne hdr c (wideStream n len)).ranges =
        (List.range n).map (fun i => { off := i, len := len }) := hs
    rw [h2, List.map_map]
    have h : (tileKey.len ∘ fun i => ({ off := i, len := len } : tileKey)) = fun _ => len := rfl
    rw [h, List.map_const', List.sum_replicate, List.length_range]
    rfl
  exact ⟨h1, by rw [tileBytesOf_eq, h1]⟩

/-- A run stream below the cutoff whose runs end at the cutoff or before is
retained as it is. -/
theorem runStream_passOne (hdr : HeaderV3) (c n run : Nat) (hc : c < U64)
    (hrun : 0 < run) (hr : run < U32) (hfit : n + run ≤ c + 1)
    (hT : 1 ≤ hdr.TileDataLength) :
    (passOne hdr c (runStream n run)).opErr = none ∧
      (passOne hdr c (runStream n run)).entries = runStream n run := by
  have hmem : ∀ e ∈ runStream n run,
      e.TileID < n ∧ e.Offset = 0 ∧ e.Length = 1 ∧ e.RunLength = run := by
    intro e he
    unfold runStream at he
    rw [List.mem_map] at he
    obtain ⟨i, hi, hie⟩ := he
    rw [List.mem_range] at hi
    rw [← hie]
    exact ⟨hi, rfl, rfl, rfl⟩
  have hsk : ∀ e ∈ runStream n run, ¬ skipped c e := by
    intro e he
    have := hmem e he
    unfold skipped
    omega
  have hres : ∀ e ∈ runStream n run, resolveOffset hdr e = some e.Offset := by
    intro e he
    obtain ⟨_, h0, h1, _⟩ := hmem e he
    apply resolveOffset_rel
    rw [h0, h1]
    have h2 : add64 0 1 = 1 := by decide
    rw [h2]
    exact hT
  have h := passOne_of_resolve hdr c (runStream n run) hc
    (fun e he _ => by rw [hres e he]; simp)
  refine ⟨h.1, ?_⟩
  rw [h.2]
  have hnorm : ∀ e ∈ runStream n run, normalize hdr c e = some e := by
    intro e he
    obtain ⟨hi, _, _, hrl⟩ := hmem e he
    have hlt : e.TileID < c := by omega
    have hnw : e.TileID + max e.RunLength 1 < U64 := by rw [hrl]; omega
    have h3 : toU32 (runLen c e) = e.RunLength := by
      rw [runLen_nowrap hc hlt hnw, hrl]
      have h4 : min (max run 1) (c - e.TileID) = run := by omega
      rw [h4]
      exact Nat.mod_eq_of_lt hr
    unfold normalize
    rw [if_neg (hsk e he), hres e he]
    show some (keptEntry c e e.Offset) = some e
    unfold keptEntry
    rw [h3]
  rw [List.filterMap_congr hnorm, List.filterMap_some]

/-- The run lengths of a run stream add up to `n * run`, and the addressed
count of pass one is that product reduced modulo `2 ^ 64`. -/
theorem runStream_addressed (hdr : HeaderV3) (c n run : Nat) (hc : c < U64)
    (hrun : 0 < run) (hr : run < U32) (hfit : n + run ≤ c + 1)
    (hT : 1 ≤ hdr.TileDataLength) :
    ((runStream n run).map EntryV3.RunLength).sum = n * run ∧
      (passOne hdr c (runStream n run)).addressed = (n * run) % U64 := by
  have h1 : ((runStream n run).map EntryV3.RunLength).sum = n * run := by
    unfold runStream
    rw [List.map_map]
    have h : (EntryV3.RunLength ∘ fun i =>
        ({ TileID := i, Offset := 0, Length := 1, RunLength := run } : EntryV3)) =
        fun _ => run := rfl
    rw [h, List.map_const', List.sum_replicate, List.length_range]
    rfl
  refine ⟨h1, ?_⟩
  rw [passOne_addressed, (runStream_passOne hdr c n run hc hrun hr hfit hT).2, h1]

/-- The counts of the header `main` returns after a pass without error, with
the addressed count in the `uint64` arithmetic of line 132. -/
theorem trim_counts (hdr : HeaderV3) (maxTileID : Nat) (es : List EntryV3)
    (hok : (passOne hdr maxTileID es).opErr = none)
    (src : List Nat) (maxZoom headerLen metaLen : Nat) (rootLen leafLen : List EntryV3 → Nat) :
    ∃ res, trim src hdr maxZoom maxTileID es headerLen metaLen rootLen leafLen =
        Except.ok res ∧
      res.entries.map EntryV3.RunLength =
        (passOne hdr maxTileID es).entries.map EntryV3.RunLength ∧
      res.outHdr.AddressedTilesCount = (passOne hdr maxTileID es).addressed ∧
      res.outHdr.TileEntriesCount = res.entries.length ∧
      res.entries.length = (passOne hdr maxTileID es).entries.length ∧
      res.outHdr.TileContentsCount = res.ranges.length ∧
      res.ranges.length = (passOne hdr maxTileID es).ranges.length ∧
      res.tileBytes = tileBytesOf hdr maxTileID es ∧
      res.outHdr.TileDataLength = tileBytesOf hdr maxTileID es :=
  ⟨_, by unfold trim; rw [hok], rewriteEntries_runLength _ _, rfl, rfl,
    rewriteEntries_length _ _, rfl, (sortRanges_perm _).length_eq, rfl, rfl⟩


/-! ## Claims -/

/-- C1: let the source tile-data region be the `TileDataLength` bytes of the
input file from `TileDataOffset` on, and the output region what the copy loop
writes.  For every entry stream on which pass one succeeds without 64-bit
wrap-around (of `TileDataOffset + TileDataLength`, of `Offset + Length` for the
non-skipped entries, and of the total `tileBytes`): the output region is the
concatenation, over the sorted ranges, of the source slices `[off, off + len)`,
its length is `tileBytes`, and for every retained entry, with normalized offset
`o`, length `n` and rewritten offset `o'`, the `n` bytes of the output region
from `o'` are the `n` bytes of the source region from `o`; `main` returns
these rewritten entries and this output region, whose length is the output
header's `TileDataLength`. -/
theorem content_preserved (src : List Nat) (hdr : HeaderV3) (maxTileID : Nat)
    (es : List EntryV3)
    (hok : (passOne hdr maxTileID es).opErr = none)
    (hreg : hdr.TileDataOffset + hdr.TileDataLength < U64)
    (hfile : hdr.TileDataOffset + hdr.TileDataLength ≤ src.length)
    (hnw : ∀ e ∈ es, ¬ skipped maxTileID e → e.Offset + e.Length < U64)
    (hsum : ((sortedRanges hdr maxTileID es).map tileKey.len).sum < U64) :
    (tileRegion src hdr).length = hdr.TileDataLength ∧
    copyLoop src hdr (sortedRanges hdr maxTileID es) =
      (sortedRanges hdr maxTileID es).flatMap
        (fun r => ((tileRegion src hdr).drop r.off).take r.len) ∧
    (copyLoop src hdr (sortedRanges hdr maxTileID es)).length = tileBytesOf hdr maxTileID es ∧
    (∀ (j : Nat) (e : EntryV3), (passOne hdr maxTileID es).entries[j]? = some e →
      ∃ e', (rewrittenEntries hdr maxTileID es)[j]? = some e' ∧
        e'.TileID = e.TileID ∧ e'.Length = e.Length ∧ e'.RunLength = e.RunLength ∧
        ((copyLoop src hdr (sortedRanges hdr maxTileID es)).drop e'.Offset).take e.Length =
          ((tileRegion src hdr).drop e.Offset).take e.Length ∧
        (((tileRegion src hdr).drop e.Offset).take e.Length).length = e.Length) ∧
    (∀ (maxZoom headerLen metaLen : Nat) (rootLen leafLen : List EntryV3 → Nat),
      ∃ res, trim src hdr maxZoom maxTileID es headerLen metaLen rootLen leafLen =
          Except.ok res ∧
        res.entries = rewrittenEntries hdr maxTileID es ∧
        res.tileData = copyLoop src hdr (sortedRanges hdr maxTileID es) ∧
        res.outHdr.TileDataLength = res.tileData.length) := by
  have hb := sortedRanges_bound hdr maxTileID es hreg hnw
  have hchunk : ∀ k ∈ sortedRanges hdr maxTileID es,
      (copyRange src (add64 hdr.TileDataOffset k.off) k.len).length = k.len := by
    intro k hk
    rw [(copyRange_region src hdr k hreg hfile (hb k hk)).1]
    exact (copyRange_region src hdr k hreg hfile (hb k hk)).2
  have hlen : (copyLoop src hdr (sortedRanges hdr maxTileID es)).length =
      tileBytesOf hdr maxTileID es := by
    unfold copyLoop tileBytesOf
    rw [flatMap_length _ tileKey.len _ hchunk, buildRemap_total, Nat.mod_eq_of_lt hsum]
  refine ⟨tileRegion_length src hdr hfile, ?_, hlen, ?_, ?_⟩
  · unfold copyLoop
    apply List.flatMap_congr
    intro k hk
    exact (copyRange_region src hdr k hreg hfile (hb k hk)).1
  · intro j e hj
    have he : e ∈ (passOne hdr maxTileID es).entries := List.getElem?_mem hj
    obtain ⟨i, hi, hv⟩ := remapOf_keyOf hdr maxTileID es e he
    have hk : keyOf e ∈ sortedRanges hdr maxTileID es := List.getElem?_mem hi
    have hget : (remapOf hdr maxTileID es).get (keyOf e) =
        (((sortedRanges hdr maxTileID es).take i).map tileKey.len).sum := by
      unfold Remap.get
      rw [hv, ← plannedOffset_exact _ i hsum]; rfl
    refine ⟨{ e with Offset := (remapOf hdr maxTileID es).get (keyOf e) }, ?_, rfl, rfl, rfl,
      ?_, ?_⟩
    · unfold rewrittenEntries rewriteEntries
      rw [List.getElem?_map, hj, Option.map_some']
    · show ((copyLoop src hdr (sortedRanges hdr maxTileID es)).drop
          ((remapOf hdr maxTileID es).get (keyOf e))).take (keyOf e).len = _
      rw [hget]
      unfold copyLoop
      rw [flatMap_drop_take _ tileKey.len _ hchunk i (keyOf e) hi]
      exact (copyRange_region src hdr (keyOf e) hreg hfile (hb _ hk)).1
    · exact (copyRange_region src hdr (keyOf e) hreg hfile (hb _ hk)).2
  · intro maxZoom headerLen metaLen rootLen leafLen
    obtain ⟨res, h1, h2, _, _, _, h3, h4⟩ :=
      trim_of_ok src hdr maxZoom maxTileID es headerLen metaLen rootLen leafLen hok
    exact ⟨res, h1, h2, h4, by rw [h3, h4, hlen]⟩

/-- C1, witness: a file of 20 bytes whose tile-data region is bytes 10..19;
three retained entries, the first and the last sharing the range `(4, 3)`, the
second given by an absolute offset.  The output region is bytes 12, 13, 14 of
the file followed by bytes 14, 15, 16. -/
theorem content_preserved_witness :
    ((passOne (exHdr 10 10) 8 [⟨1, 4, 3, 1⟩, ⟨2, 12, 3, 1⟩, ⟨3, 4, 3, 2⟩]).opErr = none ∧
      (exHdr 10 10).TileDataOffset + (exHdr 10 10).TileDataLength < U64 ∧
      (exHdr 10 10).TileDataOffset + (exHdr 10 10).TileDataLength ≤ (List.range 20).length ∧
      (∀ e ∈ [(⟨1, 4, 3, 1⟩ : EntryV3), ⟨2, 12, 3, 1⟩, ⟨3, 4, 3, 2⟩],
        ¬ skipped 8 e → e.Offset + e.Length < U64) ∧
      ((sortedRanges (exHdr 10 10) 8
        [⟨1, 4, 3, 1⟩, ⟨2, 12, 3, 1⟩, ⟨3, 4, 3, 2⟩]).map tileKey.len).sum < U64) ∧
    (passOne (exHdr 10 10) 8 [⟨1, 4, 3, 1⟩, ⟨2, 12, 3, 1⟩, ⟨3, 4, 3, 2⟩]).entries =
      [⟨1, 4, 3, 1⟩, ⟨2, 2, 3, 1⟩, ⟨3, 4, 3, 2⟩] ∧
    rewrittenEntries (exHdr 10 10) 8 [⟨1, 4, 3, 1⟩, ⟨2, 12, 3, 1⟩, ⟨3, 4, 3, 2⟩] =
      [⟨1, 3, 3, 1⟩, ⟨2, 0, 3, 1⟩, ⟨3, 3, 3, 2⟩] ∧
    copyLoop (List.range 20) (exHdr 10 10)
        (sortedRanges (exHdr 10 10) 8 [⟨1, 4, 3, 1⟩, ⟨2, 12, 3, 1⟩, ⟨3, 4, 3, 2⟩]) =
      [12, 13, 14, 14, 15, 16] ∧
    (∀ (j : Nat) (e : EntryV3),
      (passOne (exHdr 10 10) 8 [⟨1, 4, 3, 1⟩, ⟨2, 12, 3, 1⟩, ⟨3, 4, 3, 2⟩]).entries[j]? =
          some e →
      ∃ e', (rewrittenEntries (exHdr 10 10) 8
            [⟨1, 4, 3, 1⟩, ⟨2, 12, 3, 1⟩, ⟨3, 4, 3, 2⟩])[j]? = some e' ∧
        e'.TileID = e.TileID ∧ e'.Length = e.Length ∧ e'.RunLength = e.RunLength ∧
        ((copyLoop (List.range 20) (exHdr 10 10)
            (sortedRanges (exHdr 10 10) 8
              [⟨1, 4, 3, 1⟩, ⟨2, 12, 3, 1⟩, ⟨3, 4, 3, 2⟩])).drop e'.Offset).take e.Length =
          ((tileRegion (List.range 20) (exHdr 10 10)).drop e.Offset).take e.Length ∧
        (((tileRegion (List.range 20) (exHdr 10 10)).drop e.Offset).take e.Length).length =
          e.Length) :=
  ⟨⟨by decide, by decide, by decide, by decide, by decide⟩, by decide, by decide, by decide,
    (content_preserved (List.range 20) (exHdr 10 10) 8
      [⟨1, 4, 3, 1⟩, ⟨2, 12, 3, 1⟩, ⟨3, 4, 3, 2⟩]
      (by decide) (by decide) (by decide) (by decide) (by decide)).2.2.2.1⟩
/-- C2 (amended): for every duplicate-free list of ranges whose lengths add up
to less than `2 ^ 64`, with `s` the sorted list and `remap`, `tileBytes` the
results of the loop of lines 148-151 on `s`: the first range of `s` is mapped
to 0; for consecutive ranges `a`, `b` of `s`, `remap[a] + a.len = remap[b]`;
for the last range `a`, `remap[a] + a.len = tileBytes`; `tileBytes` is the
value stored in the output header's `TileDataLength`; and `tileBytes` is the
sum of the lengths.  All sums are exact. -/
theorem compaction_gapless (rs : List tileKey) (hnd : rs.Nodup)
    (hsum : (rs.map tileKey.len).sum < U64) :
    (∀ a, (sortRanges rs)[0]? = some a → (buildRemap (sortRanges rs)).1.get a = 0) ∧
    (∀ i a b, (sortRanges rs)[i]? = some a → (sortRanges rs)[i + 1]? = some b →
      (buildRemap (sortRanges rs)).1.get a + a.len = (buildRemap (sortRanges rs)).1.get b) ∧
    (∀ a, (sortRanges rs).getLast? = some a →
      (buildRemap (sortRanges rs)).1.get a + a.len = (buildRemap (sortRanges rs)).2) ∧
    (∀ (hdr : HeaderV3) (maxZoom addressed nEntries nRanges headerLen rootLen metaLen
        leafLen : Nat),
      (outHeader hdr maxZoom addressed nEntries nRanges headerLen rootLen metaLen leafLen
        (buildRemap (sortRanges rs)).2).TileDataLength = (buildRemap (sortRanges rs)).2) ∧
    (buildRemap (sortRanges rs)).2 = (rs.map tileKey.len).sum := by
  have h := buildRemap_gapless rs hnd
  have hs : ((sortRanges rs).map tileKey.len).sum < U64 := by
    rw [sum_len_sortRanges]; exact hsum
  obtain ⟨h1, h2, h3⟩ := h.2.2.2 hs
  exact ⟨h.1, h1, h2, fun _ _ _ _ _ _ _ _ _ => rfl, by rw [h3, sum_len_sortRanges]⟩

/-- C2, witness: three distinct ranges, two of them starting at the same
offset, receive the offsets 0, 30 and 130, and `tileBytes = 140`. -/
theorem compaction_gapless_witness :
    (([⟨50, 10⟩, ⟨0, 100⟩, ⟨0, 30⟩] : List tileKey).Nodup ∧
      (([⟨50, 10⟩, ⟨0, 100⟩, ⟨0, 30⟩] : List tileKey).map tileKey.len).sum < U64) ∧
    sortRanges [⟨50, 10⟩, ⟨0, 100⟩, ⟨0, 30⟩] = [⟨0, 30⟩, ⟨0, 100⟩, ⟨50, 10⟩] ∧
    (buildRemap (sortRanges [⟨50, 10⟩, ⟨0, 100⟩, ⟨0, 30⟩])).1.get ⟨0, 30⟩ = 0 ∧
    (buildRemap (sortRanges [⟨50, 10⟩, ⟨0, 100⟩, ⟨0, 30⟩])).1.get ⟨0, 100⟩ = 30 ∧
    (buildRemap (sortRanges [⟨50, 10⟩, ⟨0, 100⟩, ⟨0, 30⟩])).1.get ⟨50, 10⟩ = 130 ∧
    (buildRemap (sortRanges [⟨50, 10⟩, ⟨0, 100⟩, ⟨0, 30⟩])).2 = 140 ∧
    (∀ i a b, (sortRanges [⟨50, 10⟩, ⟨0, 100⟩, ⟨0, 30⟩])[i]? = some a →
      (sortRanges [⟨50, 10⟩, ⟨0, 100⟩, ⟨0, 30⟩])[i + 1]? = some b →
      (buildRemap (sortRanges [⟨50, 10⟩, ⟨0, 100⟩, ⟨0, 30⟩])).1.get a + a.len =
        (buildRemap (sortRanges [⟨50, 10⟩, ⟨0, 100⟩, ⟨0, 30⟩])).1.get b) :=
  ⟨⟨by decide, by decide⟩, by decide, by decide, by decide, by decide, by decide,
    (compaction_gapless [⟨50, 10⟩, ⟨0, 100⟩, ⟨0, 30⟩] (by decide) (by decide)).2.1⟩

/-- C2, counterexample: the distinct ranges of a stream of `2 ^ 32 + 3`
well-formed entries, entry `i` being tile `i` with offset `i` and length
`2 ^ 32 - 1`, in a tile-data region of `2 ^ 34` bytes with cutoff 5726623061
(the first tile of zoom 17).  The pass succeeds and its ranges are distinct.
In sorted order the ranges at the consecutive positions `2 ^ 32 + 1` and
`2 ^ 32 + 2` receive the offsets `2 ^ 64 - 1` and `2 ^ 32 - 2`: the running
total of line 150 has wrapped, so the first offset plus the length of its
range is not the second offset. -/
theorem compaction_gapless_counterexample :
    (passOne (exHdr 5000 (2 ^ 34)) 5726623061 (wideStream (2 ^ 32 + 3) (2 ^ 32 - 1))).opErr =
      none ∧
    (passOne (exHdr 5000 (2 ^ 34)) 5726623061
      (wideStream (2 ^ 32 + 3) (2 ^ 32 - 1))).ranges.Nodup ∧
    (sortedRanges (exHdr 5000 (2 ^ 34)) 5726623061
        (wideStream (2 ^ 32 + 3) (2 ^ 32 - 1)))[2 ^ 32 + 1]? =
      some { off := 2 ^ 32 + 1, len := 2 ^ 32 - 1 } ∧
    (sortedRanges (exHdr 5000 (2 ^ 34)) 5726623061
        (wideStream (2 ^ 32 + 3) (2 ^ 32 - 1)))[2 ^ 32 + 2]? =
      some { off := 2 ^ 32 + 2, len := 2 ^ 32 - 1 } ∧
    (remapOf (exHdr 5000 (2 ^ 34)) 5726623061 (wideStream (2 ^ 32 + 3) (2 ^ 32 - 1))).get
        { off := 2 ^ 32 + 1, len := 2 ^ 32 - 1 } + (2 ^ 32 - 1) = 2 ^ 64 + 2 ^ 32 - 2 ∧
    (remapOf (exHdr 5000 (2 ^ 34)) 5726623061 (wideStream (2 ^ 32 + 3) (2 ^ 32 - 1))).get
        { off := 2 ^ 32 + 2, len := 2 ^ 32 - 1 } = 2 ^ 32 - 2 ∧
    ¬ ((remapOf (exHdr 5000 (2 ^ 34)) 5726623061 (wideStream (2 ^ 32 + 3) (2 ^ 32 - 1))).get
          { off := 2 ^ 32 + 1, len := 2 ^ 32 - 1 } + (2 ^ 32 - 1) =
        (remapOf (exHdr 5000 (2 ^ 34)) 5726623061 (wideStream (2 ^ 32 + 3) (2 ^ 32 - 1))).get
          { off := 2 ^ 32 + 2, len := 2 ^ 32 - 1 }) := by
  have hc : (5726623061 : Nat) < U64 := by decide
  have hn : 2 ^ 32 + 3 ≤ 5726623061 := by decide
  have hlen : 2 ^ 32 - 1 ≠ 0 := by decide
  have hfit : 2 ^ 32 + 3 + (2 ^ 32 - 1) ≤ (exHdr 5000 (2 ^ 34)).TileDataLength := by decide
  have hT : (exHdr 5000 (2 ^ 34)).TileDataLength < U64 := by decide
  have h1 := wideStream_remap (exHdr 5000 (2 ^ 34)) 5726623061 (2 ^ 32 + 3) (2 ^ 32 - 1)
    (2 ^ 32 + 1) hc hn hlen hfit hT (by decide)
  have h2 := wideStream_remap (exHdr 5000 (2 ^ 34)) 5726623061 (2 ^ 32 + 3) (2 ^ 32 - 1)
    (2 ^ 32 + 2) hc hn hlen hfit hT (by decide)
  have e1 : ((2 ^ 32 + 1) * (2 ^ 32 - 1)) % U64 = 2 ^ 64 - 1 := by decide
  have e2 : ((2 ^ 32 + 2) * (2 ^ 32 - 1)) % U64 = 2 ^ 32 - 2 := by decide
  refine ⟨(wideStream_sortedRanges (exHdr 5000 (2 ^ 34)) 5726623061 (2 ^ 32 + 3)
    (2 ^ 32 - 1) hc hn hlen hfit hT).1, (dedupInv_passOne _ _ _).1, h1.1, h2.1, ?_,
    h2.2.trans e2, ?_⟩
  · rw [h1.2.trans e1]
    decide
  · rw [h1.2.trans e1, h2.2.trans e2]
    decide

/-- C3: for every cutoff `main` can compute and every stream of well-formed
entries, every retained entry satisfies `TileID + RunLength ≤ maxTileID` as
exact integers; and an entry with `TileID ≥ maxTileID` leaves the whole state
(retained entries, distinct ranges, addressed count) as it was, so deleting
such entries from the stream does not change the result of the pass.  The
cutoff of line 82 is `ZxyToID(maxZoom+1, 0, 0)` with `maxZoom` in `0..31`
(lines 41-44), the first tile id of a zoom of at most 32, so it is at most
`(4 ^ 32 - 1) / 3`. -/
theorem cutoff_correct (hdr : HeaderV3) (maxTileID : Nat) (es : List EntryV3)
    (hcut : maxTileID ≤ (4 ^ 32 - 1) / 3) (hwf : ∀ e ∈ es, e.wf) :
    (∀ e' ∈ (passOne hdr maxTileID es).entries, e'.TileID + e'.RunLength ≤ maxTileID) ∧
    (∀ (st : PassState) (e : EntryV3), maxTileID ≤ e.TileID → op hdr maxTileID st e = st) ∧
    passOne hdr maxTileID (es.filter (fun e => decide (e.TileID < maxTileID))) =
      passOne hdr maxTileID es := by
  have hb : (4 ^ 32 - 1) / 3 + U32 ≤ U64 + 1 := by decide
  have hmax : maxTileID < U64 := by unfold U64 U32 at *; omega
  refine ⟨?_, ?_, ?_⟩
  · apply passOne_entries_forall
    intro e he hsk relOff _
    have hlt : e.TileID < maxTileID := by
      unfold skipped at hsk; omega
    have hr : e.RunLength < U32 := (hwf e he).2.2.2
    have h1 := runLen_nowrap hmax hlt (nowrap_of_cutoff (by omega) hr hlt)
    have h2 : toU32 (runLen maxTileID e) ≤ runLen maxTileID e := Nat.mod_le _ _
    show e.TileID + toU32 (runLen maxTileID e) ≤ maxTileID
    omega
  · intro st e h
    exact op_of_skip hdr maxTileID st e (Or.inl h)
  · apply passOne_filter
    intro e he
    left
    simpa using he

/-- C3, witness: cutoff 21 (maximum zoom 1) with the entries `start=15, run=10`
(clamped to run 6) and `start=30` (dropped). -/
theorem cutoff_correct_witness :
    ((21 : Nat) ≤ (4 ^ 32 - 1) / 3 ∧
      ∀ e ∈ [(⟨15, 0, 100, 10⟩ : EntryV3), ⟨30, 0, 100, 1⟩], e.wf) ∧
    (passOne (exHdr 5000 1000) 21 [⟨15, 0, 100, 10⟩, ⟨30, 0, 100, 1⟩]).entries =
      [⟨15, 0, 100, 6⟩] ∧
    ((∀ e' ∈ (passOne (exHdr 5000 1000) 21 [⟨15, 0, 100, 10⟩, ⟨30, 0, 100, 1⟩]).entries,
        e'.TileID + e'.RunLength ≤ 21) ∧
      (∀ (st : PassState) (e : EntryV3), 21 ≤ e.TileID → op (exHdr 5000 1000) 21 st e = st) ∧
      passOne (exHdr 5000 1000) 21
          (([⟨15, 0, 100, 10⟩, ⟨30, 0, 100, 1⟩] : List EntryV3).filter
            (fun e => decide (e.TileID < 21))) =
        passOne (exHdr 5000 1000) 21 [⟨15, 0, 100, 10⟩, ⟨30, 0, 100, 1⟩]) :=
  ⟨⟨by decide, by decide⟩, by decide,
    cutoff_correct (exHdr 5000 1000) 21 [⟨15, 0, 100, 10⟩, ⟨30, 0, 100, 1⟩]
      (by decide) (by decide)⟩

/-- C4: for every cutoff `c` that `main` can compute (at most
`(4 ^ 32 - 1) / 3`, the first tile id of zoom 32), an entry with `TileID = s < c`, a
32-bit `RunLength = r`, nonzero `Length` and a range on which `op` raises no
error is appended with `TileID` and `Length` unchanged and
`RunLength = min (max r 1) (c - s)`; that is at least 1, it is `uint32(rl)`
where the conversion does not truncate, `start=5, run_length=10` with cutoff 8
gives run length 3, and a run length of 0 is handled exactly as a run length
of 1. -/
theorem run_length_normalized (hdr : HeaderV3) (c : Nat) (st : PassState) (e : EntryV3)
    (hc : c ≤ (4 ^ 32 - 1) / 3) (hr : e.RunLength < U32) (hs : e.TileID < c)
    (hlen : e.Length ≠ 0) (hok : (op hdr c st e).opErr = none) :
    ∃ e', (op hdr c st e).entries = st.entries ++ [e'] ∧
      e'.TileID = e.TileID ∧ e'.Length = e.Length ∧
      e'.RunLength = min (max e.RunLength 1) (c - e.TileID) ∧
      1 ≤ e'.RunLength ∧
      e'.RunLength = toU32 (runLen c e) ∧ toU32 (runLen c e) = runLen c e ∧
      (e.TileID = 5 → e.RunLength = 10 → c = 8 → e'.RunLength = 3) ∧
      op hdr c st { e with RunLength := 0 } = op hdr c st { e with RunLength := 1 } := by
  have hb : (4 ^ 32 - 1) / 3 + U32 ≤ U64 + 1 := by decide
  have hc64 : c < U64 := by unfold U64 U32 at *; omega
  have hnw : e.TileID + max e.RunLength 1 < U64 := nowrap_of_cutoff (by omega) hr hs
  have hsk : ¬ skipped c e := by unfold skipped; omega
  have hpos := runLen_pos hc64 hs
  have hlt := runLen_lt_U32 hc64 hs hr
  have htr : toU32 (runLen c e) = runLen c e := Nat.mod_eq_of_lt hlt
  rcases op_cases hdr c st e with h1 | h1 | h1
  · -- an unchanged state is impossible: the entry is kept or the error is set
    exfalso
    by_cases h0 : st.opErr = none
    · cases hres : resolveOffset hdr e with
      | none =>
        rw [op_of_fail hdr c st e h0 hsk (by omega) hres] at hok
        simp at hok
      | some relOff =>
        have h2 := op_of_keep hdr c st e relOff h0 hsk (by omega) hres
        rw [h1] at h2
        have h3 := congrArg (fun s => s.entries.length) h2
        simp [keptState] at h3
    · rw [h1] at hok; exact h0 hok
  · exact absurd hok h1.2.2.2.1
  · obtain ⟨_, _, _, relOff, _, hop⟩ := h1
    refine ⟨keptEntry c e relOff, by rw [hop]; rfl, rfl, rfl, ?_, ?_, rfl, htr, ?_, ?_⟩
    · show toU32 (runLen c e) = _
      rw [htr, runLen_nowrap hc64 hs hnw]
    · show 1 ≤ toU32 (runLen c e)
      omega
    · intro h5 h10 h8
      show toU32 (runLen c e) = 3
      rw [htr, runLen_nowrap hc64 hs hnw, h5, h10, h8]
      rfl
    · rfl

/-- C4, witness: the scenario `start=5, run_length=10`, cutoff 8. -/
theorem run_length_normalized_witness :
    ((8 : Nat) ≤ (4 ^ 32 - 1) / 3 ∧ 10 < U32 ∧ 5 < 8 ∧ (100 : Nat) ≠ 0 ∧
      (op (exHdr 5000 1000) 8 PassState.init ⟨5, 0, 100, 10⟩).opErr = none) ∧
    (op (exHdr 5000 1000) 8 PassState.init ⟨5, 0, 100, 10⟩).entries = [⟨5, 0, 100, 3⟩] ∧
    ∃ e', (op (exHdr 5000 1000) 8 PassState.init ⟨5, 0, 100, 10⟩).entries =
        PassState.init.entries ++ [e'] ∧
      e'.TileID = 5 ∧ e'.Length = 100 ∧
      e'.RunLength = min (max 10 1) (8 - 5) ∧
      1 ≤ e'.RunLength ∧
      e'.RunLength = toU32 (runLen 8 ⟨5, 0, 100, 10⟩) ∧
      toU32 (runLen 8 ⟨5, 0, 100, 10⟩) = runLen 8 ⟨5, 0, 100, 10⟩ ∧
      ((5 : Nat) = 5 → (10 : Nat) = 10 → (8 : Nat) = 8 → e'.RunLength = 3) ∧
      op (exHdr 5000 1000) 8 PassState.init { (⟨5, 0, 100, 10⟩ : EntryV3) with RunLength := 0 } =
        op (exHdr 5000 1000) 8 PassState.init
          { (⟨5, 0, 100, 10⟩ : EntryV3) with RunLength := 1 } :=
  ⟨⟨by decide, by decide, by decide, by decide, by decide⟩, by decide,
    run_length_normalized (exHdr 5000 1000) 8 PassState.init ⟨5, 0, 100, 10⟩
      (by decide) (by decide) (by decide) (by decide) (by decide)⟩


/-- C5, the code at a failing input: with cutoff 5 (maximum zoom 1) and a
tile-data region of 1000 bytes at file offset 5000, the well-formed entry with
`Offset = 2 ^ 64 - 2`, `Length = 5` passes the test of line 114, because
`relOff + uint64(e.Length)` wraps to 3; it is retained with its offset
unchanged although, as exact integers, offset plus length exceeds
`TileDataLength` and the range fits neither interpretation; the copy loop then
reads its 5 bytes at file offset 4998, before the tile-data region. -/
theorem bounds_postcondition_failing_input :
    EntryV3.wf ⟨2, 2 ^ 64 - 2, 5, 1⟩ ∧ (exHdr 5000 1000).wf ∧
    (passOne (exHdr 5000 1000) 5 [⟨2, 2 ^ 64 - 2, 5, 1⟩]).opErr = none ∧
    (passOne (exHdr 5000 1000) 5 [⟨2, 2 ^ 64 - 2, 5, 1⟩]).entries =
      [⟨2, 2 ^ 64 - 2, 5, 1⟩] ∧
    ¬ ((2 ^ 64 - 2) + 5 ≤ (exHdr 5000 1000).TileDataLength) ∧
    ¬ inBounds (exHdr 5000 1000) ⟨2, 2 ^ 64 - 2, 5, 1⟩ ∧
    ∀ src : List Nat,
      copyLoop src (exHdr 5000 1000)
          (sortRanges (passOne (exHdr 5000 1000) 5 [⟨2, 2 ^ 64 - 2, 5, 1⟩]).ranges) =
        copyRange src 4998 5 := by
  refine ⟨by decide, by decide, by decide, by decide, by decide, by decide, ?_⟩
  intro src
  have hr : sortRanges (passOne (exHdr 5000 1000) 5 [⟨2, 2 ^ 64 - 2, 5, 1⟩]).ranges =
      [⟨2 ^ 64 - 2, 5⟩] := by decide
  have ha : add64 (exHdr 5000 1000).TileDataOffset (2 ^ 64 - 2) = 4998 := by decide
  rw [hr]
  simp only [copyLoop, List.flatMap_cons, List.flatMap_nil, List.append_nil, ha]

/-- C6 (amended): for a non-skipped entry met in an error-free state, with
all sums read as exact integers: an entry valid under the relative
interpretation (`offset + length ≤ TileDataLength`) is retained with its
original offset; and, when the tile-data region ends below `2 ^ 64`
(`TileDataOffset + TileDataLength < 2 ^ 64`), an entry not valid under the
relative interpretation but valid under the absolute one is retained with
offset `offset - TileDataOffset`. -/
theorem offset_resolution (hdr : HeaderV3) (c : Nat) (st : PassState) (e : EntryV3)
    (hc : c < U64) (hoff : e.Offset < U64) (hl : hdr.TileDataLength < U64)
    (h0 : st.opErr = none) (hsk : ¬ skipped c e) :
    (hdr.TileDataOffset + hdr.TileDataLength < U64 →
      hdr.TileDataLength < e.Offset + e.Length → hdr.TileDataOffset ≤ e.Offset →
      e.Offset + e.Length ≤ hdr.TileDataOffset + hdr.TileDataLength →
      ∃ e', (op hdr c st e).entries = st.entries ++ [e'] ∧
        e'.Offset = e.Offset - hdr.TileDataOffset) ∧
    (e.Offset + e.Length ≤ hdr.TileDataLength →
      ∃ e', (op hdr c st e).entries = st.entries ++ [e'] ∧ e'.Offset = e.Offset) := by
  constructor
  · intro hreg h1 h2 h3
    have hnw : e.Offset + e.Length < U64 := by omega
    have hres := @resolveOffset_abs hdr e
      (by rw [add64_of_lt hnw]; exact h1) h2
      (by rw [add64_of_lt hnw, add64_of_lt hreg]; exact h3)
    refine ⟨keptEntry c e (sub64 e.Offset hdr.TileDataOffset), ?_, ?_⟩
    · rw [op_entries_of_resolve hdr c st e _ hc h0 hsk hres]; rfl
    · show sub64 e.Offset hdr.TileDataOffset = _
      exact sub64_of_le hoff h2
  · intro h1
    have hres := @resolveOffset_rel hdr e
      (by rw [add64_of_lt (by omega)]; exact h1)
    refine ⟨keptEntry c e e.Offset, ?_, rfl⟩
    rw [op_entries_of_resolve hdr c st e _ hc h0 hsk hres]; rfl

/-- C6, witness: an entry at absolute offset 5050 with tile data at file offset
5000 is retained with offset 50; the hypotheses and the premises of the
absolute-only case hold at this input. -/
theorem offset_resolution_witness :
    (8 < U64 ∧ 5050 < U64 ∧ (exHdr 5000 1000).TileDataLength < U64 ∧
      PassState.init.opErr = none ∧ ¬ skipped 8 ⟨2, 5050, 10, 1⟩) ∧
    ((exHdr 5000 1000).TileDataOffset + (exHdr 5000 1000).TileDataLength < U64 ∧
      (exHdr 5000 1000).TileDataLength < 5050 + 10 ∧
      (exHdr 5000 1000).TileDataOffset ≤ 5050 ∧
      5050 + 10 ≤ (exHdr 5000 1000).TileDataOffset + (exHdr 5000 1000).TileDataLength) ∧
    (op (exHdr 5000 1000) 8 PassState.init ⟨2, 5050, 10, 1⟩).entries = [⟨2, 50, 10, 1⟩] ∧
    ∃ e', (op (exHdr 5000 1000) 8 PassState.init ⟨2, 5050, 10, 1⟩).entries =
        PassState.init.entries ++ [e'] ∧
      e'.Offset = 5050 - (exHdr 5000 1000).TileDataOffset :=
  ⟨⟨by decide, by decide, by decide, by decide, by decide⟩,
    ⟨by decide, by decide, by decide, by decide⟩, by decide,
    (offset_resolution (exHdr 5000 1000) 8 PassState.init ⟨2, 5050, 10, 1⟩
      (by decide) (by decide) (by decide) (by decide) (by decide)).1
      (by decide) (by decide) (by decide) (by decide)⟩

/-- C6, counterexample: a header whose tile-data region would end beyond
`2 ^ 64` (`TileDataOffset = 2 ^ 64 - 100`, `TileDataLength = 200`).  The entry
with offset `2 ^ 64 - 50`, length 10 is, as exact integers, not valid under the
relative interpretation and valid under the absolute one, yet line 116 compares
with the wrapped sum 100 and `op` sets `opErr` and retains nothing; the entry
with offset `2 ^ 64 - 2`, length 5 is in the same position, yet its own sum
wraps to 3 in line 114 and it is retained with offset `2 ^ 64 - 2`, not
`offset - TileDataOffset = 98`. -/
theorem offset_resolution_counterexample :
    (EntryV3.wf ⟨2, 2 ^ 64 - 50, 10, 1⟩ ∧ (exHdr (2 ^ 64 - 100) 200).wf ∧
      ¬ skipped 8 ⟨2, 2 ^ 64 - 50, 10, 1⟩ ∧
      (exHdr (2 ^ 64 - 100) 200).TileDataLength < (2 ^ 64 - 50) + 10 ∧
      (exHdr (2 ^ 64 - 100) 200).TileDataOffset ≤ 2 ^ 64 - 50 ∧
      (2 ^ 64 - 50) + 10 ≤
        (exHdr (2 ^ 64 - 100) 200).TileDataOffset + (exHdr (2 ^ 64 - 100) 200).TileDataLength ∧
      (op (exHdr (2 ^ 64 - 100) 200) 8 PassState.init ⟨2, 2 ^ 64 - 50, 10, 1⟩).entries = [] ∧
      (op (exHdr (2 ^ 64 - 100) 200) 8 PassState.init ⟨2, 2 ^ 64 - 50, 10, 1⟩).opErr ≠ none) ∧
    (EntryV3.wf ⟨2, 2 ^ 64 - 2, 5, 1⟩ ∧ ¬ skipped 8 ⟨2, 2 ^ 64 - 2, 5, 1⟩ ∧
      (exHdr (2 ^ 64 - 100) 200).TileDataLength < (2 ^ 64 - 2) + 5 ∧
      (exHdr (2 ^ 64 - 100) 200).TileDataOffset ≤ 2 ^ 64 - 2 ∧
      (2 ^ 64 - 2) + 5 ≤
        (exHdr (2 ^ 64 - 100) 200).TileDataOffset + (exHdr (2 ^ 64 - 100) 200).TileDataLength ∧
      (op (exHdr (2 ^ 64 - 100) 200) 8 PassState.init ⟨2, 2 ^ 64 - 2, 5, 1⟩).entries =
        [⟨2, 2 ^ 64 - 2, 5, 1⟩] ∧
      ¬ (∀ e' ∈ (op (exHdr (2 ^ 64 - 100) 200) 8 PassState.init
            ⟨2, 2 ^ 64 - 2, 5, 1⟩).entries,
          e'.Offset = (2 ^ 64 - 2) - (exHdr (2 ^ 64 - 100) 200).TileDataOffset)) := by
  decide

/-- C7 (amended): when `TileDataOffset` is 0 or lies strictly between 940 and
`2 ^ 64 - 1000`, an entry below the cutoff with offset `TileDataOffset + 50` and
length 10, in an archive whose tile-data region has length 1000, is retained
with relative offset 50. -/
theorem absolute_scenario (hdr : HeaderV3) (c : Nat) (st : PassState) (e : EntryV3)
    (hc : c < U64) (h0 : st.opErr = none) (hlt : e.TileID < c)
    (hlo : hdr.TileDataOffset = 0 ∨ 940 < hdr.TileDataOffset)
    (hhi : hdr.TileDataOffset + 1000 < U64)
    (hoff : e.Offset = hdr.TileDataOffset + 50) (hlen : e.Length = 10)
    (htdl : hdr.TileDataLength = 1000) :
    (op hdr c st e).entries = st.entries ++ [keptEntry c e 50] ∧
      (keptEntry c e 50).Offset = 50 := by
  have hsk : ¬ skipped c e := by unfold skipped; omega
  have hnw : e.Offset + e.Length < U64 := by omega
  have hres : resolveOffset hdr e = some 50 := by
    rcases hlo with hz | hlo
    · rw [resolveOffset_rel (by rw [add64_of_lt hnw]; omega)]
      congr 1; omega
    · have h := @resolveOffset_abs hdr e
        (by rw [add64_of_lt hnw]; omega) (by omega)
        (by rw [add64_of_lt hnw, add64_of_lt (by omega)]; omega)
      rw [h, sub64_of_le (by omega) (by omega)]
      congr 1; omega
  rw [op_entries_of_resolve hdr c st e 50 hc h0 hsk hres]
  exact ⟨rfl, rfl⟩

/-- C7, witness: tile data at file offset 5000, entry offset 5050. -/
theorem absolute_scenario_witness :
    (8 < U64 ∧ PassState.init.opErr = none ∧ 2 < 8 ∧
      ((exHdr 5000 1000).TileDataOffset = 0 ∨ 940 < (exHdr 5000 1000).TileDataOffset) ∧
      (exHdr 5000 1000).TileDataOffset + 1000 < U64 ∧
      5050 = (exHdr 5000 1000).TileDataOffset + 50 ∧
      (exHdr 5000 1000).TileDataLength = 1000) ∧
    (op (exHdr 5000 1000) 8 PassState.init ⟨2, 5050, 10, 1⟩).entries =
        PassState.init.entries ++ [keptEntry 8 ⟨2, 5050, 10, 1⟩ 50] ∧
      (keptEntry 8 ⟨2, 5050, 10, 1⟩ 50).Offset = 50 :=
  ⟨⟨by decide, by decide, by decide, by decide, by decide, by decide, by decide⟩,
    absolute_scenario (exHdr 5000 1000) 8 PassState.init ⟨2, 5050, 10, 1⟩
      (by decide) (by decide) (by decide) (by decide) (by decide) (by decide) (by decide)
      (by decide)⟩

/-- C7, counterexample: with `TileDataOffset = 100` the entry at offset
`100 + 50`, length 10, region length 1000, passes the relative test of line 114
(`160 ≤ 1000`) and is retained with offset 150, not 50. -/
theorem absolute_scenario_counterexample :
    (exHdr 100 1000).TileDataOffset = 100 ∧ (exHdr 100 1000).TileDataLength = 1000 ∧
    (op (exHdr 100 1000) 8 PassState.init ⟨2, 100 + 50, 10, 1⟩).opErr = none ∧
    (op (exHdr 100 1000) 8 PassState.init ⟨2, 100 + 50, 10, 1⟩).entries =
      [⟨2, 150, 10, 1⟩] ∧
    ¬ (∀ e' ∈ (op (exHdr 100 1000) 8 PassState.init ⟨2, 100 + 50, 10, 1⟩).entries,
        e'.Offset = 50) := by
  decide

/-- C8 (amended): for every entry stream in which the sums of the bounds test
do not wrap around 64 bits (`Offset + Length < 2 ^ 64` for the non-skipped
entries, `TileDataOffset + TileDataLength < 2 ^ 64`), the pass ends with a
non-nil `opErr` if and only if the stream contains an entry that is not skipped
(`TileID < maxTileID` and `Length ≠ 0`) and whose offset/length fall outside
both the relative and the absolute bound; and, for every stream, once the
error is set no later entry changes the state (retained entries, distinct
ranges, addressed count). -/
theorem integrity_error_iff (hdr : HeaderV3) (maxTileID : Nat) (es : List EntryV3)
    (hmax : maxTileID < U64)
    (hreg : hdr.TileDataOffset + hdr.TileDataLength < U64)
    (hnw : ∀ e ∈ es, ¬ skipped maxTileID e → e.Offset + e.Length < U64) :
    ((passOne hdr maxTileID es).opErr ≠ none ↔
      ∃ e ∈ es, ¬ skipped maxTileID e ∧ ¬ inBounds hdr e) ∧
    (∀ (st : PassState) (e : EntryV3), st.opErr ≠ none → op hdr maxTileID st e = st) ∧
    (∀ (st : PassState) (later : List EntryV3), st.opErr ≠ none →
      later.foldl (op hdr maxTileID) st = st) := by
  refine ⟨?_, op_of_err hdr maxTileID, foldl_op_of_err hdr maxTileID⟩
  rw [passOne_opErr_iff hdr maxTileID es hmax]
  constructor
  · rintro ⟨e, he, hsk, hres⟩
    refine ⟨e, he, hsk, ?_⟩
    rw [← inBounds64_iff (hnw e he hsk) hreg]
    exact (resolveOffset_none_iff hdr e).1 hres
  · rintro ⟨e, he, hsk, hb⟩
    refine ⟨e, he, hsk, (resolveOffset_none_iff hdr e).2 ?_⟩
    rw [inBounds64_iff (hnw e he hsk) hreg]
    exact hb

/-- C8, witness: a stream whose second entry lies outside both bounds. -/
theorem integrity_error_iff_witness :
    (8 < U64 ∧ (exHdr 5000 1000).TileDataOffset + (exHdr 5000 1000).TileDataLength < U64 ∧
      ∀ e ∈ [(⟨1, 0, 100, 1⟩ : EntryV3), ⟨2, 950, 100, 1⟩, ⟨3, 100, 100, 1⟩],
        ¬ skipped 8 e → e.Offset + e.Length < U64) ∧
    (passOne (exHdr 5000 1000) 8 [⟨1, 0, 100, 1⟩, ⟨2, 950, 100, 1⟩, ⟨3, 100, 100, 1⟩]).opErr =
      some ⟨950, 100, 1000, 5000⟩ ∧
    (passOne (exHdr 5000 1000) 8 [⟨1, 0, 100, 1⟩, ⟨2, 950, 100, 1⟩, ⟨3, 100, 100, 1⟩]).entries =
      [⟨1, 0, 100, 1⟩] ∧
    ((passOne (exHdr 5000 1000) 8
          [⟨1, 0, 100, 1⟩, ⟨2, 950, 100, 1⟩, ⟨3, 100, 100, 1⟩]).opErr ≠ none ↔
      ∃ e ∈ [(⟨1, 0, 100, 1⟩ : EntryV3), ⟨2, 950, 100, 1⟩, ⟨3, 100, 100, 1⟩],
        ¬ skipped 8 e ∧ ¬ inBounds (exHdr 5000 1000) e) :=
  ⟨⟨by decide, by decide, by decide⟩, by decide, by decide,
    (integrity_error_iff (exHdr 5000 1000) 8
      [⟨1, 0, 100, 1⟩, ⟨2, 950, 100, 1⟩, ⟨3, 100, 100, 1⟩]
      (by decide) (by decide) (by decide)).1⟩

/-- C8, counterexample: with cutoff 8 the stream holding the single entry
`TileID = 20`, `Offset = 7000`, `Length = 10` (tile data: 1000 bytes at file
offset 5000) contains an entry outside both bounds, yet the guard of line 95
returns before the bounds are looked at and `opErr` stays nil; the same holds
for an entry below the cutoff with `Length = 0` and `Offset = 7000`. -/
theorem integrity_error_iff_counterexample :
    ¬ ((passOne (exHdr 5000 1000) 8 [⟨20, 7000, 10, 1⟩]).opErr ≠ none ↔
        ∃ e ∈ [(⟨20, 7000, 10, 1⟩ : EntryV3)],
          ¬ (e.Offset + e.Length ≤ (exHdr 5000 1000).TileDataLength) ∧
          ¬ ((exHdr 5000 1000).TileDataOffset ≤ e.Offset ∧
              e.Offset + e.Length ≤
                (exHdr 5000 1000).TileDataOffset + (exHdr 5000 1000).TileDataLength)) ∧
    ¬ ((passOne (exHdr 5000 1000) 8 [⟨2, 7000, 0, 1⟩]).opErr ≠ none ↔
        ∃ e ∈ [(⟨2, 7000, 0, 1⟩ : EntryV3)],
          ¬ (e.Offset + e.Length ≤ (exHdr 5000 1000).TileDataLength) ∧
          ¬ ((exHdr 5000 1000).TileDataOffset ≤ e.Offset ∧
              e.Offset + e.Length ≤
                (exHdr 5000 1000).TileDataOffset + (exHdr 5000 1000).TileDataLength)) := by
  decide

/-- C9: after pass one, for every entry stream, the distinct-ranges list has no
duplicate key, its elements are exactly the `(offset, length)` keys of the
retained entries, and two of its keys stand in the order in which they first
occur among the retained entries (`indexOf` is the position of the first
occurrence). -/
theorem dedup_guarantee (hdr : HeaderV3) (maxTileID : Nat) (es : List EntryV3) :
    (passOne hdr maxTileID es).ranges.Nodup ∧
    (∀ k, k ∈ (passOne hdr maxTileID es).ranges ↔
      ∃ e ∈ (passOne hdr maxTileID es).entries, keyOf e = k) ∧
    (∀ k1 ∈ (passOne hdr maxTileID es).ranges, ∀ k2 ∈ (passOne hdr maxTileID es).ranges,
      ((passOne hdr maxTileID es).ranges.indexOf k1 <
          (passOne hdr maxTileID es).ranges.indexOf k2 ↔
        ((passOne hdr maxTileID es).entries.map keyOf).indexOf k1 <
          ((passOne hdr maxTileID es).entries.map keyOf).indexOf k2)) := by
  obtain ⟨hnd, _, hkeys, hord⟩ := dedupInv_passOne hdr maxTileID es
  refine ⟨hnd, ?_, hord⟩
  intro k
  rw [hkeys k, List.mem_map]

/-- C9, an instance: three retained entries, the first and the last with the
same key; the distinct ranges are the two keys in first-seen order. -/
theorem dedup_guarantee_witness :
    (passOne (exHdr 5000 1000) 8
      [⟨1, 50, 100, 1⟩, ⟨2, 5000, 10, 1⟩, ⟨3, 50, 100, 2⟩]).entries.map keyOf =
      [⟨50, 100⟩, ⟨0, 10⟩, ⟨50, 100⟩] ∧
    (passOne (exHdr 5000 1000) 8
      [⟨1, 50, 100, 1⟩, ⟨2, 5000, 10, 1⟩, ⟨3, 50, 100, 2⟩]).ranges = [⟨50, 100⟩, ⟨0, 10⟩] ∧
    (passOne (exHdr 5000 1000) 8
      [⟨1, 50, 100, 1⟩, ⟨2, 5000, 10, 1⟩, ⟨3, 50, 100, 2⟩]).ranges.Nodup :=
  ⟨by decide, by decide,
    (dedup_guarantee (exHdr 5000 1000) 8
      [⟨1, 50, 100, 1⟩, ⟨2, 5000, 10, 1⟩, ⟨3, 50, 100, 2⟩]).1⟩

/-- C10: for every entry stream on which pass one succeeds, every retained
entry's `(offset, length)` key is one of the sorted ranges, at a position `i`,
and is present in `remap`, with the running total the loop of lines 148-151
reached at position `i` as its value; the read `remap[k]` of line 154 returns
that value, and the rewritten entry is the retained one with this offset. -/
theorem rewriter_never_misses (hdr : HeaderV3) (maxTileID : Nat) (es : List EntryV3)
    (hok : (passOne hdr maxTileID es).opErr = none) :
    (∀ e ∈ (passOne hdr maxTileID es).entries,
      ∃ i, (sortedRanges hdr maxTileID es)[i]? = some (keyOf e) ∧
        remapOf hdr maxTileID es (keyOf e) =
          some (plannedOffset (sortedRanges hdr maxTileID es) i) ∧
        (remapOf hdr maxTileID es).get (keyOf e) =
          plannedOffset (sortedRanges hdr maxTileID es) i) ∧
    (∀ (j : Nat) (e : EntryV3), (passOne hdr maxTileID es).entries[j]? = some e →
      ∃ i, (sortedRanges hdr maxTileID es)[i]? = some (keyOf e) ∧
        (rewrittenEntries hdr maxTileID es)[j]? =
          some { e with Offset := plannedOffset (sortedRanges hdr maxTileID es) i }) ∧
    (∀ (src : List Nat) (maxZoom headerLen metaLen : Nat) (rootLen leafLen : List EntryV3 → Nat),
      ∃ res, trim src hdr maxZoom maxTileID es headerLen metaLen rootLen leafLen =
          Except.ok res ∧
        res.entries = rewrittenEntries hdr maxTileID es ∧
        res.remap = remapOf hdr maxTileID es) := by
  have hget : ∀ e ∈ (passOne hdr maxTileID es).entries,
      ∃ i, (sortedRanges hdr maxTileID es)[i]? = some (keyOf e) ∧
        remapOf hdr maxTileID es (keyOf e) =
          some (plannedOffset (sortedRanges hdr maxTileID es) i) ∧
        (remapOf hdr maxTileID es).get (keyOf e) =
          plannedOffset (sortedRanges hdr maxTileID es) i := by
    intro e he
    obtain ⟨i, hi, hv⟩ := remapOf_keyOf hdr maxTileID es e he
    refine ⟨i, hi, hv, ?_⟩
    unfold Remap.get
    rw [hv]; rfl
  refine ⟨hget, ?_, ?_⟩
  · intro j e hj
    obtain ⟨i, hi, _, hv⟩ := hget e (List.getElem?_mem hj)
    refine ⟨i, hi, ?_⟩
    unfold rewrittenEntries rewriteEntries
    rw [List.getElem?_map, hj, Option.map_some', hv]
  · intro src maxZoom headerLen metaLen rootLen leafLen
    obtain ⟨res, h1, h2, _, h3, _⟩ :=
      trim_of_ok src hdr maxZoom maxTileID es headerLen metaLen rootLen leafLen hok
    exact ⟨res, h1, h2, h3⟩

/-- C10, witness: three retained entries, the first and the last sharing one
range; the rewritten offsets are 10, 0, 10. -/
theorem rewriter_never_misses_witness :
    (passOne (exHdr 5000 1000) 8
      [⟨1, 50, 100, 1⟩, ⟨2, 5000, 10, 1⟩, ⟨3, 50, 100, 2⟩]).opErr = none ∧
    sortedRanges (exHdr 5000 1000) 8 [⟨1, 50, 100, 1⟩, ⟨2, 5000, 10, 1⟩, ⟨3, 50, 100, 2⟩] =
      [⟨0, 10⟩, ⟨50, 100⟩] ∧
    rewrittenEntries (exHdr 5000 1000) 8
        [⟨1, 50, 100, 1⟩, ⟨2, 5000, 10, 1⟩, ⟨3, 50, 100, 2⟩] =
      [⟨1, 10, 100, 1⟩, ⟨2, 0, 10, 1⟩, ⟨3, 10, 100, 2⟩] ∧
    (∀ e ∈ (passOne (exHdr 5000 1000) 8
          [⟨1, 50, 100, 1⟩, ⟨2, 5000, 10, 1⟩, ⟨3, 50, 100, 2⟩]).entries,
      ∃ i, (sortedRanges (exHdr 5000 1000) 8
            [⟨1, 50, 100, 1⟩, ⟨2, 5000, 10, 1⟩, ⟨3, 50, 100, 2⟩])[i]? = some (keyOf e) ∧
        remapOf (exHdr 5000 1000) 8
            [⟨1, 50, 100, 1⟩, ⟨2, 5000, 10, 1⟩, ⟨3, 50, 100, 2⟩] (keyOf e) =
          some (plannedOffset (sortedRanges (exHdr 5000 1000) 8
            [⟨1, 50, 100, 1⟩, ⟨2, 5000, 10, 1⟩, ⟨3, 50, 100, 2⟩]) i) ∧
        (remapOf (exHdr 5000 1000) 8
            [⟨1, 50, 100, 1⟩, ⟨2, 5000, 10, 1⟩, ⟨3, 50, 100, 2⟩]).get (keyOf e) =
          plannedOffset (sortedRanges (exHdr 5000 1000) 8
            [⟨1, 50, 100, 1⟩, ⟨2, 5000, 10, 1⟩, ⟨3, 50, 100, 2⟩]) i) :=
  ⟨by decide, by decide, by decide,
    (rewriter_never_misses (exHdr 5000 1000) 8
      [⟨1, 50, 100, 1⟩, ⟨2, 5000, 10, 1⟩, ⟨3, 50, 100, 2⟩] (by decide)).1⟩

/-- C11 (amended): for every list of distinct ranges produced by pass one,
every range has length at least 1 and each range of the sorted list is mapped
to the running total of the loop of lines 148-151; when the lengths add up to
less than `2 ^ 64` (no wrap-around of `tileBytes`), the assigned output offsets
are strictly increasing along compaction order, each range ending where a
later one starts or before, so that two different ranges never receive the
same output offset. -/
theorem compaction_injective (hdr : HeaderV3) (maxTileID : Nat) (es : List EntryV3) :
    (∀ k ∈ sortedRanges hdr maxTileID es, 1 ≤ k.len) ∧
    (∀ (i : Nat) (a : tileKey), (sortedRanges hdr maxTileID es)[i]? = some a →
      (remapOf hdr maxTileID es).get a = plannedOffset (sortedRanges hdr maxTileID es) i) ∧
    (((sortedRanges hdr maxTileID es).map tileKey.len).sum < U64 →
      (∀ (i j : Nat) (a b : tileKey), i < j →
        (sortedRanges hdr maxTileID es)[i]? = some a →
        (sortedRanges hdr maxTileID es)[j]? = some b →
        (remapOf hdr maxTileID es).get a + a.len ≤ (remapOf hdr maxTileID es).get b ∧
          (remapOf hdr maxTileID es).get a < (remapOf hdr maxTileID es).get b) ∧
      (∀ a ∈ sortedRanges hdr maxTileID es, ∀ b ∈ sortedRanges hdr maxTileID es,
        (remapOf hdr maxTileID es).get a = (remapOf hdr maxTileID es).get b → a = b)) := by
  have hnd := sortedRanges_nodup hdr maxTileID es
  have hpos := sortedRanges_len_pos hdr maxTileID es
  refine ⟨hpos, ?_, ?_⟩
  · intro i a hi
    exact buildRemap_get _ hnd i a hi
  · intro hsum
    exact ⟨fun i j a b hij hi hj => buildRemap_strictMono _ hnd hpos hsum i j a b hij hi hj,
      fun a ha b hb hab => buildRemap_injective _ hnd hpos hsum a b ha hb hab⟩

/-- C11, witness: three distinct ranges, sorted `(0, 10)`, `(0, 30)`,
`(50, 100)`, receive the offsets 0, 10, 40. -/
theorem compaction_injective_witness :
    sortedRanges (exHdr 5000 1000) 8 [⟨1, 50, 100, 1⟩, ⟨2, 0, 30, 1⟩, ⟨3, 5000, 10, 2⟩] =
      [⟨0, 10⟩, ⟨0, 30⟩, ⟨50, 100⟩] ∧
    ((sortedRanges (exHdr 5000 1000) 8
      [⟨1, 50, 100, 1⟩, ⟨2, 0, 30, 1⟩, ⟨3, 5000, 10, 2⟩]).map tileKey.len).sum < U64 ∧
    (remapOf (exHdr 5000 1000) 8
      [⟨1, 50, 100, 1⟩, ⟨2, 0, 30, 1⟩, ⟨3, 5000, 10, 2⟩]).get ⟨0, 10⟩ = 0 ∧
    (remapOf (exHdr 5000 1000) 8
      [⟨1, 50, 100, 1⟩, ⟨2, 0, 30, 1⟩, ⟨3, 5000, 10, 2⟩]).get ⟨0, 30⟩ = 10 ∧
    (remapOf (exHdr 5000 1000) 8
      [⟨1, 50, 100, 1⟩, ⟨2, 0, 30, 1⟩, ⟨3, 5000, 10, 2⟩]).get ⟨50, 100⟩ = 40 ∧
    (∀ a ∈ sortedRanges (exHdr 5000 1000) 8
          [⟨1, 50, 100, 1⟩, ⟨2, 0, 30, 1⟩, ⟨3, 5000, 10, 2⟩],
      ∀ b ∈ sortedRanges (exHdr 5000 1000) 8
          [⟨1, 50, 100, 1⟩, ⟨2, 0, 30, 1⟩, ⟨3, 5000, 10, 2⟩],
      (remapOf (exHdr 5000 1000) 8
          [⟨1, 50, 100, 1⟩, ⟨2, 0, 30, 1⟩, ⟨3, 5000, 10, 2⟩]).get a =
        (remapOf (exHdr 5000 1000) 8
          [⟨1, 50, 100, 1⟩, ⟨2, 0, 30, 1⟩, ⟨3, 5000, 10, 2⟩]).get b → a = b) :=
  ⟨by decide, by decide, by decide, by decide, by decide,
    ((compaction_injective (exHdr 5000 1000) 8
      [⟨1, 50, 100, 1⟩, ⟨2, 0, 30, 1⟩, ⟨3, 5000, 10, 2⟩]).2.2 (by decide)).2⟩

/-- C11, counterexample: a stream of `2 ^ 32 + 3` well-formed entries, entry
`i` being tile `i` with offset `i` and length `2 ^ 32 - 1`, in a tile-data
region of `2 ^ 34` bytes, with cutoff 5726623061 (the first tile of zoom 17).
Pass one succeeds and the ranges are distinct; the running total of line 150
wraps after `2 ^ 32 + 2` ranges, so the range at position `2 ^ 32 + 1` receives
offset `2 ^ 64 - 1` and the next one the smaller offset `2 ^ 32 - 2`. -/
theorem compaction_injective_counterexample :
    (∀ e ∈ wideStream (2 ^ 32 + 3) (2 ^ 32 - 1), e.wf) ∧
    (passOne (exHdr 5000 (2 ^ 34)) 5726623061 (wideStream (2 ^ 32 + 3) (2 ^ 32 - 1))).opErr =
      none ∧
    (sortedRanges (exHdr 5000 (2 ^ 34)) 5726623061
        (wideStream (2 ^ 32 + 3) (2 ^ 32 - 1)))[2 ^ 32 + 1]? =
      some { off := 2 ^ 32 + 1, len := 2 ^ 32 - 1 } ∧
    (sortedRanges (exHdr 5000 (2 ^ 34)) 5726623061
        (wideStream (2 ^ 32 + 3) (2 ^ 32 - 1)))[2 ^ 32 + 2]? =
      some { off := 2 ^ 32 + 2, len := 2 ^ 32 - 1 } ∧
    (remapOf (exHdr 5000 (2 ^ 34)) 5726623061 (wideStream (2 ^ 32 + 3) (2 ^ 32 - 1))).get
        { off := 2 ^ 32 + 1, len := 2 ^ 32 - 1 } = 2 ^ 64 - 1 ∧
    (remapOf (exHdr 5000 (2 ^ 34)) 5726623061 (wideStream (2 ^ 32 + 3) (2 ^ 32 - 1))).get
        { off := 2 ^ 32 + 2, len := 2 ^ 32 - 1 } = 2 ^ 32 - 2 ∧
    ¬ ((remapOf (exHdr 5000 (2 ^ 34)) 5726623061 (wideStream (2 ^ 32 + 3) (2 ^ 32 - 1))).get
          { off := 2 ^ 32 + 1, len := 2 ^ 32 - 1 } <
        (remapOf (exHdr 5000 (2 ^ 34)) 5726623061 (wideStream (2 ^ 32 + 3) (2 ^ 32 - 1))).get
          { off := 2 ^ 32 + 2, len := 2 ^ 32 - 1 }) := by
  have hc : (5726623061 : Nat) < U64 := by decide
  have hn : 2 ^ 32 + 3 ≤ 5726623061 := by decide
  have hlen : 2 ^ 32 - 1 ≠ 0 := by decide
  have hfit : 2 ^ 32 + 3 + (2 ^ 32 - 1) ≤ (exHdr 5000 (2 ^ 34)).TileDataLength := by decide
  have hT : (exHdr 5000 (2 ^ 34)).TileDataLength < U64 := by decide
  have h1 := wideStream_remap (exHdr 5000 (2 ^ 34)) 5726623061 (2 ^ 32 + 3) (2 ^ 32 - 1)
    (2 ^ 32 + 1) hc hn hlen hfit hT (by decide)
  have h2 := wideStream_remap (exHdr 5000 (2 ^ 34)) 5726623061 (2 ^ 32 + 3) (2 ^ 32 - 1)
    (2 ^ 32 + 2) hc hn hlen hfit hT (by decide)
  have e1 : ((2 ^ 32 + 1) * (2 ^ 32 - 1)) % U64 = 2 ^ 64 - 1 := by decide
  have e2 : ((2 ^ 32 + 2) * (2 ^ 32 - 1)) % U64 = 2 ^ 32 - 2 := by decide
  refine ⟨?_, (wideStream_sortedRanges (exHdr 5000 (2 ^ 34)) 5726623061 (2 ^ 32 + 3)
    (2 ^ 32 - 1) hc hn hlen hfit hT).1, h1.1, h2.1, h1.2.trans e1, h2.2.trans e2, ?_⟩
  · intro e he
    unfold wideStream at he
    rw [List.mem_map] at he
    obtain ⟨i, hi, hie⟩ := he
    rw [List.mem_range] at hi
    rw [← hie]
    unfold EntryV3.wf U64 U32
    refine ⟨?_, ?_, ?_, ?_⟩
    · show i < 2 ^ 64
      omega
    · show i < 2 ^ 64
      omega
    · show 2 ^ 32 - 1 < 2 ^ 32
      decide
    · show 1 < 2 ^ 32
      decide
  · rw [h1.2.trans e1, h2.2.trans e2]
    decide
/-- C12 (amended): for every entry stream on which the pass succeeds, `main`
returns a header whose `TileEntriesCount` is the number of retained entries and
whose `TileContentsCount` is the number of distinct ranges; and when the
retained entries' normalized run lengths add up to less than `2 ^ 64`, its
`AddressedTilesCount` is the sum of the retained entries' normalized run
lengths. -/
theorem header_counts (hdr : HeaderV3) (maxTileID : Nat) (es : List EntryV3)
    (hok : (passOne hdr maxTileID es).opErr = none) :
    ∀ (src : List Nat) (maxZoom headerLen metaLen : Nat) (rootLen leafLen : List EntryV3 → Nat),
      ∃ res, trim src hdr maxZoom maxTileID es headerLen metaLen rootLen leafLen =
          Except.ok res ∧
        res.entries.map EntryV3.RunLength =
          (passOne hdr maxTileID es).entries.map EntryV3.RunLength ∧
        (((passOne hdr maxTileID es).entries.map EntryV3.RunLength).sum < U64 →
          res.outHdr.AddressedTilesCount = (res.entries.map EntryV3.RunLength).sum) ∧
        res.outHdr.TileEntriesCount = res.entries.length ∧
        res.entries.length = (passOne hdr maxTileID es).entries.length ∧
        res.outHdr.TileContentsCount = res.ranges.length ∧
        res.ranges.length = (passOne hdr maxTileID es).ranges.length := by
  intro src maxZoom headerLen metaLen rootLen leafLen
  obtain ⟨res, hres, hrun, hadd, h1, h2, h3, h4, _, _⟩ :=
    trim_counts hdr maxTileID es hok src maxZoom headerLen metaLen rootLen leafLen
  refine ⟨res, hres, hrun, ?_, h1, h2, h3, h4⟩
  intro hsum
  rw [hadd, hrun, passOne_addressed]
  exact Nat.mod_eq_of_lt hsum

/-- C12, witness: three retained entries with run lengths 1, 1 and 3 over
two distinct ranges; the addressed count is their sum, 5. -/
theorem header_counts_witness :
    (passOne (exHdr 5000 1000) 8
      [⟨1, 50, 100, 1⟩, ⟨9, 0, 10, 1⟩, ⟨2, 5000, 10, 0⟩, ⟨5, 50, 100, 10⟩]).opErr = none ∧
    ((passOne (exHdr 5000 1000) 8
      [⟨1, 50, 100, 1⟩, ⟨9, 0, 10, 1⟩, ⟨2, 5000, 10, 0⟩, ⟨5, 50, 100, 10⟩]).entries.map
        EntryV3.RunLength).sum < U64 ∧
    (passOne (exHdr 5000 1000) 8
      [⟨1, 50, 100, 1⟩, ⟨9, 0, 10, 1⟩, ⟨2, 5000, 10, 0⟩, ⟨5, 50, 100, 10⟩]).entries.map
        EntryV3.RunLength = [1, 1, 3] ∧
    ∃ res, trim [] (exHdr 5000 1000) 3 8
        [⟨1, 50, 100, 1⟩, ⟨9, 0, 10, 1⟩, ⟨2, 5000, 10, 0⟩, ⟨5, 50, 100, 10⟩] 127 0
        (fun _ => 0) (fun _ => 0) = Except.ok res ∧
      res.entries.map EntryV3.RunLength = [1, 1, 3] ∧
      res.outHdr.AddressedTilesCount = (res.entries.map EntryV3.RunLength).sum ∧
      res.outHdr.AddressedTilesCount = 5 ∧
      res.outHdr.TileEntriesCount = 3 ∧
      res.outHdr.TileContentsCount = 2 :=
  ⟨by decide, by decide, by decide,
    (header_counts (exHdr 5000 1000) 8
      [⟨1, 50, 100, 1⟩, ⟨9, 0, 10, 1⟩, ⟨2, 5000, 10, 0⟩, ⟨5, 50, 100, 10⟩] (by decide)
      [] 3 127 0 (fun _ => 0) (fun _ => 0)).imp
      (fun res h =>
        have hmap : res.entries.map EntryV3.RunLength = [1, 1, 3] := h.2.1.trans (by decide)
        have hadd := h.2.2.1 (by decide)
        ⟨h.1, hmap, hadd, hadd.trans (by rw [hmap]; rfl),
          h.2.2.2.1.trans (h.2.2.2.2.1.trans (by decide)),
          h.2.2.2.2.2.1.trans (h.2.2.2.2.2.2.trans (by decide))⟩)⟩

/-- C12, counterexample: a stream of `2 ^ 32 + 3` well-formed entries, entry
`i` being tile `i` with run length `2 ^ 32 - 1`, offset 0 and length 1, trimmed
to maximum zoom 17 (cutoff 22906492245, the first tile of zoom 18).  No run
reaches the cutoff, so every entry is retained with its run length; the run
lengths add up to `(2 ^ 32 + 3) * (2 ^ 32 - 1)`, the `uint64` total of line 132
wraps, and the header's `AddressedTilesCount` is `2 ^ 33 - 3`. -/
theorem header_counts_counterexample :
    (∀ e ∈ runStream (2 ^ 32 + 3) (2 ^ 32 - 1), e.wf) ∧
    (passOne (exHdr 5000 1000) 22906492245 (runStream (2 ^ 32 + 3) (2 ^ 32 - 1))).opErr =
      none ∧
    (passOne (exHdr 5000 1000) 22906492245 (runStream (2 ^ 32 + 3) (2 ^ 32 - 1))).entries =
      runStream (2 ^ 32 + 3) (2 ^ 32 - 1) ∧
    ∃ res, trim [] (exHdr 5000 1000) 17 22906492245 (runStream (2 ^ 32 + 3) (2 ^ 32 - 1))
        127 0 (fun _ => 0) (fun _ => 0) = Except.ok res ∧
      res.entries.map EntryV3.RunLength =
        (runStream (2 ^ 32 + 3) (2 ^ 32 - 1)).map EntryV3.RunLength ∧
      (res.entries.map EntryV3.RunLength).sum = (2 ^ 32 + 3) * (2 ^ 32 - 1) ∧
      res.outHdr.AddressedTilesCount = 2 ^ 33 - 3 ∧
      ¬ (res.outHdr.AddressedTilesCount = (res.entries.map EntryV3.RunLength).sum) := by
  have hc : (22906492245 : Nat) < U64 := by decide
  have hrun : 0 < 2 ^ 32 - 1 := by decide
  have hr : 2 ^ 32 - 1 < U32 := by decide
  have hfit : 2 ^ 32 + 3 + (2 ^ 32 - 1) ≤ 22906492245 + 1 := by decide
  have hT : 1 ≤ (exHdr 5000 1000).TileDataLength := by decide
  have hp := runStream_passOne (exHdr 5000 1000) 22906492245 (2 ^ 32 + 3) (2 ^ 32 - 1)
    hc hrun hr hfit hT
  have ha := runStream_addressed (exHdr 5000 1000) 22906492245 (2 ^ 32 + 3) (2 ^ 32 - 1)
    hc hrun hr hfit hT
  have e1 : ((2 ^ 32 + 3) * (2 ^ 32 - 1)) % U64 = 2 ^ 33 - 3 := by decide
  obtain ⟨res, hres, hrun, hadd, _⟩ :=
    trim_counts (exHdr 5000 1000) 22906492245 (runStream (2 ^ 32 + 3) (2 ^ 32 - 1)) hp.1
      [] 17 127 0 (fun _ => 0) (fun _ => 0)
  rw [hp.2] at hrun
  have hsum : (res.entries.map EntryV3.RunLength).sum = (2 ^ 32 + 3) * (2 ^ 32 - 1) := by
    rw [hrun]; exact ha.1
  have hcount : res.outHdr.AddressedTilesCount = 2 ^ 33 - 3 := by
    rw [hadd]; exact ha.2.trans e1
  refine ⟨?_, hp.1, hp.2, res, hres, hrun, hsum, hcount, ?_⟩
  · intro e he
    unfold runStream at he
    rw [List.mem_map] at he
    obtain ⟨i, hi, hie⟩ := he
    rw [List.mem_range] at hi
    rw [← hie]
    unfold EntryV3.wf U64 U32
    refine ⟨?_, ?_, ?_, ?_⟩
    · show i < 2 ^ 64
      omega
    · show 0 < 2 ^ 64
      decide
    · show 1 < 2 ^ 32
      decide
    · show 2 ^ 32 - 1 < 2 ^ 32
      decide
  · rw [hcount, hsum]
    decide


/-- C13: for every entry stream on which the pass succeeds, the final
(rewritten) entry sequence matches, entry by entry and in order, the input
sequence with exactly the skipped entries (`TileID ≥ maxTileID` or
`Length = 0`) deleted: the two lists have the same length and each final entry
has the `TileID` and `Length` of its input entry, its `RunLength` is the
normalized run length and its `Offset` the compacted offset of the resolved
range. -/
theorem order_and_frame (hdr : HeaderV3) (maxTileID : Nat) (es : List EntryV3)
    (hmax : maxTileID < U64) (hok : (passOne hdr maxTileID es).opErr = none) :
    List.Forall₂
      (fun e e' => e'.TileID = e.TileID ∧ e'.Length = e.Length ∧
        e'.RunLength = toU32 (runLen maxTileID e) ∧
        ∃ relOff, resolveOffset hdr e = some relOff ∧
          e'.Offset = (remapOf hdr maxTileID es).get { off := relOff, len := e.Length })
      (es.filter (fun e => decide (¬ skipped maxTileID e)))
      (rewrittenEntries hdr maxTileID es) ∧
    (rewrittenEntries hdr maxTileID es).length =
      (es.filter (fun e => decide (¬ skipped maxTileID e))).length ∧
    (rewrittenEntries hdr maxTileID es).map (fun e => (e.TileID, e.Length)) =
      (es.filter (fun e => decide (¬ skipped maxTileID e))).map
        (fun e => (e.TileID, e.Length)) := by
  have h := forall2_filter_rewrite hdr maxTileID (remapOf hdr maxTileID es) es
    (resolve_of_ok hdr maxTileID es hmax hok)
  rw [← passOne_entries_of_ok hdr maxTileID es hmax hok] at h
  refine ⟨h, h.length_eq.symm, ?_⟩
  have h' : List.Forall₂ (fun e e' => e'.TileID = e.TileID ∧ e'.Length = e.Length)
      (es.filter (fun e => decide (¬ skipped maxTileID e)))
      (rewrittenEntries hdr maxTileID es) :=
    h.imp (fun _ _ hab => ⟨hab.1, hab.2.1⟩)
  exact map_eq_of_forall2 _ _ h'

/-- C13, witness: of five entries the second (beyond the cutoff) and the
fourth (empty) are deleted; the others keep their order, tile and length. -/
theorem order_and_frame_witness :
    (8 < U64 ∧
      (passOne (exHdr 5000 1000) 8
        [⟨1, 50, 100, 1⟩, ⟨9, 0, 10, 1⟩, ⟨2, 5000, 10, 0⟩, ⟨3, 7, 0, 1⟩,
          ⟨5, 50, 100, 10⟩]).opErr = none) ∧
    rewrittenEntries (exHdr 5000 1000) 8
        [⟨1, 50, 100, 1⟩, ⟨9, 0, 10, 1⟩, ⟨2, 5000, 10, 0⟩, ⟨3, 7, 0, 1⟩, ⟨5, 50, 100, 10⟩] =
      [⟨1, 10, 100, 1⟩, ⟨2, 0, 10, 1⟩, ⟨5, 10, 100, 3⟩] ∧
    (rewrittenEntries (exHdr 5000 1000) 8
        [⟨1, 50, 100, 1⟩, ⟨9, 0, 10, 1⟩, ⟨2, 5000, 10, 0⟩, ⟨3, 7, 0, 1⟩,
          ⟨5, 50, 100, 10⟩]).map (fun e => (e.TileID, e.Length)) =
      (([⟨1, 50, 100, 1⟩, ⟨9, 0, 10, 1⟩, ⟨2, 5000, 10, 0⟩, ⟨3, 7, 0, 1⟩,
          ⟨5, 50, 100, 10⟩] : List EntryV3).filter (fun e => decide (¬ skipped 8 e))).map
        (fun e => (e.TileID, e.Length)) :=
  ⟨⟨by decide, by decide⟩, by decide,
    (order_and_frame (exHdr 5000 1000) 8
      [⟨1, 50, 100, 1⟩, ⟨9, 0, 10, 1⟩, ⟨2, 5000, 10, 0⟩, ⟨3, 7, 0, 1⟩, ⟨5, 50, 100, 10⟩]
      (by decide) (by decide)).2.2⟩

/-- C14: the comparator of lines 139-144 is a strict total order on keys
(irreflexive, transitive, and any two different keys are comparable); for every
list the result of the sort is a permutation of it in which no later element
is less than an earlier one, strictly ascending when the list has no
duplicate, and it is the only such permutation; so two lists that are
permutations of each other yield the same sorted list, the same compaction map
and the same `tileBytes`. -/
theorem compaction_deterministic :
    (∀ a : tileKey, less a a = false) ∧
    (∀ a b c : tileKey, less a b = true → less b c = true → less a c = true) ∧
    (∀ a b : tileKey, a ≠ b → less a b = true ∨ less b a = true) ∧
    (∀ l : List tileKey, (sortRanges l).Perm l ∧ SortedRanges (sortRanges l)) ∧
    (∀ l : List tileKey, l.Nodup → (sortRanges l).Pairwise (fun a b => less a b = true)) ∧
    (∀ l s : List tileKey, s.Perm l → SortedRanges s → s = sortRanges l) ∧
    (∀ l₁ l₂ : List tileKey, l₁.Perm l₂ →
      sortRanges l₁ = sortRanges l₂ ∧
      (buildRemap (sortRanges l₁)).1 = (buildRemap (sortRanges l₂)).1 ∧
      (buildRemap (sortRanges l₁)).2 = (buildRemap (sortRanges l₂)).2) :=
  ⟨less_irrefl, fun _ _ _ h1 h2 => less_trans h1 h2, fun _ _ h => less_total h,
    fun l => ⟨sortRanges_perm l, sortRanges_sorted l⟩,
    fun _ hnd => sortRanges_strict hnd,
    fun _ _ hp hs => sortRanges_unique hp hs,
    fun _ _ hp => by rw [sortRanges_congr hp]; exact ⟨rfl, rfl, rfl⟩⟩

/-- C14, witness: the same three ranges in two first-seen orders. -/
theorem compaction_deterministic_witness :
    ([⟨50, 10⟩, ⟨0, 100⟩, ⟨0, 30⟩] : List tileKey).Perm [⟨0, 30⟩, ⟨50, 10⟩, ⟨0, 100⟩] ∧
    sortRanges [⟨50, 10⟩, ⟨0, 100⟩, ⟨0, 30⟩] = [⟨0, 30⟩, ⟨0, 100⟩, ⟨50, 10⟩] ∧
    sortRanges [⟨0, 30⟩, ⟨50, 10⟩, ⟨0, 100⟩] = [⟨0, 30⟩, ⟨0, 100⟩, ⟨50, 10⟩] ∧
    (sortRanges [⟨50, 10⟩, ⟨0, 100⟩, ⟨0, 30⟩] = sortRanges [⟨0, 30⟩, ⟨50, 10⟩, ⟨0, 100⟩] ∧
      (buildRemap (sortRanges [⟨50, 10⟩, ⟨0, 100⟩, ⟨0, 30⟩])).1 =
        (buildRemap (sortRanges [⟨0, 30⟩, ⟨50, 10⟩, ⟨0, 100⟩])).1 ∧
      (buildRemap (sortRanges [⟨50, 10⟩, ⟨0, 100⟩, ⟨0, 30⟩])).2 =
        (buildRemap (sortRanges [⟨0, 30⟩, ⟨50, 10⟩, ⟨0, 100⟩])).2) :=
  ⟨by decide, by decide, by decide,
    compaction_deterministic.2.2.2.2.2.2 [⟨50, 10⟩, ⟨0, 100⟩, ⟨0, 30⟩]
      [⟨0, 30⟩, ⟨50, 10⟩, ⟨0, 100⟩] (by decide)⟩
/-- C15 (amended): for every entry stream in which the lengths of the
distinct ranges add up to less than `2 ^ 64`, the distinct ranges are the
`(offset, length)` keys of the retained entries, each once, and the output
tile-data length `tileBytes` is the sum of their lengths, however many retained
entries share a range; when the pass succeeds, `main` returns a header whose
`TileDataLength` is that sum.  In particular, with a tile-data region of 1000
bytes and a cutoff beyond tile 100, the entries A (tile 0, run 3, offset 0,
length 100) and B (tile 100, run 1, offset 0, length 100) give 2 retained
entries, 1 distinct range and an output tile-data length of 100. -/
theorem shared_ranges_once (hdr : HeaderV3) (maxTileID : Nat) (es : List EntryV3)
    (hsum : ((passOne hdr maxTileID es).ranges.map tileKey.len).sum < U64) :
    ((passOne hdr maxTileID es).ranges.Nodup ∧
      (passOne hdr maxTileID es).ranges.Perm
        ((passOne hdr maxTileID es).entries.map keyOf).dedup ∧
      tileBytesOf hdr maxTileID es =
        ((passOne hdr maxTileID es).ranges.map tileKey.len).sum ∧
      tileBytesOf hdr maxTileID es =
        ((((passOne hdr maxTileID es).entries.map keyOf).dedup).map tileKey.len).sum ∧
      ((passOne hdr maxTileID es).opErr = none →
        ∀ (src : List Nat) (maxZoom headerLen metaLen : Nat)
            (rootLen leafLen : List EntryV3 → Nat),
          ∃ res, trim src hdr maxZoom maxTileID es headerLen metaLen rootLen leafLen =
              Except.ok res ∧
            res.outHdr.TileDataLength =
              ((passOne hdr maxTileID es).ranges.map tileKey.len).sum)) ∧
    (hdr.TileDataLength = 1000 → 100 < maxTileID → maxTileID < U64 →
      (passOne hdr maxTileID [⟨0, 0, 100, 3⟩, ⟨100, 0, 100, 1⟩]).opErr = none ∧
      (passOne hdr maxTileID [⟨0, 0, 100, 3⟩, ⟨100, 0, 100, 1⟩]).entries =
        [⟨0, 0, 100, 3⟩, ⟨100, 0, 100, 1⟩] ∧
      (rewrittenEntries hdr maxTileID [⟨0, 0, 100, 3⟩, ⟨100, 0, 100, 1⟩]).length = 2 ∧
      sortedRanges hdr maxTileID [⟨0, 0, 100, 3⟩, ⟨100, 0, 100, 1⟩] = [⟨0, 100⟩] ∧
      tileBytesOf hdr maxTileID [⟨0, 0, 100, 3⟩, ⟨100, 0, 100, 1⟩] = 100) := by
  constructor
  · have hp := passOne_ranges_perm_dedup hdr maxTileID es
    have ht : tileBytesOf hdr maxTileID es =
        ((passOne hdr maxTileID es).ranges.map tileKey.len).sum := by
      rw [tileBytesOf_eq]
      exact Nat.mod_eq_of_lt hsum
    refine ⟨(dedupInv_passOne hdr maxTileID es).1, hp, ht, ?_, ?_⟩
    · rw [ht, (hp.map tileKey.len).sum_eq]
    · intro hok src maxZoom headerLen metaLen rootLen leafLen
      obtain ⟨res, hres, _, _, _, _, _, _, _, hlen⟩ :=
        trim_counts hdr maxTileID es hok src maxZoom headerLen metaLen rootLen leafLen
      exact ⟨res, hres, by rw [hlen, ht]⟩
  · intro htdl hlo hhi
    have hA : ¬ skipped maxTileID ⟨0, 0, 100, 3⟩ := by unfold skipped; simp; omega
    have hB : ¬ skipped maxTileID ⟨100, 0, 100, 1⟩ := by unfold skipped; simp; omega
    have hrA : resolveOffset hdr ⟨0, 0, 100, 3⟩ = some 0 :=
      @resolveOffset_rel hdr ⟨0, 0, 100, 3⟩ (by rw [htdl]; decide)
    have hrB : resolveOffset hdr ⟨100, 0, 100, 1⟩ = some 0 :=
      @resolveOffset_rel hdr ⟨100, 0, 100, 1⟩ (by rw [htdl]; decide)
    have hlA : runLen maxTileID ⟨0, 0, 100, 3⟩ = 3 := by
      rw [@runLen_nowrap maxTileID ⟨0, 0, 100, 3⟩ hhi (by show 0 < maxTileID; omega)
        (by decide)]
      show min (max 3 1) (maxTileID - 0) = 3
      omega
    have hlB : runLen maxTileID ⟨100, 0, 100, 1⟩ = 1 := by
      rw [@runLen_nowrap maxTileID ⟨100, 0, 100, 1⟩ hhi (by show 100 < maxTileID; omega)
        (by decide)]
      show min (max 1 1) (maxTileID - 100) = 1
      omega
    have hst : passOne hdr maxTileID [⟨0, 0, 100, 3⟩, ⟨100, 0, 100, 1⟩] =
        { entries := [⟨0, 0, 100, 3⟩, ⟨100, 0, 100, 1⟩], addressed := 4,
          seen := [⟨0, 100⟩], ranges := [⟨0, 100⟩], opErr := none } := by
      show op hdr maxTileID (op hdr maxTileID PassState.init ⟨0, 0, 100, 3⟩)
        ⟨100, 0, 100, 1⟩ = _
      rw [op_entries_of_resolve hdr maxTileID _ _ 0 hhi rfl hA hrA,
        op_entries_of_resolve hdr maxTileID _ _ 0 hhi rfl hB hrB]
      simp only [keptState, keptEntry, hlA, hlB, keyOf, PassState.init]
      decide
    have hsr : sortedRanges hdr maxTileID [⟨0, 0, 100, 3⟩, ⟨100, 0, 100, 1⟩] = [⟨0, 100⟩] := by
      unfold sortedRanges; rw [hst]; rfl
    refine ⟨by rw [hst], by rw [hst], ?_, hsr, ?_⟩
    · unfold rewrittenEntries
      rw [rewriteEntries_length, hst]
      rfl
    · unfold tileBytesOf
      rw [hsr]
      decide

/-- C15, witness: the scenario with cutoff 341 (the first tile of zoom 5); the
one distinct range has length 100, which is the output tile-data length. -/
theorem shared_ranges_once_witness :
    ((passOne (exHdr 5000 1000) 341
        [⟨0, 0, 100, 3⟩, ⟨100, 0, 100, 1⟩]).ranges.map tileKey.len).sum < U64 ∧
    ((exHdr 5000 1000).TileDataLength = 1000 ∧ 100 < 341 ∧ 341 < U64) ∧
    (passOne (exHdr 5000 1000) 341 [⟨0, 0, 100, 3⟩, ⟨100, 0, 100, 1⟩]).ranges = [⟨0, 100⟩] ∧
    tileBytesOf (exHdr 5000 1000) 341 [⟨0, 0, 100, 3⟩, ⟨100, 0, 100, 1⟩] =
      ((passOne (exHdr 5000 1000) 341
        [⟨0, 0, 100, 3⟩, ⟨100, 0, 100, 1⟩]).ranges.map tileKey.len).sum ∧
    (passOne (exHdr 5000 1000) 341 [⟨0, 0, 100, 3⟩, ⟨100, 0, 100, 1⟩]).opErr = none ∧
    (passOne (exHdr 5000 1000) 341 [⟨0, 0, 100, 3⟩, ⟨100, 0, 100, 1⟩]).entries =
      [⟨0, 0, 100, 3⟩, ⟨100, 0, 100, 1⟩] ∧
    (rewrittenEntries (exHdr 5000 1000) 341 [⟨0, 0, 100, 3⟩, ⟨100, 0, 100, 1⟩]).length = 2 ∧
    sortedRanges (exHdr 5000 1000) 341 [⟨0, 0, 100, 3⟩, ⟨100, 0, 100, 1⟩] = [⟨0, 100⟩] ∧
    tileBytesOf (exHdr 5000 1000) 341 [⟨0, 0, 100, 3⟩, ⟨100, 0, 100, 1⟩] = 100 :=
  ⟨by decide, ⟨by decide, by decide, by decide⟩, by decide,
    (shared_ranges_once (exHdr 5000 1000) 341 [⟨0, 0, 100, 3⟩, ⟨100, 0, 100, 1⟩]
      (by decide)).1.2.2.1,
    (shared_ranges_once (exHdr 5000 1000) 341 [⟨0, 0, 100, 3⟩, ⟨100, 0, 100, 1⟩]
      (by decide)).2 (by decide) (by decide) (by decide)⟩

/-- C15, counterexample: a stream of `2 ^ 32 + 3` well-formed entries, entry
`i` being tile `i` with offset `i` and length `2 ^ 32 - 1`, in a tile-data
region of `2 ^ 34` bytes, trimmed to maximum zoom 16 (cutoff 5726623061, the
first tile of zoom 17).  The pass succeeds, the ranges are distinct and their
lengths add up to `(2 ^ 32 + 3) * (2 ^ 32 - 1)`; the `uint64` total of line 150
wraps, so `tileBytes` and the header's `TileDataLength` are `2 ^ 33 - 3`. -/
theorem shared_ranges_once_counterexample :
    (∀ e ∈ wideStream (2 ^ 32 + 3) (2 ^ 32 - 1), e.wf) ∧
    (passOne (exHdr 5000 (2 ^ 34)) 5726623061 (wideStream (2 ^ 32 + 3) (2 ^ 32 - 1))).opErr =
      none ∧
    (passOne (exHdr 5000 (2 ^ 34)) 5726623061
      (wideStream (2 ^ 32 + 3) (2 ^ 32 - 1))).ranges.Nodup ∧
    ((passOne (exHdr 5000 (2 ^ 34)) 5726623061
      (wideStream (2 ^ 32 + 3) (2 ^ 32 - 1))).ranges.map tileKey.len).sum =
        (2 ^ 32 + 3) * (2 ^ 32 - 1) ∧
    tileBytesOf (exHdr 5000 (2 ^ 34)) 5726623061 (wideStream (2 ^ 32 + 3) (2 ^ 32 - 1)) =
      2 ^ 33 - 3 ∧
    (∃ res, trim [] (exHdr 5000 (2 ^ 34)) 16 5726623061
        (wideStream (2 ^ 32 + 3) (2 ^ 32 - 1)) 127 0 (fun _ => 0) (fun _ => 0) =
        Except.ok res ∧
      res.outHdr.TileDataLength = 2 ^ 33 - 3) ∧
    ¬ (tileBytesOf (exHdr 5000 (2 ^ 34)) 5726623061 (wideStream (2 ^ 32 + 3) (2 ^ 32 - 1)) =
      ((passOne (exHdr 5000 (2 ^ 34)) 5726623061
        (wideStream (2 ^ 32 + 3) (2 ^ 32 - 1))).ranges.map tileKey.len).sum) := by
  have hc : (5726623061 : Nat) < U64 := by decide
  have hn : 2 ^ 32 + 3 ≤ 5726623061 := by decide
  have hlen : 2 ^ 32 - 1 ≠ 0 := by decide
  have hfit : 2 ^ 32 + 3 + (2 ^ 32 - 1) ≤ (exHdr 5000 (2 ^ 34)).TileDataLength := by decide
  have hT : (exHdr 5000 (2 ^ 34)).TileDataLength < U64 := by decide
  have hok := (wideStream_sortedRanges (exHdr 5000 (2 ^ 34)) 5726623061 (2 ^ 32 + 3)
    (2 ^ 32 - 1) hc hn hlen hfit hT).1
  have ht := wideStream_total (exHdr 5000 (2 ^ 34)) 5726623061 (2 ^ 32 + 3) (2 ^ 32 - 1)
    hc hn hlen hfit hT
  have e1 : ((2 ^ 32 + 3) * (2 ^ 32 - 1)) % U64 = 2 ^ 33 - 3 := by decide
  have hbytes := ht.2.trans e1
  obtain ⟨res, hres, _, _, _, _, _, _, _, hlen1⟩ :=
    trim_counts (exHdr 5000 (2 ^ 34)) 5726623061 (wideStream (2 ^ 32 + 3) (2 ^ 32 - 1)) hok
      [] 16 127 0 (fun _ => 0) (fun _ => 0)
  refine ⟨?_, hok, (dedupInv_passOne _ _ _).1, ht.1, hbytes,
    ⟨res, hres, by rw [hlen1]; exact hbytes⟩, ?_⟩
  · intro e he
    unfold wideStream at he
    rw [List.mem_map] at he
    obtain ⟨i, hi, hie⟩ := he
    rw [List.mem_range] at hi
    rw [← hie]
    unfold EntryV3.wf U64 U32
    refine ⟨?_, ?_, ?_, ?_⟩
    · show i < 2 ^ 64
      omega
    · show i < 2 ^ 64
      omega
    · show 2 ^ 32 - 1 < 2 ^ 32
      decide
    · show 1 < 2 ^ 32
      decide
  · rw [hbytes, ht.1]
    decide


/-- C16 (amended): for every source header and entry stream on which the
engine succeeds without 64-bit wrap-around in the bounds tests and whose
distinct ranges do not overlap one another in the source region, the output
tile-data length `tileBytes` is the exact sum of the lengths of the distinct
ranges and is at most the source header's `TileDataLength`. -/
theorem tile_data_not_larger (hdr : HeaderV3) (maxTileID : Nat) (es : List EntryV3)
    (hok : (passOne hdr maxTileID es).opErr = none)
    (hreg : hdr.TileDataOffset + hdr.TileDataLength < U64)
    (hnw : ∀ e ∈ es, ¬ skipped maxTileID e → e.Offset + e.Length < U64)
    (hdis : (passOne hdr maxTileID es).ranges.Pairwise disjointKeys) :
    tileBytesOf hdr maxTileID es =
        ((passOne hdr maxTileID es).ranges.map tileKey.len).sum ∧
      tileBytesOf hdr maxTileID es ≤ hdr.TileDataLength ∧
      ∀ (src : List Nat) (maxZoom headerLen metaLen : Nat)
          (rootLen leafLen : List EntryV3 → Nat),
        ∃ res, trim src hdr maxZoom maxTileID es headerLen metaLen rootLen leafLen =
            Except.ok res ∧
          res.tileBytes ≤ hdr.TileDataLength ∧
          res.outHdr.TileDataLength ≤ hdr.TileDataLength := by
  have hperm := sortRanges_perm (passOne hdr maxTileID es).ranges
  have hdis' : (sortedRanges hdr maxTileID es).Pairwise disjointKeys :=
    (hperm.pairwise_iff (fun h => disjointKeys_symm h)).2 hdis
  have hle := sum_len_le_of_disjoint hdr.TileDataLength (sortedRanges hdr maxTileID es) 0
    (sortRanges_sorted _) hdis' (sortedRanges_len_pos hdr maxTileID es)
    (sortedRanges_bound hdr maxTileID es hreg hnw) (fun _ _ => Nat.zero_le _)
  have hsum : ((passOne hdr maxTileID es).ranges.map tileKey.len).sum ≤ hdr.TileDataLength := by
    rw [← (hperm.map tileKey.len).sum_eq]
    exact hle
  have heq : tileBytesOf hdr maxTileID es =
      ((passOne hdr maxTileID es).ranges.map tileKey.len).sum := by
    rw [tileBytesOf_eq]
    exact Nat.mod_eq_of_lt (by omega)
  refine ⟨heq, by rw [heq]; exact hsum, ?_⟩
  intro src maxZoom headerLen metaLen rootLen leafLen
  obtain ⟨res, h1, _, _, _, h2, h3, _⟩ :=
    trim_of_ok src hdr maxZoom maxTileID es headerLen metaLen rootLen leafLen hok
  exact ⟨res, h1, by rw [h2, heq]; exact hsum, by rw [h3, heq]; exact hsum⟩

/-- C16, witness: two ranges `(0, 4)` and `(4, 6)` of a 10-byte region, the
first shared by two entries. -/
theorem tile_data_not_larger_witness :
    ((passOne (exHdr 5000 10) 8 [⟨1, 0, 4, 1⟩, ⟨2, 4, 6, 1⟩, ⟨3, 0, 4, 1⟩]).opErr = none ∧
      (exHdr 5000 10).TileDataOffset + (exHdr 5000 10).TileDataLength < U64 ∧
      (∀ e ∈ [(⟨1, 0, 4, 1⟩ : EntryV3), ⟨2, 4, 6, 1⟩, ⟨3, 0, 4, 1⟩],
        ¬ skipped 8 e → e.Offset + e.Length < U64) ∧
      (passOne (exHdr 5000 10) 8
        [⟨1, 0, 4, 1⟩, ⟨2, 4, 6, 1⟩, ⟨3, 0, 4, 1⟩]).ranges.Pairwise disjointKeys) ∧
    tileBytesOf (exHdr 5000 10) 8 [⟨1, 0, 4, 1⟩, ⟨2, 4, 6, 1⟩, ⟨3, 0, 4, 1⟩] = 10 ∧
    tileBytesOf (exHdr 5000 10) 8 [⟨1, 0, 4, 1⟩, ⟨2, 4, 6, 1⟩, ⟨3, 0, 4, 1⟩] ≤
      (exHdr 5000 10).TileDataLength :=
  ⟨⟨by decide, by decide, by decide, by decide⟩, by decide,
    (tile_data_not_larger (exHdr 5000 10) 8 [⟨1, 0, 4, 1⟩, ⟨2, 4, 6, 1⟩, ⟨3, 0, 4, 1⟩]
      (by decide) (by decide) (by decide) (by decide)).2.1⟩

/-- C16, counterexample: a tile-data region of 10 bytes and two entries with
the ranges `(0, 10)` and `(0, 9)`.  Both are in bounds, the pass succeeds, the
two keys differ, so both ranges are copied and `tileBytes = 19`, which is also
the output header's `TileDataLength`; it exceeds the source `TileDataLength`. -/
theorem tile_data_not_larger_counterexample :
    (exHdr 5000 10).TileDataLength = 10 ∧
    (passOne (exHdr 5000 10) 8 [⟨1, 0, 10, 1⟩, ⟨2, 0, 9, 1⟩]).opErr = none ∧
    sortedRanges (exHdr 5000 10) 8 [⟨1, 0, 10, 1⟩, ⟨2, 0, 9, 1⟩] = [⟨0, 9⟩, ⟨0, 10⟩] ∧
    rewrittenEntries (exHdr 5000 10) 8 [⟨1, 0, 10, 1⟩, ⟨2, 0, 9, 1⟩] =
      [⟨1, 9, 10, 1⟩, ⟨2, 0, 9, 1⟩] ∧
    tileBytesOf (exHdr 5000 10) 8 [⟨1, 0, 10, 1⟩, ⟨2, 0, 9, 1⟩] = 19 ∧
    (∃ res, trim (List.range 6000) (exHdr 5000 10) 3 8 [⟨1, 0, 10, 1⟩, ⟨2, 0, 9, 1⟩] 127 0
        (fun _ => 0) (fun _ => 0) = Except.ok res ∧ res.outHdr.TileDataLength = 19) ∧
    ¬ (tileBytesOf (exHdr 5000 10) 8 [⟨1, 0, 10, 1⟩, ⟨2, 0, 9, 1⟩] ≤
        (exHdr 5000 10).TileDataLength) :=
  ⟨by decide, by decide, by decide, by decide, by decide, ⟨_, rfl, by decide⟩, by decide⟩

/-- C17: for all root, metadata and leaf byte strings, the output header has
`RootOffset` equal to the fixed header length, `RootLength`, `MetadataLength`
and `LeafDirectoryLength` equal to the lengths of the three byte strings, and
`MetadataOffset = RootOffset + RootLength`,
`LeafDirectoryOffset = MetadataOffset + MetadataLength`,
`TileDataOffset = LeafDirectoryOffset + LeafDirectoryLength` with the `uint64`
sums of lines 170-174.  When the four lengths add up to less than `2 ^ 64` the
sums are exact, and in the file written by lines 181-193 (serialized header of
the fixed length first) each region read at its offset with its length is
exactly the byte string written for it, and the tile data start at
`TileDataOffset`: the regions follow the header back to back. -/
theorem header_layout (hdr : HeaderV3) (maxZoom addressed nEntries nRanges headerLen : Nat)
    (tileBytes : Nat) (headerBytes rootBytes metaRaw leafBytes tileData : List Nat)
    (hlen : headerBytes.length = headerLen) :
    (outHeader hdr maxZoom addressed nEntries nRanges headerLen rootBytes.length
        metaRaw.length leafBytes.length tileBytes).RootOffset = headerLen ∧
    (outHeader hdr maxZoom addressed nEntries nRanges headerLen rootBytes.length
        metaRaw.length leafBytes.length tileBytes).RootLength = rootBytes.length ∧
    (outHeader hdr maxZoom addressed nEntries nRanges headerLen rootBytes.length
        metaRaw.length leafBytes.length tileBytes).MetadataLength = metaRaw.length ∧
    (outHeader hdr maxZoom addressed nEntries nRanges headerLen rootBytes.length
        metaRaw.length leafBytes.length tileBytes).LeafDirectoryLength = leafBytes.length ∧
    (outHeader hdr maxZoom addressed nEntries nRanges headerLen rootBytes.length
        metaRaw.length leafBytes.length tileBytes).MetadataOffset =
      add64 headerLen rootBytes.length ∧
    (outHeader hdr maxZoom addressed nEntries nRanges headerLen rootBytes.length
        metaRaw.length leafBytes.length tileBytes).LeafDirectoryOffset =
      add64 (add64 headerLen rootBytes.length) metaRaw.length ∧
    (outHeader hdr maxZoom addressed nEntries nRanges headerLen rootBytes.length
        metaRaw.length leafBytes.length tileBytes).TileDataOffset =
      add64 (add64 (add64 headerLen rootBytes.length) metaRaw.length) leafBytes.length ∧
    (headerLen + rootBytes.length + metaRaw.length + leafBytes.length < U64 →
      (outHeader hdr maxZoom addressed nEntries nRanges headerLen rootBytes.length
          metaRaw.length leafBytes.length tileBytes).MetadataOffset =
        headerLen + rootBytes.length ∧
      (outHeader hdr maxZoom addressed nEntries nRanges headerLen rootBytes.length
          metaRaw.length leafBytes.length tileBytes).LeafDirectoryOffset =
        headerLen + rootBytes.length + metaRaw.length ∧
      (outHeader hdr maxZoom addressed nEntries nRanges headerLen rootBytes.length
          metaRaw.length leafBytes.length tileBytes).TileDataOffset =
        headerLen + rootBytes.length + metaRaw.length + leafBytes.length ∧
      ((outputFile headerBytes rootBytes metaRaw leafBytes tileData).drop
          (outHeader hdr maxZoom addressed nEntries nRanges headerLen rootBytes.length
            metaRaw.length leafBytes.length tileBytes).RootOffset).take rootBytes.length =
        rootBytes ∧
      ((outputFile headerBytes rootBytes metaRaw leafBytes tileData).drop
          (outHeader hdr maxZoom addressed nEntries nRanges headerLen rootBytes.length
            metaRaw.length leafBytes.length tileBytes).MetadataOffset).take metaRaw.length =
        metaRaw ∧
      ((outputFile headerBytes rootBytes metaRaw leafBytes tileData).drop
          (outHeader hdr maxZoom addressed nEntries nRanges headerLen rootBytes.length
            metaRaw.length leafBytes.length tileBytes).LeafDirectoryOffset).take
          leafBytes.length = leafBytes ∧
      (outputFile headerBytes rootBytes metaRaw leafBytes tileData).drop
          (outHeader hdr maxZoom addressed nEntries nRanges headerLen rootBytes.length
            metaRaw.length leafBytes.length tileBytes).TileDataOffset = tileData) := by
  refine ⟨rfl, rfl, rfl, rfl, rfl, rfl, rfl, ?_⟩
  intro hsum
  have h1 : add64 headerLen rootBytes.length = headerLen + rootBytes.length :=
    add64_of_lt (by omega)
  have h2 : add64 (headerLen + rootBytes.length) metaRaw.length =
      headerLen + rootBytes.length + metaRaw.length := add64_of_lt (by omega)
  have h3 : add64 (headerLen + rootBytes.length + metaRaw.length) leafBytes.length =
      headerLen + rootBytes.length + metaRaw.length + leafBytes.length := add64_of_lt hsum
  have e1 : (outHeader hdr maxZoom addressed nEntries nRanges headerLen rootBytes.length
      metaRaw.length leafBytes.length tileBytes).RootOffset = headerBytes.length := hlen.symm
  have e2 : (outHeader hdr maxZoom addressed nEntries nRanges headerLen rootBytes.length
      metaRaw.length leafBytes.length tileBytes).MetadataOffset =
      (headerBytes ++ rootBytes).length := by
    show add64 headerLen rootBytes.length = _
    rw [h1, List.length_append, hlen]
  have e3 : (outHeader hdr maxZoom addressed nEntries nRanges headerLen rootBytes.length
      metaRaw.length leafBytes.length tileBytes).LeafDirectoryOffset =
      (headerBytes ++ rootBytes ++ metaRaw).length := by
    show add64 (add64 headerLen rootBytes.length) metaRaw.length = _
    rw [h1, h2, List.length_append, List.length_append, hlen]
  have e4 : (outHeader hdr maxZoom addressed nEntries nRanges headerLen rootBytes.length
      metaRaw.length leafBytes.length tileBytes).TileDataOffset =
      (headerBytes ++ rootBytes ++ metaRaw ++ leafBytes).length := by
    show add64 (add64 (add64 headerLen rootBytes.length) metaRaw.length) leafBytes.length = _
    rw [h1, h2, h3, List.length_append, List.length_append, List.length_append, hlen]
  refine ⟨?_, ?_, ?_, ?_, ?_, ?_, ?_⟩
  · show add64 headerLen rootBytes.length = _
    exact h1
  · show add64 (add64 headerLen rootBytes.length) metaRaw.length = _
    rw [h1, h2]
  · show add64 (add64 (add64 headerLen rootBytes.length) metaRaw.length) leafBytes.length = _
    rw [h1, h2, h3]
  · rw [e1]
    unfold outputFile
    rw [List.append_assoc, List.append_assoc, List.append_assoc, List.drop_left,
      List.take_left]
  · rw [e2]
    unfold outputFile
    rw [List.append_assoc (headerBytes ++ rootBytes), List.append_assoc (headerBytes ++ rootBytes),
      List.drop_left, List.append_assoc, List.take_left]
  · rw [e3]
    unfold outputFile
    rw [List.append_assoc (headerBytes ++ rootBytes ++ metaRaw), List.drop_left, List.take_left]
  · rw [e4]
    unfold outputFile
    rw [List.drop_left]

/-- C17, witness: a header of 127 bytes, then 3, 2 and 4 bytes. -/
theorem header_layout_witness :
    (List.replicate 127 0).length = 127 ∧
    (outHeader (exHdr 5000 1000) 3 0 0 0 127 3 2 4 9).RootOffset = 127 ∧
    (outHeader (exHdr 5000 1000) 3 0 0 0 127 3 2 4 9).MetadataOffset = 130 ∧
    (outHeader (exHdr 5000 1000) 3 0 0 0 127 3 2 4 9).LeafDirectoryOffset = 132 ∧
    (outHeader (exHdr 5000 1000) 3 0 0 0 127 3 2 4 9).TileDataOffset = 136 ∧
    (outHeader (exHdr 5000 1000) 3 0 0 0 127 ([1, 2, 3] : List Nat).length
        ([4, 5] : List Nat).length ([6, 7, 8, 9] : List Nat).length 9).RootOffset = 127 :=
  ⟨List.length_replicate 127 0, by decide, by decide, by decide, by decide,
    (header_layout (exHdr 5000 1000) 3 0 0 0 127 9 (List.replicate 127 0) [1, 2, 3] [4, 5]
      [6, 7, 8, 9] [10, 11] (List.length_replicate 127 0)).1⟩

/-- C18: for every input header and every requested maximum zoom `z`, the
output header has `MaxZoom = z` and `CenterZoom = min (input CenterZoom) z`;
so the output `CenterZoom` never exceeds the output `MaxZoom` and is the input
one when that was at most `z`.  The header `main` returns is this header. -/
theorem center_zoom_clamp (hdr : HeaderV3)
    (z addressed nEntries nRanges headerLen rootLen metaLen leafLen tileBytes : Nat) :
    (outHeader hdr z addressed nEntries nRanges headerLen rootLen metaLen leafLen
        tileBytes).MaxZoom = z ∧
    (outHeader hdr z addressed nEntries nRanges headerLen rootLen metaLen leafLen
        tileBytes).CenterZoom = min hdr.CenterZoom z ∧
    (outHeader hdr z addressed nEntries nRanges headerLen rootLen metaLen leafLen
        tileBytes).CenterZoom ≤
      (outHeader hdr z addressed nEntries nRanges headerLen rootLen metaLen leafLen
        tileBytes).MaxZoom ∧
    (hdr.CenterZoom ≤ z →
      (outHeader hdr z addressed nEntries nRanges headerLen rootLen metaLen leafLen
        tileBytes).CenterZoom = hdr.CenterZoom) ∧
    (∀ (src : List Nat) (maxTileID : Nat) (es : List EntryV3)
        (rootLenOf leafLenOf : List EntryV3 → Nat) (res : TrimResult),
      trim src hdr z maxTileID es headerLen metaLen rootLenOf leafLenOf = Except.ok res →
      res.outHdr.MaxZoom = z ∧ res.outHdr.CenterZoom = min hdr.CenterZoom z) := by
  refine ⟨outHeader_maxZoom _ _ _ _ _ _ _ _ _ _, outHeader_centerZoom _ _ _ _ _ _ _ _ _ _,
    ?_, ?_, ?_⟩
  · rw [outHeader_maxZoom, outHeader_centerZoom]; omega
  · intro h1; rw [outHeader_centerZoom]; omega
  · intro src maxTileID es rootLenOf leafLenOf res hres
    unfold trim at hres
    cases hop : (passOne hdr maxTileID es).opErr with
    | some err => rw [hop] at hres; cases hres
    | none =>
      rw [hop] at hres
      injection hres with hres
      subst hres
      exact ⟨outHeader_maxZoom _ _ _ _ _ _ _ _ _ _, outHeader_centerZoom _ _ _ _ _ _ _ _ _ _⟩

/-- C18, witness: a header with `CenterZoom = 6` trimmed to maximum zoom 3 gets
`CenterZoom = 3`; trimmed to maximum zoom 9 it keeps `CenterZoom = 6`. -/
theorem center_zoom_clamp_witness :
    (exHdr 5000 1000).CenterZoom = 6 ∧
    (outHeader (exHdr 5000 1000) 3 0 0 0 127 0 0 0 0).MaxZoom = 3 ∧
    (outHeader (exHdr 5000 1000) 3 0 0 0 127 0 0 0 0).CenterZoom = 3 ∧
    (outHeader (exHdr 5000 1000) 9 0 0 0 127 0 0 0 0).MaxZoom = 9 ∧
    (outHeader (exHdr 5000 1000) 9 0 0 0 127 0 0 0 0).CenterZoom = 6 :=
  ⟨rfl, (center_zoom_clamp (exHdr 5000 1000) 3 0 0 0 127 0 0 0 0).1,
    (center_zoom_clamp (exHdr 5000 1000) 3 0 0 0 127 0 0 0 0).2.1,
    (center_zoom_clamp (exHdr 5000 1000) 9 0 0 0 127 0 0 0 0).1,
    (center_zoom_clamp (exHdr 5000 1000) 9 0 0 0 127 0 0 0 0).2.2.2.1 (by decide)⟩

/-- C19: for every header, entry stream of well-formed run lengths and cutoffs
`c2 ≤ c1 < 2 ^ 64` on which the engine succeeds with cutoff `c1` without
wrap-around of `tileBytes`, running the engine with cutoff `c2` on its own
output for `c1` (the rewritten entries, under any header whose
`TileDataLength` is the first run's `tileBytes`) succeeds and yields the same
final entry sequence, the same number of distinct ranges, the same addressed
count and the same `tileBytes` as running it once with cutoff `c2` on the
original stream, which succeeds as well; with `c2 = c1` the second run returns
the entries it was given, offsets included. -/
theorem trim_composes (hdr hdr1 : HeaderV3) (c1 c2 : Nat) (es : List EntryV3)
    (hc : c2 ≤ c1) (hc1 : c1 < U64) (hwf : ∀ e ∈ es, e.RunLength < U32)
    (hok : (passOne hdr c1 es).opErr = none)
    (hsum : ((sortedRanges hdr c1 es).map tileKey.len).sum < U64)
    (hlen1 : hdr1.TileDataLength = tileBytesOf hdr c1 es) :
    (passOne hdr1 c2 (rewrittenEntries hdr c1 es)).opErr = none ∧
    (passOne hdr c2 es).opErr = none ∧
    rewrittenEntries hdr1 c2 (rewrittenEntries hdr c1 es) = rewrittenEntries hdr c2 es ∧
    (sortedRanges hdr1 c2 (rewrittenEntries hdr c1 es)).length =
      (sortedRanges hdr c2 es).length ∧
    (passOne hdr1 c2 (rewrittenEntries hdr c1 es)).addressed = (passOne hdr c2 es).addressed ∧
    tileBytesOf hdr1 c2 (rewrittenEntries hdr c1 es) = tileBytesOf hdr c2 es ∧
    (c2 = c1 →
      rewrittenEntries hdr1 c2 (rewrittenEntries hdr c1 es) = rewrittenEntries hdr c1 es) := by
  obtain ⟨hokS, _, hok2, hent2, _⟩ :=
    rerun_entries hdr hdr1 c1 c2 es hc hc1 hwf hok hsum hlen1
  have hs2 := rerun_sortedRanges hdr hdr1 c1 c2 es hc hc1 hwf hok hsum hlen1
  have hndS := sortedRanges_nodup hdr c2 es
  have hnd2 := sortedRanges_nodup hdr1 c2 (rewrittenEntries hdr c1 es)
  have hfinal : rewrittenEntries hdr1 c2 (rewrittenEntries hdr c1 es) =
      rewrittenEntries hdr c2 es := by
    show rewriteEntries (remapOf hdr1 c2 (rewrittenEntries hdr c1 es))
        (passOne hdr1 c2 (rewrittenEntries hdr c1 es)).entries =
      rewriteEntries (remapOf hdr c2 es) (passOne hdr c2 es).entries
    rw [rewriteEntries_eq_map, rewriteEntries_eq_map, hent2, List.map_map]
    apply List.map_congr_left
    intro x hx
    obtain ⟨i, hi⟩ := List.getElem?_of_mem (keyOf_mem_sortedRanges hdr c2 es x hx)
    have hi2 : (sortedRanges hdr1 c2 (rewrittenEntries hdr c1 es))[i]? =
        some (rekey (remapOf hdr c1 es) (keyOf x)) := by
      rw [hs2, List.getElem?_map, hi]; rfl
    have h2 : (remapOf hdr1 c2 (rewrittenEntries hdr c1 es)).get
        (rekey (remapOf hdr c1 es) (keyOf x)) = (remapOf hdr c2 es).get (keyOf x) := by
      have h3 : (remapOf hdr1 c2 (rewrittenEntries hdr c1 es)).get
          (rekey (remapOf hdr c1 es) (keyOf x)) =
          plannedOffset (sortedRanges hdr1 c2 (rewrittenEntries hdr c1 es)) i :=
        buildRemap_get _ hnd2 i _ hi2
      have h4 : (remapOf hdr c2 es).get (keyOf x) = plannedOffset (sortedRanges hdr c2 es) i :=
        buildRemap_get _ hndS i _ hi
      rw [h3, h4, hs2, plannedOffset_map_rekey]
    show ({ TileID := x.TileID,
            Offset := (remapOf hdr1 c2 (rewrittenEntries hdr c1 es)).get
              (rekey (remapOf hdr c1 es) (keyOf x)),
            Length := x.Length, RunLength := x.RunLength } : EntryV3) =
      { TileID := x.TileID, Offset := (remapOf hdr c2 es).get (keyOf x),
        Length := x.Length, RunLength := x.RunLength }
    rw [h2]
  refine ⟨hok2, hokS, hfinal, ?_, ?_, ?_, ?_⟩
  · rw [hs2, List.length_map]
  · rw [passOne_addressed, passOne_addressed hdr c2 es, hent2, List.map_map]
    rfl
  · unfold tileBytesOf
    rw [buildRemap_total, buildRemap_total, hs2, map_len_rekey]
  · intro h
    rw [hfinal, h]

/-- C19, witness: cutoffs 8 and 4 on a stream of four entries, two of them
sharing a range and one given by an absolute offset; the first run yields three
entries and 110 bytes, and trimming its output to cutoff 4 yields what
trimming the original stream to cutoff 4 yields. -/
theorem trim_composes_witness :
    (4 ≤ 8 ∧ 8 < U64 ∧
      (∀ e ∈ [(⟨1, 50, 100, 1⟩ : EntryV3), ⟨2, 5000, 10, 0⟩, ⟨3, 50, 100, 9⟩, ⟨9, 0, 7, 1⟩],
        e.RunLength < U32) ∧
      (passOne (exHdr 5000 1000) 8
        [⟨1, 50, 100, 1⟩, ⟨2, 5000, 10, 0⟩, ⟨3, 50, 100, 9⟩, ⟨9, 0, 7, 1⟩]).opErr = none ∧
      ((sortedRanges (exHdr 5000 1000) 8
        [⟨1, 50, 100, 1⟩, ⟨2, 5000, 10, 0⟩, ⟨3, 50, 100, 9⟩, ⟨9, 0, 7, 1⟩]).map
          tileKey.len).sum < U64 ∧
      (exHdr 127 110).TileDataLength = tileBytesOf (exHdr 5000 1000) 8
        [⟨1, 50, 100, 1⟩, ⟨2, 5000, 10, 0⟩, ⟨3, 50, 100, 9⟩, ⟨9, 0, 7, 1⟩]) ∧
    rewrittenEntries (exHdr 5000 1000) 8
        [⟨1, 50, 100, 1⟩, ⟨2, 5000, 10, 0⟩, ⟨3, 50, 100, 9⟩, ⟨9, 0, 7, 1⟩] =
      [⟨1, 10, 100, 1⟩, ⟨2, 0, 10, 1⟩, ⟨3, 10, 100, 5⟩] ∧
    rewrittenEntries (exHdr 5000 1000) 4
        [⟨1, 50, 100, 1⟩, ⟨2, 5000, 10, 0⟩, ⟨3, 50, 100, 9⟩, ⟨9, 0, 7, 1⟩] =
      [⟨1, 10, 100, 1⟩, ⟨2, 0, 10, 1⟩, ⟨3, 10, 100, 1⟩] ∧
    rewrittenEntries (exHdr 127 110) 4
        (rewrittenEntries (exHdr 5000 1000) 8
          [⟨1, 50, 100, 1⟩, ⟨2, 5000, 10, 0⟩, ⟨3, 50, 100, 9⟩, ⟨9, 0, 7, 1⟩]) =
      rewrittenEntries (exHdr 5000 1000) 4
        [⟨1, 50, 100, 1⟩, ⟨2, 5000, 10, 0⟩, ⟨3, 50, 100, 9⟩, ⟨9, 0, 7, 1⟩] :=
  ⟨⟨by decide, by decide, by decide, by decide, by decide, by decide⟩, by decide, by decide,
    (trim_composes (exHdr 5000 1000) (exHdr 127 110) 8 4
      [⟨1, 50, 100, 1⟩, ⟨2, 5000, 10, 0⟩, ⟨3, 50, 100, 9⟩, ⟨9, 0, 7, 1⟩]
      (by decide) (by decide) (by decide) (by decide) (by decide) (by decide)).2.2.1⟩

/-- C20, the code at a failing input: an archive with `MinZoom = 5`,
`MaxZoom = 10`, trimmed to maximum zoom 3 (cutoff 85, the first tile of zoom
4).  Its entries, all of zoom 5 or more (tile 341 on), are dropped, `main`
succeeds, and the output header keeps `MinZoom = 5` with `MaxZoom = 3`. -/
theorem zoom_range_failing_input :
    ({ exHdr 5000 1000 with MinZoom := 5, MaxZoom := 10 } : HeaderV3).MinZoom ≤
      ({ exHdr 5000 1000 with MinZoom := 5, MaxZoom := 10 } : HeaderV3).MaxZoom ∧
    ∃ res, trim [] { exHdr 5000 1000 with MinZoom := 5, MaxZoom := 10 } 3 85
        [⟨341, 0, 100, 1⟩, ⟨342, 100, 100, 1⟩] 127 0 (fun _ => 0) (fun _ => 0) =
        Except.ok res ∧
      res.entries = [] ∧ res.outHdr.MinZoom = 5 ∧ res.outHdr.MaxZoom = 3 ∧
      ¬ (res.outHdr.MinZoom ≤ res.outHdr.MaxZoom) :=
  ⟨by decide, _, rfl, by decide, by decide, by decide, by decide⟩

end TrimPmtiles
